import Mathlib

/-!
# rummiGo: the rule engine of `src/rummikub`

A shallow embedding of the Go package `rummikub` (bricks, combinations, rules,
players, moves, the game state machine, the search space of the solver and the
turns of the AI players) together with theorems about the validity checks of
combinations, the move-legality check `GameState.IsLegalMove`, the commit step
`GameState.ProcessMove`, the problem that `ILPSolver.Solve` builds and the
recursion `GameState.RunAITurns`.

Conventions of the embedding
* Go `int` is `Int`; Go `string` is `String`; a slice is a `List`. The
  arithmetic of the package is on counters bounded by the length of a slice and
  on the summed brick values of one move; that sum is taken in the arithmetic
  of the 64-bit `int` of Go, two's complement with wrap-around (`wrapInt`).
* A Go `map[K]...` used as a set or as a counter is a duplicate-free list of
  its keys together with `List.count`. Go leaves the iteration order of a map
  unspecified; where the source ranges over a map the model visits the keys in
  the order `List.dedup` gives, and the theorems only speak of the result as a
  multiset.
* A Go panic (an index out of range) is `none`.
* A method with a pointer receiver that mutates the game returns the new game.
* A `uint32` hash is a `Nat` below `2^32`.
* The external package `ilp` is not part of the embedding: the problem that
  `Solve` hands to it is a value of `ILPProblem`, and what its `Solve` returns
  is an argument of the model.
* The solver handle of a player is an argument of the functions that use it,
  and the recursion of `RunAITurns` carries a bound on its depth.
-/

namespace Rummikub

/-! ## brickcombination.go -/

/-- The colour string that marks a joker. -/
def JokerColor : String := "joker"

/-- The central brick: a value and a colour. -/
structure Brick where
  Value : Int
  Color : String
deriving DecidableEq, Repr

/-- The zero value of the Go struct `Brick`. -/
def Brick.zero : Brick := ⟨0, ""⟩

/-- Source `MakeJoker`: a joker carries value 1 and the joker colour. -/
def MakeJoker : Brick := ⟨1, JokerColor⟩

/-- Source `BrickSliceDiff(a, b)`: every brick of `b` as often as it occurs
more often in `b` than in `a`. The keys of `bBrickCounts` are visited in the
order of `List.dedup`. -/
def BrickSliceDiff (a b : List Brick) : List Brick :=
  b.dedup.flatMap fun brick =>
    let timesInB : Int := b.count brick
    let timesInA : Int := a.count brick
    let delta := timesInB - timesInA
    if delta > 0 then List.replicate delta.toNat brick else []

/-- A combination: a slice of bricks. -/
structure BrickCombination where
  Bricks : List Brick
deriving DecidableEq, Repr

/-- Source `BrickCombination.getBricks`. -/
def BrickCombination.getBricks (c : BrickCombination) : List Brick := c.Bricks

/-- Source `DissolveCombinations`: the bricks of all combinations, in order. -/
def DissolveCombinations (combinations : List BrickCombination) : List Brick :=
  combinations.foldl (fun bricks c => bricks ++ c.getBricks) []

/-- Source `BrickCombination.Contains`. -/
def BrickCombination.Contains (c : BrickCombination) (value : Int) (color : String) : Bool :=
  c.getBricks.any fun a => a.Color == color && a.Value == value

def COMBINATION_TOO_SMALL : String := "combination is smaller than 3"
def VALID_RUN : String := "combination is a valid run"
def VALID_GROUP : String := "combination is a valid group"
def CONTAINS_ONLY_JOKERS : String := "combination contains only jokers"
def CONTAINS_MULTIPLE_VALUES : String :=
  "not a group: combination contains more than one unique value"
def CONTAINS_MULTIPLE_COLORS : String :=
  "not a run: combination contains uniqueBricks of more than one color"
def CONTAINS_DUPLICATE_VALUES : String := "not a run: combination contains duplicate values"
def COLORS_NOT_UNIQUE : String := "not a group: combination contains duplicates of a color"
def NOT_CONSECUTIVE : String :=
  "not a run: brick values not consecutive or semi-consecutive (i.e. with joker)"

/-- The loop `for _, b := range c.Bricks` with the flag `ok` that both validity
tests start with: is there a brick that is not a joker. -/
def containsNonJoker (bricks : List Brick) : Bool :=
  bricks.any fun b => b.Color != JokerColor

/-- The colour loop of `IsValidGroup`: `colorMap` holds the colours seen so
far (jokers included); the result is `true` when the loop returns early on a
repeated colour that is not the joker colour. -/
def groupColorRepeated : List Brick → List String → Bool
  | [], _ => false
  | b :: rest, colorMap =>
    if colorMap.contains b.Color && b.Color != JokerColor then true
    else groupColorRepeated rest (b.Color :: colorMap)

/-- Source `BrickCombination.IsValidGroup`. -/
def BrickCombination.IsValidGroup (c : BrickCombination) : Bool × String :=
  if c.Bricks.length < 3 then (false, COMBINATION_TOO_SMALL)
  else if !containsNonJoker c.Bricks then (false, CONTAINS_ONLY_JOKERS)
  else
    let valueMap := ((c.Bricks.filter fun b => b.Color != JokerColor).map Brick.Value).dedup
    if valueMap.length > 1 then (false, CONTAINS_MULTIPLE_VALUES)
    else if groupColorRepeated c.Bricks [] then (false, COLORS_NOT_UNIQUE)
    else (true, VALID_GROUP)

/-- The value loop of `IsValidRun`: `valueMap` holds the values seen so far
(the values of jokers included); the result is `true` when the loop returns
early on a repeated value carried by a brick that is not a joker. -/
def runValueRepeated : List Brick → List Int → Bool
  | [], _ => false
  | b :: rest, valueMap =>
    if valueMap.contains b.Value && b.Color != JokerColor then true
    else runValueRepeated rest (b.Value :: valueMap)

/-- The loop of `IsValidRun` that finds the highest valued brick that is not a
joker, starting from the zero brick and `highestVal = 0`. -/
def highestBrick (bricks : List Brick) : Brick :=
  (bricks.foldl (fun (acc : Brick × Int) b =>
    if b.Value > acc.2 && b.Color != JokerColor then (b, b.Value) else acc) (Brick.zero, 0)).1

/-- The loop of `IsValidRun` that finds the lowest valued brick that is not a
joker, starting from the zero brick and `lowestVal = 100000`. -/
def lowestBrick (bricks : List Brick) : Brick :=
  (bricks.foldl (fun (acc : Brick × Int) b =>
    if b.Value < acc.2 && b.Color != JokerColor then (b, b.Value) else acc)
    (Brick.zero, 100000)).1

/-- The final loop of `IsValidRun`, `for v := highest.Value; v >= lowest.Value; v--`,
with `n` the number of iterations still to run: `false` when a missing value
meets an exhausted joker count. -/
def runWalk (c : BrickCombination) (color : String) : Nat → Int → Int → Bool
  | 0, _, _ => true
  | n + 1, v, jokerCount =>
    if !c.Contains v color then
      if jokerCount > 0 then runWalk c color n (v - 1) (jokerCount - 1) else false
    else runWalk c color n (v - 1) jokerCount

/-- Source `BrickCombination.IsValidRun`. -/
def BrickCombination.IsValidRun (c : BrickCombination) : Bool × String :=
  if c.Bricks.length < 3 then (false, COMBINATION_TOO_SMALL)
  else if !containsNonJoker c.Bricks then (false, CONTAINS_ONLY_JOKERS)
  else
    let colorMap := ((c.Bricks.filter fun b => b.Color != JokerColor).map Brick.Color).dedup
    if colorMap.length > 1 then (false, CONTAINS_MULTIPLE_COLORS)
    else if runValueRepeated c.Bricks [] then (false, CONTAINS_DUPLICATE_VALUES)
    else
      let jokerCount : Int := (c.Bricks.filter fun b => b.Color == JokerColor).length
      let highest := highestBrick c.Bricks
      let lowest := lowestBrick c.Bricks
      if runWalk c highest.Color (highest.Value - lowest.Value + 1).toNat highest.Value jokerCount
      then (true, VALID_RUN)
      else (false, NOT_CONSECUTIVE)

/-! ## gamerules.go -/

/-- The rules of a game. -/
structure Rules where
  JokersPerCombination : Int
  Values : Int
  JokersInPlay : Int
  Colors : List String
  Replicates : Int
  StartingHandSize : Int
  FirstMoveValue : Int
deriving DecidableEq, Repr

/-- Source `NewDefaultRules`. -/
def NewDefaultRules : Rules where
  Colors := ["red", "green", "blue", "yellow"]
  Values := 13
  JokersPerCombination := 1
  JokersInPlay := 2
  StartingHandSize := 14
  Replicates := 2
  FirstMoveValue := 14

/-- Source `Rules.BaseBricks`: for `val` from 1 to `Values`, one brick of each
colour. -/
def Rules.BaseBricks (g : Rules) : List Brick :=
  (List.range g.Values.toNat).flatMap fun k =>
    g.Colors.map fun col => (⟨(k : Int) + 1, col⟩ : Brick)

/-- Source `Rules.AllBricks`: `Replicates` copies of the base bricks followed by
`JokersInPlay` jokers. -/
def Rules.AllBricks (g : Rules) : List Brick :=
  ((List.range g.Replicates.toNat).flatMap fun _ => g.BaseBricks) ++
    List.replicate g.JokersInPlay.toNat MakeJoker

def LEGAL_COMBINATION : String := "Combination is valid"
def TOO_MANY_JOKERS_IN_COMBINATION : String := "Too many Jokers in combination"
def ILLEGAL_COMBINATION : String := "Combination is neither a valid group or a valid run"
def VALUE_OUT_OF_BOUNDS : String := "Brick value invalid: brick value outside of game bounds"
def UNKNOWN_COLOR : String := "Brick color was not found in game rules"

/-- The third loop of `IsLegalCombination`: count the jokers brick by brick and
return early (`true`) as soon as the running count exceeds
`JokersPerCombination`; the comparison is made after every brick. -/
def tooManyJokers (limit : Int) : List Brick → Int → Bool
  | [], _ => false
  | brick :: rest, jokercount =>
    let jokercount := if brick.Color == JokerColor then jokercount + 1 else jokercount
    if jokercount > limit then true else tooManyJokers limit rest jokercount

/-- Source `Rules.IsLegalCombination`. -/
def Rules.IsLegalCombination (g : Rules) (c : BrickCombination) : Bool × String :=
  if !(c.getBricks.all fun brick =>
      g.Colors.any fun color => brick.Color == color || brick.Color == JokerColor) then
    (false, UNKNOWN_COLOR)
  else if c.getBricks.any fun brick => brick.Value > g.Values || brick.Value < 1 then
    (false, VALUE_OUT_OF_BOUNDS)
  else if tooManyJokers g.JokersPerCombination c.getBricks 0 then
    (false, TOO_MANY_JOKERS_IN_COMBINATION)
  else
    let isRun := c.IsValidRun.1
    let isGroup := c.IsValidGroup.1
    if !(isRun || isGroup) then (false, ILLEGAL_COMBINATION)
    else (true, LEGAL_COMBINATION)

/-! ## player.go -/

/-- The state of a player. The solver handle of the Go struct is not part of
the state the game rules read. -/
structure Player where
  HandHistory : List (List Brick)
  Name : String
  Human : Bool
deriving DecidableEq, Repr

/-- A move: the proposed complete table and the name of its author. -/
structure Move where
  Arrangement : List BrickCombination
  PlayerName : String
deriving DecidableEq, Repr

/-- Source `NewAIPlayer` (without the solver handle). -/
def NewAIPlayer (name : String) : Player := ⟨[], name, false⟩

/-- Source `NewHumanPlayer` (without the solver handle). -/
def NewHumanPlayer (name : String) : Player := ⟨[], name, true⟩

/-- Source `Player.SetHand`: append a snapshot to the hand history. -/
def Player.SetHand (p : Player) (b : List Brick) : Player :=
  { p with HandHistory := p.HandHistory ++ [b] }

/-- Source `Player.Hand`: the last snapshot of the hand history, the empty
slice when there is none. -/
def Player.Hand (p : Player) : List Brick :=
  if p.HandHistory.length > 1 then p.HandHistory.getD (p.HandHistory.length - 1) []
  else if p.HandHistory.length = 0 then []
  else p.HandHistory.getD 0 []

/-- Source `Player.getName`. -/
def Player.getName (p : Player) : String := p.Name

/-- Source `Move.Bricks`: the bricks of the proposed arrangement, in order. -/
def Move.Bricks (move : Move) : List Brick :=
  move.Arrangement.foldl (fun proposedStones c => proposedStones ++ c.getBricks) []

/-- Source `NewMove`. -/
def NewMove (playerName : String) (proposedTable : List BrickCombination) : Move :=
  ⟨proposedTable, playerName⟩

/-! ## game.go -/

/-- The state of a game. -/
structure GameState where
  Players : List Player
  Pile : List Brick
  MoveHistory : List Move
  CurrentTurn : Int
  Rules : Rummikub.Rules
  Seed : Int
deriving DecidableEq, Repr

def LEGAL_MOVE : String := "move is legal"
def FORFEITED : String := "player forfeits his turn"
def NOT_YOUR_TURN : String :=
  "player named in the move object does not correspond to the name of the current player"
def NOT_OWNED : String :=
  "there are new bricks in the proposed combination that are not in the player's hand"
def BRICKS_REMOVED : String := "bricks were removed from the field"
def VALUE_INSUFFICIENT : String := "cumulative value of bricks insufficient"
def GAME_WON : String := "the game has been won"

/-- Source `NewEmptyGame`: the ordered pile, no move, turn 0, no seed. -/
def NewEmptyGame (rules : Rules) (ps : List Player) : GameState where
  Players := ps
  MoveHistory := []
  Pile := rules.AllBricks
  CurrentTurn := 0
  Rules := rules
  Seed := 0

/-- Source `GameState.popFromPile`: the last brick of the pile and the game
without it; no brick (the error `pile empty`) on an empty pile. -/
def GameState.popFromPile (game : GameState) : GameState × Option Brick :=
  if game.Pile.length = 1 then
    ({ game with Pile := [] }, some (game.Pile.getD 0 Brick.zero))
  else if game.Pile.length = 0 then (game, none)
  else
    ({ game with Pile := game.Pile.take (game.Pile.length - 1) },
      some (game.Pile.getD (game.Pile.length - 1) Brick.zero))

/-- Source `GameState.getRules`. -/
def GameState.getRules (game : GameState) : Rummikub.Rules := game.Rules

/-- Source `GameState.CurrentPlayer`: `&game.Players[game.CurrentTurn]`, which
panics (`none`) when `CurrentTurn` is not an index of `Players`. -/
def GameState.CurrentPlayer (game : GameState) : Option Player :=
  if game.CurrentTurn < 0 then none else game.Players[game.CurrentTurn.toNat]?

/-- A write through the pointer `&game.Players[i]`: the player at index `i` is
replaced by `f` of it. -/
def updatePlayer (f : Player → Player) : List Player → Nat → List Player
  | [], _ => []
  | p :: ps, 0 => f p :: ps
  | p :: ps, i + 1 => p :: updatePlayer f ps i

/-- The call `player.SetHand(b)` on `player := game.CurrentPlayer()`. -/
def GameState.setCurrentHand (game : GameState) (b : List Brick) : GameState :=
  { game with Players := updatePlayer (fun p => p.SetHand b) game.Players game.CurrentTurn.toNat }

/-- Source `GameState.Table`: the arrangement of the last committed move, the
empty table when there is none. -/
def GameState.Table (game : GameState) : List BrickCombination :=
  let nMoves := game.MoveHistory.length
  if nMoves = 0 then []
  else if nMoves = 1 then (game.MoveHistory.getD 0 ⟨[], ""⟩).Arrangement
  else (game.MoveHistory.getD (game.MoveHistory.length - 1) ⟨[], ""⟩).Arrangement

/-- Source `GameState.commitMove`. -/
def GameState.commitMove (game : GameState) (m : Move) : GameState :=
  { game with MoveHistory := game.MoveHistory ++ [m] }

/-- The loop of `IsLegalMove` over `move.Arrangement`: the reason of the first
combination that `IsLegalCombination` rejects, if any. -/
def firstIllegalCombination (g : Rules) : List BrickCombination → Option String
  | [] => none
  | x :: rest =>
    if !(g.IsLegalCombination x).1 then some (g.IsLegalCombination x).2
    else firstIllegalCombination g rest

/-- The value of an integer as a Go `int` of 64 bits: two's complement, from
`-2^63` to `2^63 - 1`, with wrap-around. -/
def wrapInt (x : Int) : Int :=
  (x + 9223372036854775808) % 18446744073709551616 - 9223372036854775808

/-- The loop `cumulativeBrickValue += b.Value` of `IsLegalMove`; the additions
are those of Go's `int` and wrap around. -/
def cumulativeBrickValue (newBricks : List Brick) : Int :=
  newBricks.foldl (fun acc b => wrapInt (acc + b.Value)) 0

/-- Source `GameState.IsFirstMove`. -/
def GameState.IsFirstMove (game : GameState) (playerName : String) : Bool :=
  !(game.MoveHistory.any fun m => m.PlayerName == playerName)

/-- Source `GameState.IsLegalMove`. -/
def GameState.IsLegalMove (game : GameState) (move : Move) : Option (Bool × String) :=
  match game.CurrentPlayer with
  | none => none
  | some player =>
    if player.getName != move.PlayerName then some (false, NOT_YOUR_TURN)
    else
      let proposedTableBricks := move.Bricks
      let currentTableBricks := DissolveCombinations game.Table
      if (BrickSliceDiff proposedTableBricks currentTableBricks).length > 0 then
        some (false, BRICKS_REMOVED)
      else
        let newBricks := BrickSliceDiff currentTableBricks proposedTableBricks
        if newBricks.length = 0 then some (true, FORFEITED)
        else
          let madeUpBricks := BrickSliceDiff player.Hand newBricks
          if madeUpBricks.length > 0 then some (false, NOT_OWNED)
          else
            match firstIllegalCombination game.Rules move.Arrangement with
            | some why => some (false, why)
            | none =>
              let minValueConstraint :=
                if game.MoveHistory.any fun m => m.PlayerName == player.getName then 0
                else game.getRules.FirstMoveValue
              if cumulativeBrickValue newBricks < minValueConstraint then
                some (false, VALUE_INSUFFICIENT)
              else some (true, LEGAL_MOVE)

/-- Source `GameState.HasBeenWon`: some player holds an empty hand. -/
def GameState.HasBeenWon (game : GameState) : Bool :=
  game.Players.any fun p => p.Hand.length == 0

/-- Source `GameState.cycleTurn`. -/
def GameState.cycleTurn (game : GameState) : GameState :=
  let next := game.CurrentTurn + 1
  if next > (game.Players.length : Int) - 1 then { game with CurrentTurn := 0 }
  else { game with CurrentTurn := next }

/-- Source `GameState.ProcessMove`: the game after the call, whether the move
was accepted, and the reason. -/
def GameState.ProcessMove (game : GameState) (m : Move) : Option (GameState × Bool × String) :=
  match game.IsLegalMove m, game.CurrentPlayer with
  | some (_, reason), some player =>
    if game.HasBeenWon then some (game, false, GAME_WON)
    else if reason = LEGAL_MOVE then
      let bricksPut := BrickSliceDiff (DissolveCombinations game.Table) m.Bricks
      let newHand := BrickSliceDiff bricksPut player.Hand
      let game1 := (game.setCurrentHand newHand).commitMove m
      if game1.HasBeenWon then some (game1, true, GAME_WON)
      else some (game1.cycleTurn, true, reason)
    else if reason = FORFEITED then
      let game1 := game.commitMove m
      match game1.popFromPile with
      | (game2, some b) => some ((game2.setCurrentHand (player.Hand ++ [b])).cycleTurn, true, reason)
      | (game2, none) => some (game2.cycleTurn, true, reason)
    else some (game.cycleTurn, false, reason)
  | _, _ => none

/-- The shuffle of `NewGame`: `shuffledPile[v] = orderedPile[i]` for every
`i, v` of `perm`. -/
def shufflePile (orderedPile : List Brick) (perm : List Nat) : List Brick :=
  perm.enum.foldl (fun shuffledPile iv => shuffledPile.set iv.2 (orderedPile.getD iv.1 Brick.zero))
    (List.replicate orderedPile.length Brick.zero)

/-- The inner loop of `NewGame`: pop `n` bricks from the pile into `tmp`; a
panic (`none`) when the pile runs empty. -/
def drawHand : Nat → GameState → List Brick → Option (GameState × List Brick)
  | 0, game, tmp => some (game, tmp)
  | n + 1, game, tmp =>
    match game.popFromPile with
    | (game1, some b) => drawHand n game1 (tmp ++ [b])
    | (_, none) => none

/-- The outer loop of `NewGame` over the player indices. -/
def dealHands (handSize : Int) : List Nat → GameState → Option GameState
  | [], game => some game
  | i :: rest, game =>
    match drawHand handSize.toNat game [] with
    | some (game1, tmp) =>
      dealHands handSize rest
        { game1 with Players := updatePlayer (fun p => p.SetHand tmp) game1.Players i }
    | none => none

/-- Source `NewGame`. The permutation `rndm.Perm(len(orderedPile))` that the
seeded generator yields is the argument `perm`. -/
def NewGame (rules : Rules) (seed : Int) (perm : List Nat) (ps : List Player) : Option GameState :=
  let game := { NewEmptyGame rules ps with Seed := seed }
  let orderedPile := game.getRules.AllBricks
  let game := { game with Pile := shufflePile orderedPile perm }
  dealHands rules.StartingHandSize (List.range game.Players.length) game

/-! ## Vocabulary of the statements -/

/-- The bricks on the table, as a multiset. -/
def GameState.tableTiles (game : GameState) : Multiset Brick :=
  ↑(DissolveCombinations game.Table)

/-- The bricks of the proposed arrangement, as a multiset. -/
def Move.tiles (move : Move) : Multiset Brick := ↑move.Bricks

/-- The bricks in the hands of all players together, as a multiset. -/
def GameState.handTiles (game : GameState) : Multiset Brick :=
  (game.Players.map fun p => (↑p.Hand : Multiset Brick)).sum

/-- The states a game can reach from `start` by calls of `ProcessMove`,
whatever their outcome. -/
inductive Reachable (start : GameState) : GameState → Prop
  | start : Reachable start start
  | step (game game1 : GameState) (m : Move) (accepted : Bool) (reason : String) :
      Reachable start game → game.ProcessMove m = some (game1, accepted, reason) →
      Reachable start game1

/-- The value `IsLegalMove` returns once the author, the table and the hand
have been checked: the tail of its body, from the loop over the arrangement
on. -/
def GameState.combinationVerdict (game : GameState) (move : Move) (player : Player) :
    Option (Bool × String) :=
  match firstIllegalCombination game.Rules move.Arrangement with
  | some why => some (false, why)
  | none =>
    if cumulativeBrickValue (BrickSliceDiff (DissolveCombinations game.Table) move.Bricks) <
        (if game.MoveHistory.any fun m => m.PlayerName == player.getName then 0
          else game.getRules.FirstMoveValue) then
      some (false, VALUE_INSUFFICIENT)
    else some (true, LEGAL_MOVE)

/-! ## Scenarios of the test suite -/

/-- The table of `TestGame_IsLegalMove_FirstMoveValue`. -/
def testTable : List BrickCombination :=
  [⟨[⟨3, "green"⟩, ⟨2, "green"⟩, ⟨1, "green"⟩]⟩,
   ⟨[⟨1, "green"⟩, ⟨1, "yellow"⟩, ⟨1, "red"⟩]⟩,
   ⟨[⟨2, "yellow"⟩, ⟨3, "yellow"⟩, ⟨4, "yellow"⟩]⟩]

/-- The player of `TestGame_IsLegalMove_FirstMoveValue`. -/
def testPlayer : Player :=
  (NewAIPlayer "testplayer").SetHand
    [⟨2, "green"⟩, ⟨5, "yellow"⟩, ⟨5, "blue"⟩, ⟨5, "red"⟩, ⟨1, "yellow"⟩, ⟨1, "blue"⟩, ⟨1, "red"⟩]

/-- The game of `TestGame_IsLegalMove_FirstMoveValue`: default rules, one
player, the table committed as an anonymous first move. -/
def testGame : GameState :=
  (NewEmptyGame NewDefaultRules [testPlayer]).commitMove ⟨testTable, ""⟩

/-- The legal first move of the test: the table plus three fives. -/
def testMoveFives : Move :=
  NewMove "testplayer" (testTable ++ [⟨[⟨5, "yellow"⟩, ⟨5, "blue"⟩, ⟨5, "red"⟩]⟩])

/-- The first move of insufficient value of the test: the table plus three ones. -/
def testMoveOnes : Move :=
  NewMove "testplayer" (testTable ++ [⟨[⟨1, "yellow"⟩, ⟨1, "blue"⟩, ⟨1, "red"⟩]⟩])

/-- The forfeit of the tests: the table as it is. -/
def testMoveForfeit : Move := NewMove "testplayer" testTable

/-- Scenario 3 of the specification: only the first two combinations of the table. -/
def testMoveRemoving : Move := NewMove "testplayer" (testTable.take 2)

/-- A move that adds a combination with a brick the player does not hold and
that is no run and no group either (`TestGame_IsLegalMove_IllegalCases`). -/
def testMoveNotOwned : Move :=
  NewMove "testplayer" (testTable ++ [⟨[⟨5, "green"⟩, ⟨1, "blue"⟩, ⟨1, "red"⟩]⟩])

/-- A player who has put the whole hand on the table: the last snapshot of the
hand history is empty. -/
def winner : Player := ⟨[[⟨5, "yellow"⟩, ⟨5, "blue"⟩, ⟨5, "red"⟩], []], "testplayerA", false⟩

/-- A two-player game that the first player has won by putting the whole hand
on the table, as in `TestGame_ProcessMove_GameWon`; the pile is used up. -/
def wonGame : GameState where
  Players := [winner, ⟨[[⟨1, "yellow"⟩, ⟨1, "blue"⟩, ⟨1, "red"⟩]], "testplayerB", false⟩]
  Pile := []
  MoveHistory := [⟨[⟨[⟨5, "yellow"⟩, ⟨5, "blue"⟩, ⟨5, "red"⟩]⟩], "testplayerA"⟩]
  CurrentTurn := 0
  Rules := NewDefaultRules
  Seed := 0

/-- The first player of `TestGame_IsLegalMove_NotYourTurn`. -/
def testPlayerA : Player :=
  (NewAIPlayer "testplayerA").SetHand [⟨2, "green"⟩, ⟨1, "yellow"⟩, ⟨1, "blue"⟩, ⟨1, "red"⟩]

/-- The second player of `TestGame_IsLegalMove_NotYourTurn`. -/
def testPlayerB : Player :=
  (NewAIPlayer "testplayerB").SetHand [⟨2, "green"⟩, ⟨1, "yellow"⟩, ⟨1, "blue"⟩, ⟨1, "red"⟩]

/-- The game of `TestGame_IsLegalMove_NotYourTurn`: two players, empty table,
the turn is with the first. -/
def twoPlayerGame : GameState := NewEmptyGame NewDefaultRules [testPlayerA, testPlayerB]

/-- The forfeit of the first player of `twoPlayerGame`: the empty table as it is. -/
def forfeitA : Move := NewMove "testplayerA" []

/-- The game `ProcessMove` leaves when the first player of `twoPlayerGame`
forfeits. -/
def twoPlayerGameAfterForfeit : GameState :=
  match twoPlayerGame.ProcessMove forfeitA with
  | some r => r.1
  | none => twoPlayerGame

/-- The rejected move of `TestGame_ProcessMove_RejectedMove`, signed by the
first player of `twoPlayerGame`: a red 2 the player does not hold. -/
def rejectedMoveA : Move := NewMove "testplayerA" [⟨[⟨2, "red"⟩]⟩]

/-- A small rule set: one colour, values 1 to 3, one replicate, one joker,
hands of two bricks. -/
def smallRules : Rules where
  Colors := ["red"]
  Values := 3
  JokersPerCombination := 1
  JokersInPlay := 1
  StartingHandSize := 2
  Replicates := 1
  FirstMoveValue := 3

/-- A permutation of the four brick positions of `smallRules`. -/
def smallPerm : List Nat := [2, 0, 3, 1]

/-- The game `NewGame` deals under `smallRules` to one fresh player when the
generator yields `smallPerm`. -/
def smallGame : GameState where
  Players := [⟨[[⟨3, "red"⟩, ⟨1, "red"⟩]], "A", true⟩]
  Pile := [⟨2, "red"⟩, ⟨1, "joker"⟩]
  MoveHistory := []
  CurrentTurn := 0
  Rules := smallRules
  Seed := 7

/-- The state of `smallGame` after the player forfeits and draws the joker. -/
def smallGameAfterForfeit : GameState where
  Players := [⟨[[⟨3, "red"⟩, ⟨1, "red"⟩], [⟨3, "red"⟩, ⟨1, "red"⟩, ⟨1, "joker"⟩]], "A", true⟩]
  Pile := [⟨2, "red"⟩]
  MoveHistory := [⟨[], "A"⟩]
  CurrentTurn := 0
  Rules := smallRules
  Seed := 7

/-- The last committed move of a game, the empty anonymous move when there is
none. -/
def GameState.lastMove (game : GameState) : Move :=
  game.MoveHistory.getLastD ⟨[], ""⟩

/-- The won game with a turn counter that is no index of its two players. -/
def wonGameBadTurn : GameState := { wonGame with CurrentTurn := 2 }


/-- The run of `TestBrickCombination_RunValidityChecker` "is VALID with joker":
blue 1, blue 2 and a joker as `MakeJoker` builds it. -/
def runJokerLast : BrickCombination := ⟨[⟨1, "blue"⟩, ⟨2, "blue"⟩, MakeJoker]⟩

/-- The same three bricks with the joker first. -/
def runJokerFirst : BrickCombination := ⟨[MakeJoker, ⟨1, "blue"⟩, ⟨2, "blue"⟩]⟩


/-- A run with a gap that the joker fills: blue 1, blue 3 and a joker. -/
def runWithGap : BrickCombination := ⟨[⟨1, "blue"⟩, ⟨3, "blue"⟩, MakeJoker]⟩


/-- The four jokers of `TestIsLegalCombination`. -/
def fourJokers : BrickCombination := ⟨[MakeJoker, MakeJoker, MakeJoker, MakeJoker]⟩

/-- The default rules without any colour. -/
def colorlessRules : Rules := { NewDefaultRules with Colors := [] }

/-- A run with a joker whose `Value` field is 0, the value the comment on the
`Brick` struct gives for jokers. -/
def runWithZeroJoker : BrickCombination := ⟨[⟨1, "blue"⟩, ⟨2, "blue"⟩, ⟨0, JokerColor⟩]⟩

/-- The thirteen red bricks of the default rules in a row, and a joker. -/
def longRun : BrickCombination :=
  ⟨[⟨1, "red"⟩, ⟨2, "red"⟩, ⟨3, "red"⟩, ⟨4, "red"⟩, ⟨5, "red"⟩, ⟨6, "red"⟩, ⟨7, "red"⟩,
    ⟨8, "red"⟩, ⟨9, "red"⟩, ⟨10, "red"⟩, ⟨11, "red"⟩, ⟨12, "red"⟩, ⟨13, "red"⟩, MakeJoker]⟩

/-- The four colours of the default rules at value 1, and a joker. -/
def groupOfFive : BrickCombination :=
  ⟨[⟨1, "yellow"⟩, ⟨1, "blue"⟩, ⟨1, "green"⟩, ⟨1, "red"⟩, MakeJoker]⟩


/-! ## brickcombination.go: hashes -/

/-- The bytes `[]byte(s)` of a Go string: its UTF-8 encoding. -/
def stringBytes (s : String) : List Nat :=
  (s.data.flatMap String.utf8EncodeChar).map UInt8.toNat

/-- Go `strconv.Itoa`: the decimal digits, with a leading minus sign for a
negative number. -/
def Itoa (v : Int) : String :=
  if v < 0 then "-" ++ Nat.repr v.natAbs else Nat.repr v.toNat

/-- Go `hash/fnv` `New32a` after `Write(bytes)` on the running hash `h`: for
every byte, xor it in and multiply by the FNV prime modulo `2^32`. -/
def fnv32a (h : Nat) (bytes : List Nat) : Nat :=
  bytes.foldl (fun h b => ((h ^^^ b) * 16777619) % 4294967296) h

/-- Source `Brick.Hash`: FNV-1a (32 bit) of the digits of the value followed by
the colour. -/
def Brick.Hash (b : Brick) : Nat :=
  fnv32a (fnv32a 2166136261 (stringBytes (Itoa b.Value))) (stringBytes b.Color)

/-- Source `BrickCombination.Hash`: the xor of the hashes of the bricks. -/
def BrickCombination.Hash (c : BrickCombination) : Nat :=
  c.Bricks.foldl (fun h b => h ^^^ b.Hash) 0

/-! ## solver.go -/

/-- The search space of the solver. A Go `map[int]int` is a list of key and
value pairs, the map of combination hashes is the list of its keys. -/
structure ILPSolver where
  combinations : List BrickCombination
  uniqueBricks : List Brick
  rules : Rules
  combinationHashes : List Nat
  totalRuns : Int
  totalGroups : Int
  groupSizes : List (Int × Int)
  runSizes : List (Int × Int)
deriving DecidableEq, Repr

/-- The statement `m[k]++` on a Go `map[int]int`. -/
def mapIncr : List (Int × Int) → Int → List (Int × Int)
  | [], k => [(k, 1)]
  | (k1, v) :: rest, k => if k1 = k then (k1, v + 1) :: rest else (k1, v) :: mapIncr rest k

/-- Source `ILPSolver.addCombinations`: every combination whose hash is new is
appended and tallied as a run or else as a group; a combination that is
neither makes the function panic (`none`). -/
def ILPSolver.addCombinations (searchSpace : ILPSolver) :
    List BrickCombination → Option ILPSolver
  | [] => some searchSpace
  | combo :: rest =>
    let h := combo.Hash
    if searchSpace.combinationHashes.contains h then searchSpace.addCombinations rest
    else
      let searchSpace1 : ILPSolver :=
        { searchSpace with
          combinations := searchSpace.combinations ++ [combo]
          combinationHashes := searchSpace.combinationHashes ++ [h] }
      if combo.IsValidRun.1 then
        ILPSolver.addCombinations
          { searchSpace1 with
            totalRuns := searchSpace1.totalRuns + 1
            runSizes := mapIncr searchSpace1.runSizes combo.getBricks.length } rest
      else if combo.IsValidGroup.1 then
        ILPSolver.addCombinations
          { searchSpace1 with
            totalGroups := searchSpace1.totalGroups + 1
            groupSizes := mapIncr searchSpace1.groupSizes combo.getBricks.length } rest
      else none

/-- Source `ILPSolver.Contains`. -/
def ILPSolver.Contains (searchSpace : ILPSolver) (combo : BrickCombination) : Bool :=
  searchSpace.combinationHashes.contains combo.Hash

/-- Source `ComputeAllRuns`: per colour (the keys of `perColor` in the order of
`List.dedup`), every window of 3, 4 and 5 consecutive bricks of that colour. -/
def ComputeAllRuns (brickSet : List Brick) : List BrickCombination :=
  (brickSet.map Brick.Color).dedup.flatMap fun color =>
    let v := brickSet.filter fun x => x.Color == color
    [3, 4, 5].flatMap fun runsize =>
      (List.range (v.length + 1 - runsize)).map fun i =>
        (⟨(v.drop i).take runsize⟩ : BrickCombination)

/-- Source `combinationsWithoutReplacement`: the sublists of `k` bricks, in the
order of the slice. -/
def combinationsWithoutReplacement : List Brick → Int → List (List Brick)
  | [], _ => []
  | b :: rest, k =>
    (if k = 1 then [[b]]
      else (combinationsWithoutReplacement rest (k - 1)).map fun next => b :: next) ++
      combinationsWithoutReplacement rest k

/-- Source `ComputeAllGroups`: per value (the keys of `perValue` in the order of
`List.dedup`), first the group of all bricks of that value, then every group
of 3 of them. -/
def ComputeAllGroups (brickSet : List Brick) : List BrickCombination :=
  let values := (brickSet.map Brick.Value).dedup
  (values.map fun value =>
      (⟨brickSet.filter fun x => x.Value == value⟩ : BrickCombination)) ++
    values.flatMap fun value =>
      (combinationsWithoutReplacement (brickSet.filter fun x => x.Value == value) 3).map
        fun c => (⟨c⟩ : BrickCombination)

/-- Source `saltCombination`: for every position, a copy of the combination
with a joker at that position. -/
def saltCombination (combination : BrickCombination) : List BrickCombination :=
  (List.range combination.getBricks.length).map fun i =>
    (⟨combination.getBricks.set i MakeJoker⟩ : BrickCombination)

/-- The recursion of `saltWithJokers`, with its depth as first argument: the
salted copies of the combinations are appended, the joker count is
decremented, and the function calls itself while the count is positive. -/
def saltWithJokersRec : Nat → List BrickCombination → Int → List BrickCombination
  | 0, combinations, _ => combinations
  | depth + 1, combinations, nJokersPerCombination =>
    let combinations := combinations ++ combinations.flatMap saltCombination
    let nJokersPerCombination := nJokersPerCombination - 1
    if nJokersPerCombination > 0 then
      saltWithJokersRec depth combinations nJokersPerCombination
    else combinations

/-- Source `saltWithJokers`. The recursion is at most
`max 1 nJokersPerCombination` calls deep. -/
def saltWithJokers (combinations : List BrickCombination) (nJokersPerCombination : Int) :
    List BrickCombination :=
  saltWithJokersRec (nJokersPerCombination.toNat + 1) combinations nJokersPerCombination

/-- Source `NewILPSolver`; `none` when `addCombinations` panics. -/
def NewILPSolver (gameRules : Rules) : Option ILPSolver :=
  let brickSet := gameRules.BaseBricks
  let runs := ComputeAllRuns brickSet
  let groups := ComputeAllGroups brickSet
  let saltyGroups := saltWithJokers groups gameRules.JokersPerCombination
  let saltyRuns := saltWithJokers runs gameRules.JokersPerCombination
  let space : ILPSolver :=
    { combinations := []
      uniqueBricks := if gameRules.JokersInPlay > 0 then brickSet ++ [MakeJoker] else brickSet
      rules := gameRules
      combinationHashes := []
      totalRuns := 0
      totalGroups := 0
      groupSizes := []
      runSizes := [] }
  (((space.addCombinations saltyGroups).bind fun space => space.addCombinations saltyRuns).bind
    fun space => space.addCombinations groups).bind fun space => space.addCombinations runs

/-- Source `countBrickOccurrence`. -/
def countBrickOccurrence (set : List Brick) (b : Brick) : Int :=
  (set.filter fun a => a.Color == b.Color && a.Value == b.Value).length

/-- Modelled from the spec: a variable of the external package `ilp`, as
`AddVariable(name).SetCoeff(c).IsInteger().LowerBound(l).UpperBound(u)`
declares it: an integer variable with a name, an objective coefficient and two
bounds. -/
structure ILPVariable where
  Name : String
  Coeff : Int
  Lower : Int
  Upper : Int
deriving DecidableEq, Repr

/-- Modelled from the spec: an equality constraint of the external package
`ilp`, as `AddConstraint().AddExpression(coef, variable)...EqualTo(t)` builds
it: the terms, each a coefficient and the position of its variable in the
problem, and the right-hand side. -/
structure ILPConstraint where
  Terms : List (Int × Nat)
  EqualTo : Int
deriving DecidableEq, Repr

/-- Modelled from the spec: a maximisation problem of the external package
`ilp`: its variables in the order of their declaration and its constraints. -/
structure ILPProblem where
  Variables : List ILPVariable
  Constraints : List ILPConstraint
deriving DecidableEq, Repr

/-- Modelled from the spec: an integer assignment (a value for the variable at
every position) satisfies the bounds and the equality constraints of a problem
of the external package `ilp`. -/
def ILPProblem.Feasible (p : ILPProblem) (soln : Nat → Int) : Prop :=
  (∀ iv ∈ p.Variables.enum, iv.2.Lower ≤ soln iv.1 ∧ soln iv.1 ≤ iv.2.Upper) ∧
    ∀ con ∈ p.Constraints, (con.Terms.map fun t => t.1 * soln t.2).sum = con.EqualTo

/-- The lookup `comboVars[h]` of `Solve`: the position of the variable stored
last under the hash `h`. -/
def comboVarIndex (allCombinations : List BrickCombination) (h : Nat) : Nat :=
  allCombinations.enum.foldl (fun found ic => if ic.2.Hash = h then ic.1 else found) 0

/-- The problem that `ILPSolver.Solve` builds: a variable `combi_j` with bounds
0 and 2 and objective coefficient 0 for every combination; then for every
unique brick a variable with bounds 0 and the number of its copies in the hand
and objective coefficient 1 or, with `maxValue`, the value of the brick,
together with the constraint that the copies of the brick in the chosen
combinations minus this variable equal its copies on the table. -/
def ILPSolver.SolveProblem (searchSpace : ILPSolver) (hand : List Brick)
    (table : List BrickCombination) (maxValue : Bool) : ILPProblem :=
  let allBricks := searchSpace.uniqueBricks
  let allCombinations := searchSpace.combinations
  let tableStones := DissolveCombinations table
  { Variables :=
      (allCombinations.enum.map fun ic => (⟨"combi_" ++ Itoa ic.1, 0, 0, 2⟩ : ILPVariable)) ++
        allBricks.map fun bri =>
          (⟨bri.Color ++ "_" ++ Itoa bri.Value, if maxValue then bri.Value else 1, 0,
            countBrickOccurrence hand bri⟩ : ILPVariable)
    Constraints :=
      allBricks.enum.map fun ib =>
        (⟨(-1, allCombinations.length + ib.1) ::
            allCombinations.map fun combi =>
              (countBrickOccurrence combi.getBricks ib.2,
                comboVarIndex allCombinations combi.Hash),
          countBrickOccurrence tableStones ib.2⟩ : ILPConstraint) }

/-- The first result of `ILPSolver.Solve`: every combination as often as the
solution says for its variable. -/
def ILPSolver.combinationsToPut (searchSpace : ILPSolver) (soln : Nat → Int) :
    List BrickCombination :=
  searchSpace.combinations.enum.flatMap fun ic => List.replicate (soln ic.1).toNat ic.2

/-- The second result of `ILPSolver.Solve`: every unique brick as often as the
solution says for its variable. -/
def ILPSolver.bricksToPut (searchSpace : ILPSolver) (soln : Nat → Int) : List Brick :=
  searchSpace.uniqueBricks.enum.flatMap fun ib =>
    List.replicate (soln (searchSpace.combinations.length + ib.1)).toNat ib.2

/-- Source `ILPSolver.Solve`. The external `prob.Solve()` is the argument
`probSolve`: for a problem it returns no solution (the error of the source,
`none`) or a value for every variable. The variables are read by position;
the source reads them by name, and the names are pairwise distinct when the
unique bricks are. -/
def ILPSolver.Solve (searchSpace : ILPSolver) (hand : List Brick)
    (table : List BrickCombination) (maxValue : Bool)
    (probSolve : ILPProblem → Option (Nat → Int)) :
    Option (List BrickCombination × List Brick) :=
  match probSolve (searchSpace.SolveProblem hand table maxValue) with
  | none => none
  | some soln => some (searchSpace.combinationsToPut soln, searchSpace.bricksToPut soln)

instance (p : ILPProblem) (soln : Nat → Int) : Decidable (p.Feasible soln) := by
  unfold ILPProblem.Feasible
  infer_instance

/-! ## Scenarios of the solver -/

/-- A rule set with three colours and the single value 1: three base bricks
and one joker. -/
def tinyRules : Rules where
  Colors := ["red", "green", "blue"]
  Values := 1
  JokersPerCombination := 1
  JokersInPlay := 1
  StartingHandSize := 1
  Replicates := 1
  FirstMoveValue := 1

/-- The rule set `tinyRules` without jokers. -/
def noJokerRules : Rules := { tinyRules with JokersInPlay := 0, JokersPerCombination := 0 }

/-- The four combinations of the search space of `tinyRules` and of
`noJokerRules`: the group of the three base bricks and its three copies with a
joker. -/
def tinyCombinations : List BrickCombination :=
  [⟨[⟨1, "red"⟩, ⟨1, "green"⟩, ⟨1, "blue"⟩]⟩, ⟨[MakeJoker, ⟨1, "green"⟩, ⟨1, "blue"⟩]⟩,
    ⟨[⟨1, "red"⟩, MakeJoker, ⟨1, "blue"⟩]⟩, ⟨[⟨1, "red"⟩, ⟨1, "green"⟩, MakeJoker]⟩]

/-- The solution that chooses the last combination of `tinyCombinations`
(variable 3) once and reports red 1 and green 1 (variables 4 and 5) as bricks
to put. -/
def jokerFromNowhere : Nat → Int := fun k => if k = 3 ∨ k = 4 ∨ k = 5 then 1 else 0

/-- A table with one combination that `tinyRules` accept but the search space
lacks: the group of the three base bricks with a joker. -/
def tableOfFour : List BrickCombination :=
  [⟨[⟨1, "red"⟩, ⟨1, "green"⟩, ⟨1, "blue"⟩, MakeJoker]⟩]

/-- A table with the group of the three base bricks of `tinyRules`. -/
def tableOfThree : List BrickCombination := [⟨[⟨1, "red"⟩, ⟨1, "green"⟩, ⟨1, "blue"⟩]⟩]

/-- The solution that keeps `tableOfThree` and adds the joker of the hand with
red 1 and green 1 of the hand: combinations 0 and 3 once each, and one red 1,
one green 1 and one joker (variables 4, 5 and 7) from the hand. -/
def keepAndAdd : Nat → Int := fun k => if k = 0 ∨ k = 3 ∨ k = 4 ∨ k = 5 ∨ k = 7 then 1 else 0


/-- The search space that `NewILPSolver` builds for `tinyRules`. -/
def tinySolver : ILPSolver where
  combinations := tinyCombinations
  uniqueBricks := [⟨1, "red"⟩, ⟨1, "green"⟩, ⟨1, "blue"⟩, MakeJoker]
  rules := tinyRules
  combinationHashes := [459010732, 932076980, 833752456, 2837418143]
  totalRuns := 0
  totalGroups := 4
  groupSizes := [(3, 4)]
  runSizes := []

/-- The search space that `NewILPSolver` builds for `noJokerRules`: the same
combinations, jokers included, but no joker among the unique bricks. -/
def noJokerSolver : ILPSolver :=
  { tinySolver with
    uniqueBricks := [⟨1, "red"⟩, ⟨1, "green"⟩, ⟨1, "blue"⟩]
    rules := noJokerRules }

/-- A table with a group of bricks of value 2, a value that `tinyRules` do
not have. -/
def tableOfTwos : List BrickCombination := [⟨[⟨2, "red"⟩, ⟨2, "green"⟩, ⟨2, "blue"⟩]⟩]

/-- The solution that chooses nothing. -/
def chooseNothing : Nat → Int := fun _ => 0

/-- The solution that chooses every combination as often as the table holds
it and puts no brick. -/
def ILPSolver.tableSolution (searchSpace : ILPSolver) (table : List BrickCombination) :
    Nat → Int :=
  fun k =>
    match searchSpace.combinations[k]? with
    | some c => (table.count c : Int)
    | none => 0

/-- The bricks of `tableOfThree` in another order. -/
def tableOfThreeMixed : List BrickCombination := [⟨[⟨1, "green"⟩, ⟨1, "blue"⟩, ⟨1, "red"⟩]⟩]

/-- The first combination of `TestBrickCombination_HashOrderInsensitive`. -/
def greenDown : BrickCombination := ⟨[⟨3, "green"⟩, ⟨2, "green"⟩, ⟨1, "green"⟩]⟩

/-- The second combination of `TestBrickCombination_HashOrderInsensitive`. -/
def greenUp : BrickCombination := ⟨[⟨1, "green"⟩, ⟨2, "green"⟩, ⟨3, "green"⟩]⟩

/-- A joker with the value 0 that the comment on the `Brick` struct gives for
jokers. -/
def zeroJoker : Brick := ⟨0, JokerColor⟩

/-- The move of `testplayer` with an empty arrangement. -/
def testMoveEmpty : Move := NewMove "testplayer" []

/-- A player who holds blue 6, blue 7, a joker and red 1. -/
def jokerPlayer : Player :=
  (NewHumanPlayer "testplayer").SetHand [⟨6, "blue"⟩, ⟨7, "blue"⟩, MakeJoker, ⟨1, "red"⟩]

/-- A game of `jokerPlayer` under the default rules with an empty table. -/
def jokerGame : GameState := NewEmptyGame NewDefaultRules [jokerPlayer]

/-- The first move of `jokerPlayer`: the run blue 6, blue 7, joker. -/
def jokerMove : Move := NewMove "testplayer" [⟨[⟨6, "blue"⟩, ⟨7, "blue"⟩, MakeJoker]⟩]

/-! ## player.go and game.go: the turns of the AI players -/

/-- The interface `Solver`: from the hand, the table and the flag
`maximizeValue` to the proposed arrangement and the bricks to put, or to an
error (`none`). -/
abbrev Solver : Type :=
  List Brick → List BrickCombination → Bool → Option (List BrickCombination × List Brick)

/-- Source `DummySolver.Solve`: the table as it is and no brick. -/
def DummySolver : Solver := fun _ table _ => some (table, [])

/-- The method `Solve` of an `ILPSolver` as a `Solver`, for an external
solver `probSolve`. -/
def ILPSolver.asSolver (searchSpace : ILPSolver)
    (probSolve : ILPProblem → Option (Nat → Int)) : Solver :=
  fun hand table maxValue => searchSpace.Solve hand table maxValue probSolve

/-- Source `Player.MakeMove`. The unexported field `solver` of the player is
the argument `solver`; a panic on the error of the solver is `none`. -/
def Player.MakeMove (p : Player) (solver : Solver) (table : List BrickCombination)
    (minValue : Int) : Option Move :=
  let maxValue : Bool := if minValue > 0 then true else false
  match solver p.Hand table maxValue with
  | none => none
  | some (proposedTable, _) =>
    let candidateMove := NewMove p.Name proposedTable
    let tableStones := DissolveCombinations table
    if ((BrickSliceDiff tableStones candidateMove.Bricks).length : Int) > minValue then
      some candidateMove
    else some (NewMove p.Name table)

/-- The outcome of a call of `RunAITurns`: the game when the call returns, a
panic, or a recursion deeper than the bound given to the model. -/
inductive RunResult where
  | returned (game : GameState)
  | panicked
  | outOfFuel
deriving DecidableEq, Repr

/-- Source `GameState.RunAITurns`, with a bound on the depth of the recursion
as first argument after the solvers. The unexported field `solver` of the
players, which no function of the package changes, is kept outside the player
struct: `solvers i` is the solver of the player at index `i` of `Players`. -/
def GameState.RunAITurns (solvers : Nat → Solver) : Nat → GameState → RunResult
  | 0, _ => RunResult.outOfFuel
  | fuel + 1, game =>
    match game.CurrentPlayer with
    | none => RunResult.panicked
    | some player =>
      if player.Human then RunResult.returned game
      else
        let valueConstraint :=
          if game.IsFirstMove player.getName then 0 else game.getRules.FirstMoveValue
        match player.MakeMove (solvers game.CurrentTurn.toNat) game.Table valueConstraint with
        | none => RunResult.panicked
        | some move =>
          if move.PlayerName != player.getName then RunResult.panicked
          else
            match game.ProcessMove move with
            | none => RunResult.panicked
            | some (game1, accepted, reason) =>
              if !accepted then
                if reason = GAME_WON then RunResult.returned game1 else RunResult.panicked
              else GameState.RunAITurns solvers fuel game1

/-- The number of bricks in the hands of all players together. -/
def GameState.handCount (game : GameState) : Nat :=
  (game.Players.map fun p => p.Hand.length).sum

/-! ## Scenarios of the AI turns -/

/-- An AI player who holds red 1, red 2, red 3 and blue 9. -/
def firstAI : Player :=
  (NewAIPlayer "A").SetHand [⟨1, "red"⟩, ⟨2, "red"⟩, ⟨3, "red"⟩, ⟨9, "blue"⟩]

/-- A human player who holds green 5. -/
def humanB : Player := (NewHumanPlayer "B").SetHand [⟨5, "green"⟩]

/-- A game under the default rules with an empty table in which the AI player
`firstAI` is to make its first move. -/
def aiGame : GameState := NewEmptyGame NewDefaultRules [firstAI, humanB]

/-- The run red 1, red 2, red 3. -/
def redRun : BrickCombination := ⟨[⟨1, "red"⟩, ⟨2, "red"⟩, ⟨3, "red"⟩]⟩

/-- A solver that answers with the table and the run red 1, red 2, red 3 from
the hand. -/
def redRunSolver : Solver := fun _ table _ => some (table ++ [redRun], redRun.Bricks)

/-- The value constraint that `RunAITurns` passes to `MakeMove`. -/
def GameState.valueConstraint (game : GameState) (player : Player) : Int :=
  if game.IsFirstMove player.getName then 0 else game.getRules.FirstMoveValue

/-- A state at which `RunAITurns` stops without a change: the current player
is human, or the game has been won and the solver of the current AI player
answers the call of `MakeMove` without an error. -/
def GameState.AtBoundary (game : GameState) (solvers : Nat → Solver) : Prop :=
  ∃ player, game.CurrentPlayer = some player ∧
    (player.Human = true ∨
      (game.HasBeenWon = true ∧
        (player.MakeMove (solvers game.CurrentTurn.toNat) game.Table
          (game.valueConstraint player)).isSome = true))

/-- A game under `tinyRules` that the AI player `A` has won with the group of
the three base bricks and the joker; the turn is still with `A`. -/
def wonTinyGame : GameState where
  Players :=
    [⟨[[⟨1, "red"⟩, ⟨1, "green"⟩, ⟨1, "blue"⟩, MakeJoker], []], "A", false⟩,
      ⟨[[⟨1, "red"⟩]], "B", false⟩]
  Pile := []
  MoveHistory := [⟨tableOfFour, "A"⟩]
  CurrentTurn := 0
  Rules := tinyRules
  Seed := 0

/-- The game `aiGame` with the turn at the human player. -/
def humanTurnGame : GameState := { aiGame with CurrentTurn := 1 }

/-- The winner of `wonTinyGame`. -/
def tinyWinner : Player :=
  ⟨[[⟨1, "red"⟩, ⟨1, "green"⟩, ⟨1, "blue"⟩, MakeJoker], []], "A", false⟩

/-- The state of `aiGame` after the forfeit of the AI player: the move is
committed, the last brick of the pile is in the hand of the player, and the
turn is with the next player. -/
def aiGameForfeited : GameState :=
  (GameState.setCurrentHand { aiGame.commitMove (NewMove "A" []) with Pile := aiGame.Pile.dropLast }
    (firstAI.Hand ++ [MakeJoker])).cycleTurn

/-- An AI player under `tinyRules` who holds red 1 and blue 1. -/
def stuckA : Player := (NewAIPlayer "A").SetHand [⟨1, "red"⟩, ⟨1, "blue"⟩]

/-- An AI player under `tinyRules` who holds green 1 and the joker. -/
def stuckB : Player := (NewAIPlayer "B").SetHand [⟨1, "green"⟩, MakeJoker]

/-- A game of the two AI players `stuckA` and `stuckB` under `tinyRules` after
the moves `history`, with an empty pile and the turn at index `turn`. The four
bricks of the rules are in the hands. -/
def stuckState (history : List Move) (turn : Int) : GameState where
  Players := [stuckA, stuckB]
  Pile := []
  MoveHistory := history
  CurrentTurn := turn
  Rules := tinyRules
  Seed := 0

/-- The game `stuckState` before the first move. -/
def stuckGame : GameState := stuckState [] 0

/-! ## solver.go: the search space, organised for evaluation -/

/-- A search space with its combinations and its hashes in reverse order. -/
def ILPSolver.reversed (s : ILPSolver) : ILPSolver :=
  { s with
    combinations := s.combinations.reverse
    combinationHashes := s.combinationHashes.reverse }

/-- The buckets with the hash `h` added to bucket `i`. -/
def bucketInsert : List (List Nat) → Nat → Nat → List (List Nat)
  | [], _, _ => []
  | b :: bs, 0, h => (h :: b) :: bs
  | b :: bs, i + 1, h => b :: bucketInsert bs i h

/-- The loop of `addCombinations` in a form that evaluates faster: the
combinations and hashes grow at the head of their lists, and the known hashes
are also kept in `n` buckets, by their remainder modulo `n`, where they are
looked up. `addCombinationsFast_eq` relates it to `addCombinations`. -/
def addCombinationsFast (n : Nat) (buckets : List (List Nat)) (s : ILPSolver) :
    List BrickCombination → Option ILPSolver
  | [] => some s
  | combo :: rest =>
    let h := combo.Hash
    if (buckets.getD (h % n) []).contains h then addCombinationsFast n buckets s rest
    else
      let buckets1 := bucketInsert buckets (h % n) h
      let s1 : ILPSolver :=
        { s with
          combinations := combo :: s.combinations
          combinationHashes := h :: s.combinationHashes }
      if combo.IsValidRun.1 then
        addCombinationsFast n buckets1
          { s1 with
            totalRuns := s1.totalRuns + 1
            runSizes := mapIncr s1.runSizes combo.getBricks.length } rest
      else if combo.IsValidGroup.1 then
        addCombinationsFast n buckets1
          { s1 with
            totalGroups := s1.totalGroups + 1
            groupSizes := mapIncr s1.groupSizes combo.getBricks.length } rest
      else none

/-- The search space of `NewILPSolver` before the first combination. -/
def emptySpace (gameRules : Rules) : ILPSolver where
  combinations := []
  uniqueBricks :=
    if gameRules.JokersInPlay > 0 then gameRules.BaseBricks ++ [MakeJoker]
    else gameRules.BaseBricks
  rules := gameRules
  combinationHashes := []
  totalRuns := 0
  totalGroups := 0
  groupSizes := []
  runSizes := []

/-- The combinations that `NewILPSolver` hands to `addCombinations`, in the
order of its four calls. -/
def searchSpaceInput (gameRules : Rules) : List BrickCombination :=
  saltWithJokers (ComputeAllGroups gameRules.BaseBricks) gameRules.JokersPerCombination ++
    (saltWithJokers (ComputeAllRuns gameRules.BaseBricks) gameRules.JokersPerCombination ++
      (ComputeAllGroups gameRules.BaseBricks ++ ComputeAllRuns gameRules.BaseBricks))

/-- The combination of `TestCombinationSpace_Contains` that the search space
holds: yellow 2, yellow 3, yellow 4. -/
def yellowRun : BrickCombination := ⟨[⟨2, "yellow"⟩, ⟨3, "yellow"⟩, ⟨4, "yellow"⟩]⟩

/-- The combination of `TestCombinationSpace_Contains` that the search space
does not hold: green 2, yellow 3, yellow 4. -/
def mixedCombo : BrickCombination := ⟨[⟨2, "green"⟩, ⟨3, "yellow"⟩, ⟨4, "yellow"⟩]⟩

/-- The run red 1 to red 6. -/
def sixRun : BrickCombination :=
  ⟨[⟨1, "red"⟩, ⟨2, "red"⟩, ⟨3, "red"⟩, ⟨4, "red"⟩, ⟨5, "red"⟩, ⟨6, "red"⟩]⟩

/-- The bricks of `yellowRun` followed by red 1 twice. -/
def paddedRun : BrickCombination :=
  ⟨[⟨2, "yellow"⟩, ⟨3, "yellow"⟩, ⟨4, "yellow"⟩, ⟨1, "red"⟩, ⟨1, "red"⟩]⟩

/-! ## Further vocabulary and scenarios -/

/-- The bricks of `combinationsB` of `Test_BrickSliceUtils`. -/
def sliceB : List Brick :=
  [⟨10, "yellow"⟩, ⟨11, "yellow"⟩, ⟨12, "yellow"⟩, ⟨6, "yellow"⟩, ⟨7, "yellow"⟩, ⟨8, "yellow"⟩,
    ⟨11, "green"⟩, ⟨11, "yellow"⟩, ⟨11, "red"⟩]

/-- Bricks of `combinationsA` of `Test_BrickSliceUtils`: those of `sliceB`
and the group of the ones. -/
def sliceA : List Brick :=
  [⟨10, "yellow"⟩, ⟨11, "yellow"⟩, ⟨12, "yellow"⟩, ⟨11, "green"⟩, ⟨11, "yellow"⟩, ⟨11, "red"⟩,
    ⟨6, "yellow"⟩, ⟨7, "yellow"⟩, ⟨8, "yellow"⟩, ⟨1, "red"⟩, ⟨1, "blue"⟩, ⟨1, "yellow"⟩]

/-- The number of hand snapshots of all players together. -/
def GameState.snapshots (game : GameState) : Nat :=
  (game.Players.map fun p => p.HandHistory.length).sum

/-- The game `twoPlayerGame` after the forfeit of the first player and a
forfeit of the second: the first player is to move for the second time. -/
def secondRoundGame : GameState :=
  { twoPlayerGame with
    MoveHistory := [NewMove "testplayerA" [], NewMove "testplayerB" []]
    CurrentTurn := 0 }

/-- A move of the first player of `secondRoundGame` worth 3: the three ones
of the hand. -/
def onesMove : Move :=
  NewMove "testplayerA" [⟨[⟨1, "yellow"⟩, ⟨1, "blue"⟩, ⟨1, "red"⟩]⟩]

/-- The game `NewGame` deals under `smallRules` to two fresh players when the
generator yields `smallPerm`: the four bricks are in the hands and the pile is
empty. -/
def fullDealGame : GameState where
  Players := [⟨[[⟨3, "red"⟩, ⟨1, "red"⟩]], "A", true⟩, ⟨[[⟨1, "joker"⟩, ⟨2, "red"⟩]], "B", true⟩]
  Pile := []
  MoveHistory := []
  CurrentTurn := 0
  Rules := smallRules
  Seed := 7

/-- The state of `fullDealGame` after the first player forfeits: nothing to
draw, the move is committed and the turn passes. -/
def fullDealGameAfterForfeit : GameState :=
  { fullDealGame with MoveHistory := [NewMove "A" []], CurrentTurn := 1 }

/-- A solver that tells which mode it is called in: an error when it is asked
to maximise the value, the unchanged table otherwise. -/
def countModeSolver : Solver := fun _ table maxValue => if maxValue then none else some (table, [])

/-- The state of `aiGameForfeited` after the forfeit of the human player, who
draws the next brick of the pile: the AI player `A` is to make its second
move. -/
def aiGameSecondMove : GameState :=
  (GameState.setCurrentHand
    { aiGameForfeited.commitMove (NewMove "B" []) with Pile := aiGameForfeited.Pile.dropLast }
    (humanB.Hand ++ [MakeJoker])).cycleTurn

/-- An AI player who holds red 4, red 5 and red 6. -/
def fifteenAI : Player := (NewAIPlayer "A").SetHand [⟨4, "red"⟩, ⟨5, "red"⟩, ⟨6, "red"⟩]

/-- The run red 4, red 5, red 6, worth 15. -/
def midRun : BrickCombination := ⟨[⟨4, "red"⟩, ⟨5, "red"⟩, ⟨6, "red"⟩]⟩

/-- A solver that answers with the table and the run red 4, red 5, red 6 from
the hand. -/
def midRunSolver : Solver := fun _ table _ => some (table ++ [midRun], midRun.Bricks)

/-- The rule set `tinyRules` with three replicates of every base brick. -/
def tripleRules : Rules := { tinyRules with Replicates := 3 }

/-- The search space that `NewILPSolver` builds for `tripleRules`. -/
def tripleSolver : ILPSolver := { tinySolver with rules := tripleRules }

/-- A table with the three copies of the group red 1, green 1, blue 1 that
`tripleRules` have bricks for. -/
def tripleTable : List BrickCombination :=
  [⟨[⟨1, "red"⟩, ⟨1, "green"⟩, ⟨1, "blue"⟩]⟩, ⟨[⟨1, "red"⟩, ⟨1, "green"⟩, ⟨1, "blue"⟩]⟩,
    ⟨[⟨1, "red"⟩, ⟨1, "green"⟩, ⟨1, "blue"⟩]⟩]

/-- The assignment that chooses the first combination three times. -/
def threeOfFirst : Nat → Int := fun k => if k = 0 then 3 else 0

/-- The second combination of `TestBrickCombination_HashEquivalence`. -/
def greenRedGreen : BrickCombination := ⟨[⟨1, "green"⟩, ⟨2, "red"⟩, ⟨3, "green"⟩]⟩

/-- A rule set with one colour, the values 1 to 6, two jokers and hands of
four bricks: eight bricks in all. -/
def sixRules : Rules where
  Colors := ["red"]
  Values := 6
  JokersPerCombination := 1
  JokersInPlay := 2
  StartingHandSize := 4
  Replicates := 1
  FirstMoveValue := 3

/-- A permutation of the eight brick positions of `sixRules`. -/
def sixPerm : List Nat := [7, 6, 5, 3, 4, 2, 1, 0]

/-- The game `NewGame` deals under `sixRules` to two fresh players when the
generator yields `sixPerm`. -/
def sixGame : GameState where
  Players :=
    [⟨[[⟨1, "red"⟩, ⟨2, "red"⟩, ⟨3, "red"⟩, ⟨5, "red"⟩]], "A", true⟩,
      ⟨[[⟨4, "red"⟩, ⟨6, "red"⟩, MakeJoker, MakeJoker]], "B", true⟩]
  Pile := []
  MoveHistory := []
  CurrentTurn := 0
  Rules := sixRules
  Seed := 1

/-- The first move on `sixGame`: the run red 1, red 2, red 3. -/
def sixMoveA : Move := NewMove "A" [redRun]

/-- The second move on `sixGame`: the three bricks of the table, split into
red 3, red 1 and red 2 alone. -/
def sixMoveB : Move := NewMove "B" [⟨[⟨3, "red"⟩, ⟨1, "red"⟩]⟩, ⟨[⟨2, "red"⟩]⟩]

/-- The state of `sixGame` after `sixMoveA`. -/
def sixGameA : GameState :=
  { sixGame with
    Players :=
      [⟨[[⟨1, "red"⟩, ⟨2, "red"⟩, ⟨3, "red"⟩, ⟨5, "red"⟩], [⟨5, "red"⟩]], "A", true⟩,
        ⟨[[⟨4, "red"⟩, ⟨6, "red"⟩, MakeJoker, MakeJoker]], "B", true⟩]
    MoveHistory := [sixMoveA]
    CurrentTurn := 1 }

/-- The state of `sixGameA` after `sixMoveB`. -/
def sixGameB : GameState := { sixGameA with MoveHistory := [sixMoveA, sixMoveB], CurrentTurn := 0 }

/-- A window of a colour with jokers in it: the bricks are, position by
position, the joker of `MakeJoker` or the brick of the colour with the value
`a`, `a + 1`, and so on. -/
def SaltedFrom (color : String) : Int → List Brick → Prop
  | _, [] => True
  | a, b :: rest => (b = MakeJoker ∨ b = ⟨a, color⟩) ∧ SaltedFrom color (a + 1) rest

/-- The number of jokers of a slice of bricks, as `IsValidRun` counts them. -/
def jokersOf (l : List Brick) : Nat := (l.filter fun b => b.Color == JokerColor).length

/-- A group with jokers in it: the bricks that are not jokers have one value
and pairwise different colours. -/
def GroupLike (l : List Brick) : Prop :=
  (∀ x ∈ l, ∀ y ∈ l, x.Color ≠ JokerColor → y.Color ≠ JokerColor → x.Value = y.Value) ∧
    ((l.filter fun b => b.Color != JokerColor).map Brick.Color).Nodup

/-- The default rules with values that go up to `2^62`. -/
def hugeRules : Rules := { NewDefaultRules with Values := 4611686018427387904 }

/-- The group of the red, the green and the blue brick of value `2^62`. -/
def hugeGroup : BrickCombination :=
  ⟨[⟨4611686018427387904, "red"⟩, ⟨4611686018427387904, "green"⟩,
    ⟨4611686018427387904, "blue"⟩]⟩

/-- A player who holds the three bricks of `hugeGroup` and red 1. -/
def hugePlayer : Player := (NewHumanPlayer "A").SetHand (hugeGroup.Bricks ++ [⟨1, "red"⟩])

/-- A game of `hugePlayer` under `hugeRules` with the move history `history`. -/
def hugeGame (history : List Move) : GameState where
  Players := [hugePlayer]
  Pile := []
  MoveHistory := history
  CurrentTurn := 0
  Rules := hugeRules
  Seed := 0

/-- The move of `hugePlayer` that puts `hugeGroup` on the empty table. -/
def hugeMove : Move := NewMove "A" [hugeGroup]

/-- The rules `tinyRules` with a negative number of jokers per combination. -/
def negativeJokerRules : Rules := { tinyRules with JokersPerCombination := -1 }

/-! ## Theorems -/

/-! ### `BrickSliceDiff` is the multiset difference -/

theorem count_flatMap_replicate (g : Brick → List Brick) (x : Brick)
    (hg : ∀ y, y ≠ x → (g y).count x = 0) :
    ∀ l : List Brick, l.Nodup → (l.flatMap g).count x = if x ∈ l then (g x).count x else 0 := by
  intro l
  induction l with
  | nil => intro _; simp
  | cons y l ih =>
    intro hnd
    rw [List.nodup_cons] at hnd
    rw [List.flatMap_cons, List.count_append, ih hnd.2]
    by_cases hxy : y = x
    · subst hxy
      simp [hnd.1]
    · have hxy2 : ¬ x = y := fun h => hxy h.symm
      simp [hg y hxy, hxy2]

/-- A brick occurs in `BrickSliceDiff a b` as often as it occurs more often in
`b` than in `a`. -/
theorem count_BrickSliceDiff (a b : List Brick) (x : Brick) :
    (BrickSliceDiff a b).count x = b.count x - a.count x := by
  unfold BrickSliceDiff
  rw [count_flatMap_replicate _ x _ _ (List.nodup_dedup b)]
  · by_cases hx : x ∈ b
    · simp only [List.mem_dedup, hx, if_true]
      by_cases hd : ((b.count x : Int) - (a.count x : Int)) > 0
      · simp only [hd, if_true, List.count_replicate_self]
        omega
      · simp only [hd, if_false, List.count_nil]
        omega
    · simp only [List.mem_dedup, hx, if_false]
      have : b.count x = 0 := List.count_eq_zero.mpr hx
      omega
  · intro y hy
    by_cases hd : ((b.count y : Int) - (a.count y : Int)) > 0
    · simp only [hd, if_true]
      rw [List.count_replicate]
      simp [hy]
    · simp [hd]

/-- As a multiset, `BrickSliceDiff a b` is `b - a`. -/
theorem coe_BrickSliceDiff (a b : List Brick) :
    (↑(BrickSliceDiff a b) : Multiset Brick) = (↑b : Multiset Brick) - ↑a := by
  ext x
  rw [Multiset.count_sub, Multiset.coe_count, Multiset.coe_count, Multiset.coe_count,
    count_BrickSliceDiff]

/-- The test `len(BrickSliceDiff(a, b)) == 0` asks whether `b` is a sub-multiset
of `a`. -/
theorem BrickSliceDiff_length_eq_zero (a b : List Brick) :
    (BrickSliceDiff a b).length = 0 ↔ (↑b : Multiset Brick) ≤ ↑a := by
  rw [List.length_eq_zero, ← Multiset.coe_eq_zero, coe_BrickSliceDiff]
  exact tsub_eq_zero_iff_le

theorem foldl_append_getBricks (cs : List BrickCombination) :
    ∀ init : List Brick,
      cs.foldl (fun bricks c => bricks ++ c.getBricks) init =
        init ++ cs.flatMap BrickCombination.getBricks := by
  induction cs with
  | nil => intro init; simp
  | cons c cs ih => intro init; simp [List.foldl_cons, ih, List.flatMap_cons, List.append_assoc]

theorem Move.Bricks_eq (m : Move) : m.Bricks = DissolveCombinations m.Arrangement := rfl

/-! ### The resolution order of `IsLegalMove` -/

/-- A combination that `IsLegalCombination` rejects is rejected with one of its
four reasons. -/
theorem IsLegalCombination_reason (g : Rules) (c : BrickCombination) :
    (g.IsLegalCombination c).1 = false →
      (g.IsLegalCombination c).2 = UNKNOWN_COLOR ∨ (g.IsLegalCombination c).2 = VALUE_OUT_OF_BOUNDS ∨
      (g.IsLegalCombination c).2 = TOO_MANY_JOKERS_IN_COMBINATION ∨
      (g.IsLegalCombination c).2 = ILLEGAL_COMBINATION := by
  unfold Rules.IsLegalCombination
  intro h
  by_cases h1 : (c.getBricks.all fun brick =>
      g.Colors.any fun color => brick.Color == color || brick.Color == JokerColor) = true
  · by_cases h2 : (c.getBricks.any fun brick => brick.Value > g.Values || brick.Value < 1) = true
    · simp [h1, h2]
    · by_cases h3 : tooManyJokers g.JokersPerCombination c.getBricks 0 = true
      · simp [h1, h2, h3]
      · by_cases h4 : (c.IsValidRun.1 || c.IsValidGroup.1) = true
        · simp [h1, h2, h3, h4] at h
        · simp [h1, h2, h3, h4]
  · simp [h1]

theorem firstIllegalCombination_reason (g : Rules) (l : List BrickCombination) (why : String)
    (h : firstIllegalCombination g l = some why) :
    why = UNKNOWN_COLOR ∨ why = VALUE_OUT_OF_BOUNDS ∨ why = TOO_MANY_JOKERS_IN_COMBINATION ∨
      why = ILLEGAL_COMBINATION := by
  induction l with
  | nil => simp [firstIllegalCombination] at h
  | cons x rest ih =>
    unfold firstIllegalCombination at h
    by_cases hx : (g.IsLegalCombination x).1 = false
    · simp only [hx, Bool.not_false, if_true, Option.some.injEq] at h
      rw [← h]
      exact IsLegalCombination_reason g x hx
    · simp only [Bool.not_eq_false] at hx
      simp only [hx, Bool.not_true, Bool.false_eq_true, if_false] at h
      exact ih h

/-- The checks of `IsLegalMove` in their order, each condition read on the
multisets of bricks. -/
theorem IsLegalMove_eq (game : GameState) (move : Move) (player : Player)
    (hp : game.CurrentPlayer = some player) :
    game.IsLegalMove move =
      if player.getName ≠ move.PlayerName then some (false, NOT_YOUR_TURN)
      else if ¬ game.tableTiles ≤ move.tiles then some (false, BRICKS_REMOVED)
      else if move.tiles ≤ game.tableTiles then some (true, FORFEITED)
      else if ¬ move.tiles - game.tableTiles ≤ ↑player.Hand then some (false, NOT_OWNED)
      else game.combinationVerdict move player := by
  unfold GameState.IsLegalMove
  rw [hp]
  simp only [bne_iff_ne, ne_eq, ite_not, gt_iff_lt, List.length_pos, ← List.length_eq_zero,
    BrickSliceDiff_length_eq_zero, GameState.tableTiles, Move.tiles, coe_BrickSliceDiff]
  rfl

/-- The outcomes the tail of `IsLegalMove` can have. -/
theorem combinationVerdict_cases (game : GameState) (move : Move) (player : Player)
    (r : Bool × String) (h : game.combinationVerdict move player = some r) :
    r = (true, LEGAL_MOVE) ∨ r = (false, VALUE_INSUFFICIENT) ∨ r = (false, UNKNOWN_COLOR) ∨
      r = (false, VALUE_OUT_OF_BOUNDS) ∨ r = (false, TOO_MANY_JOKERS_IN_COMBINATION) ∨
      r = (false, ILLEGAL_COMBINATION) := by
  unfold GameState.combinationVerdict at h
  cases hf : firstIllegalCombination game.Rules move.Arrangement with
  | some why =>
    rw [hf] at h
    simp only [Option.some.injEq] at h
    rcases firstIllegalCombination_reason _ _ _ hf with h1 | h1 | h1 | h1 <;>
      simp [← h, h1]
  | none =>
    rw [hf] at h
    dsimp only at h
    split_ifs at h <;> simp only [Option.some.injEq] at h <;> simp [← h]

/-- C3: for a move authored by the current player, `IsLegalMove` returns
`(true, FORFEITED)` exactly when the multiset of bricks of the proposed
arrangement equals the multiset of bricks on the table, whatever the hand is
and however the bricks are grouped. -/
theorem IsLegalMove_forfeited_iff (game : GameState) (move : Move) (player : Player)
    (hp : game.CurrentPlayer = some player) (hname : move.PlayerName = player.getName) :
    game.IsLegalMove move = some (true, FORFEITED) ↔ move.tiles = game.tableTiles := by
  rw [IsLegalMove_eq game move player hp]
  simp only [hname, ne_eq, not_true_eq_false, if_false]
  by_cases h1 : game.tableTiles ≤ move.tiles
  · by_cases h2 : move.tiles ≤ game.tableTiles
    · simp [h1, h2, le_antisymm h2 h1]
    · have hne : ¬ move.tiles = game.tableTiles := fun h => h2 (le_of_eq h)
      simp only [h1, h2, not_true_eq_false, if_false, hne, iff_false]
      by_cases h3 : move.tiles - game.tableTiles ≤ ↑player.Hand
      · simp only [h3, not_true_eq_false, if_false]
        intro h
        rcases combinationVerdict_cases _ _ _ _ h with h | h | h | h | h | h <;>
          exact absurd h (by decide)
      · simp only [h3, not_false_eq_true, if_true]
        decide
  · have hne : ¬ move.tiles = game.tableTiles := fun h => h1 (le_of_eq h.symm)
    simp only [h1, not_false_eq_true, if_true, hne, iff_false]
    decide

/-- The scenario of C3: the forfeit of the test suite is adjudicated
`FORFEITED`, and its bricks are the bricks of the table. -/
theorem IsLegalMove_forfeited_iff_witness :
    testGame.CurrentPlayer = some testPlayer ∧ testMoveForfeit.PlayerName = testPlayer.getName ∧
      testGame.IsLegalMove testMoveForfeit = some (true, FORFEITED) ∧
      testMoveForfeit.tiles = testGame.tableTiles :=
  ⟨by decide, by decide, by decide,
    (IsLegalMove_forfeited_iff testGame testMoveForfeit testPlayer (by decide) (by decide)).mp
      (by decide)⟩

/-- C5: for a move authored by the current player, `IsLegalMove` returns
`(false, BRICKS_REMOVED)` exactly when the multiset of bricks on the table is
not contained, counting multiplicity, in the multiset of bricks of the
proposed arrangement, whatever else is wrong with the move. -/
theorem IsLegalMove_bricks_removed_iff (game : GameState) (move : Move) (player : Player)
    (hp : game.CurrentPlayer = some player) (hname : move.PlayerName = player.getName) :
    game.IsLegalMove move = some (false, BRICKS_REMOVED) ↔ ¬ game.tableTiles ≤ move.tiles := by
  rw [IsLegalMove_eq game move player hp]
  simp only [hname, ne_eq, not_true_eq_false, if_false]
  by_cases h1 : game.tableTiles ≤ move.tiles
  · simp only [h1, not_true_eq_false, if_false, iff_false]
    by_cases h2 : move.tiles ≤ game.tableTiles
    · simp only [h2, if_true]
      decide
    · simp only [h2, if_false]
      by_cases h3 : move.tiles - game.tableTiles ≤ ↑player.Hand
      · simp only [h3, not_true_eq_false, if_false]
        intro h
        rcases combinationVerdict_cases _ _ _ _ h with h | h | h | h | h | h <;>
          exact absurd h (by decide)
      · simp only [h3, not_false_eq_true, if_true]
        decide
  · simp [h1]

/-- The scenario of C5 (scenario 3 of the specification): proposing only the
first two of the three combinations on the table is `BRICKS_REMOVED`. -/
theorem IsLegalMove_bricks_removed_iff_witness :
    testGame.CurrentPlayer = some testPlayer ∧ testMoveRemoving.PlayerName = testPlayer.getName ∧
      testGame.IsLegalMove testMoveRemoving = some (false, BRICKS_REMOVED) ∧
      ¬ testGame.tableTiles ≤ testMoveRemoving.tiles :=
  ⟨by decide, by decide, by decide,
    (IsLegalMove_bricks_removed_iff testGame testMoveRemoving testPlayer (by decide)
      (by decide)).mp (by decide)⟩

/-- C6: for a move authored by the current player that removes no brick from
the table and adds at least one, `IsLegalMove` returns `(false, NOT_OWNED)`
exactly when the new bricks (proposed minus table, counting multiplicity) are
not a sub-multiset of the hand of the current player; the legality of the
combinations plays no part. -/
theorem IsLegalMove_not_owned_iff (game : GameState) (move : Move) (player : Player)
    (hp : game.CurrentPlayer = some player) (hname : move.PlayerName = player.getName)
    (hrem : game.tableTiles ≤ move.tiles) (hnew : move.tiles - game.tableTiles ≠ 0) :
    game.IsLegalMove move = some (false, NOT_OWNED) ↔
      ¬ move.tiles - game.tableTiles ≤ ↑player.Hand := by
  rw [IsLegalMove_eq game move player hp]
  have h2 : ¬ move.tiles ≤ game.tableTiles := fun h => hnew (tsub_eq_zero_iff_le.mpr h)
  simp only [hname, ne_eq, not_true_eq_false, if_false, hrem, h2]
  by_cases h3 : move.tiles - game.tableTiles ≤ ↑player.Hand
  · simp only [h3, not_true_eq_false, if_false, iff_false]
    intro h
    rcases combinationVerdict_cases _ _ _ _ h with h | h | h | h | h | h <;>
      exact absurd h (by decide)
  · simp [h3]

/-- The scenario of C6: a new combination with a brick the player does not
hold is `NOT_OWNED`, although that combination is no run and no group. -/
theorem IsLegalMove_not_owned_iff_witness :
    testGame.CurrentPlayer = some testPlayer ∧ testMoveNotOwned.PlayerName = testPlayer.getName ∧
      testGame.tableTiles ≤ testMoveNotOwned.tiles ∧
      testMoveNotOwned.tiles - testGame.tableTiles ≠ 0 ∧
      firstIllegalCombination testGame.Rules testMoveNotOwned.Arrangement =
        some ILLEGAL_COMBINATION ∧
      testGame.IsLegalMove testMoveNotOwned = some (false, NOT_OWNED) :=
  ⟨by decide, by decide, by decide, by decide, by decide,
    (IsLegalMove_not_owned_iff testGame testMoveNotOwned testPlayer (by decide) (by decide)
      (by decide) (by decide)).mpr (by decide)⟩

theorem IsLegalMove_not_your_turn_iff_aux (game : GameState) (move : Move) (player : Player)
    (hp : game.CurrentPlayer = some player) :
    game.IsLegalMove move = some (false, NOT_YOUR_TURN) ↔ move.PlayerName ≠ player.Name := by
  rw [IsLegalMove_eq game move player hp]
  by_cases hname : player.getName = move.PlayerName
  · have hname2 : move.PlayerName = player.Name := hname.symm
    simp only [hname, ne_eq, not_true_eq_false, if_false, hname2, iff_false]
    by_cases h1 : game.tableTiles ≤ move.tiles
    · simp only [h1, not_true_eq_false, if_false]
      by_cases h2 : move.tiles ≤ game.tableTiles
      · simp only [h2, if_true]
        decide
      · simp only [h2, if_false]
        by_cases h3 : move.tiles - game.tableTiles ≤ ↑player.Hand
        · simp only [h3, not_true_eq_false, if_false]
          intro h
          rcases combinationVerdict_cases _ _ _ _ h with h | h | h | h | h | h <;>
            exact absurd h (by decide)
        · simp only [h3, not_false_eq_true, if_true]
          decide
    · simp only [h1, not_false_eq_true, if_true]
      decide
  · have hname2 : ¬ move.PlayerName = player.Name := fun h => hname h.symm
    simp [hname, hname2]

/-- C7, as the code has it: in a game with a valid turn counter, `IsLegalMove`
returns `(false, NOT_YOUR_TURN)` exactly when the name in the move differs
from the name of the player at index `CurrentTurn`, whatever the arrangement;
and if moreover the game has not been won, `ProcessMove` reports the move as
not accepted with reason `NOT_YOUR_TURN`. -/
theorem IsLegalMove_not_your_turn_iff (game : GameState) (move : Move) (player : Player)
    (hp : game.CurrentPlayer = some player) :
    (game.IsLegalMove move = some (false, NOT_YOUR_TURN) ↔ move.PlayerName ≠ player.Name) ∧
      (move.PlayerName ≠ player.Name → game.HasBeenWon = false →
        ∃ game1, game.ProcessMove move = some (game1, false, NOT_YOUR_TURN)) := by
  refine ⟨IsLegalMove_not_your_turn_iff_aux game move player hp, ?_⟩
  intro hname hwon
  have hl := (IsLegalMove_not_your_turn_iff_aux game move player hp).mpr hname
  refine ⟨game.cycleTurn, ?_⟩
  unfold GameState.ProcessMove
  rw [hl, hp]
  simp only [hwon, Bool.false_eq_true, if_false]
  rw [if_neg (by decide), if_neg (by decide)]

/-- The scenario of C7 (`TestGame_IsLegalMove_NotYourTurn`): a forfeit signed
by the second player while it is the turn of the first. -/
theorem IsLegalMove_not_your_turn_iff_witness :
    twoPlayerGame.CurrentPlayer = some testPlayerA ∧
      twoPlayerGame.IsLegalMove (NewMove "testplayerB" []) = some (false, NOT_YOUR_TURN) ∧
      ∃ game1, twoPlayerGame.ProcessMove (NewMove "testplayerB" []) =
        some (game1, false, NOT_YOUR_TURN) :=
  ⟨by decide,
    (IsLegalMove_not_your_turn_iff twoPlayerGame (NewMove "testplayerB" []) testPlayerA
      (by decide)).1.mpr (by decide),
    (IsLegalMove_not_your_turn_iff twoPlayerGame (NewMove "testplayerB" []) testPlayerA
      (by decide)).2 (by decide) (by decide)⟩

/-- C7 as stated fails in a game that has been won: the move of the wrong
player is judged `NOT_YOUR_TURN` by `IsLegalMove`, yet `ProcessMove` reports
`GAME_WON`. -/
theorem ProcessMove_not_your_turn_in_won_game :
    wonGame.CurrentPlayer = some winner ∧ (NewMove "testplayerB" []).PlayerName ≠ winner.Name ∧
      wonGame.IsLegalMove (NewMove "testplayerB" []) = some (false, NOT_YOUR_TURN) ∧
      wonGame.ProcessMove (NewMove "testplayerB" []) = some (wonGame, false, GAME_WON) ∧
      ¬ ∃ game1, wonGame.ProcessMove (NewMove "testplayerB" []) =
        some (game1, false, NOT_YOUR_TURN) := by
  refine ⟨by decide, by decide, by decide, by decide, ?_⟩
  rintro ⟨game1, h⟩
  have h2 : wonGame.ProcessMove (NewMove "testplayerB" []) = some (wonGame, false, GAME_WON) := by
    decide
  rw [h2] at h
  simp only [Option.some.injEq, Prod.mk.injEq, true_and] at h
  exact absurd h.2 (by decide)

theorem firstIllegalCombination_eq_none (g : Rules) (l : List BrickCombination) :
    firstIllegalCombination g l = none ↔ ∀ x ∈ l, (g.IsLegalCombination x).1 = true := by
  induction l with
  | nil => simp [firstIllegalCombination]
  | cons x rest ih =>
    unfold firstIllegalCombination
    by_cases hx : (g.IsLegalCombination x).1 = true
    · simp [hx, ih]
    · simp [hx]

theorem firstIllegalCombination_append (g : Rules) (pre post : List BrickCombination)
    (c : BrickCombination) (hpre : ∀ x ∈ pre, (g.IsLegalCombination x).1 = true)
    (hc : (g.IsLegalCombination c).1 = false) :
    firstIllegalCombination g (pre ++ c :: post) = some (g.IsLegalCombination c).2 := by
  induction pre with
  | nil => simp [firstIllegalCombination, hc]
  | cons x rest ih =>
    have hx : (g.IsLegalCombination x).1 = true := hpre x (List.mem_cons_self _ _)
    rw [List.cons_append, firstIllegalCombination]
    simp only [hx, Bool.not_true, Bool.false_eq_true, if_false]
    exact ih fun y hy => hpre y (List.mem_cons_of_mem _ hy)

/-- An integer within the range of Go's `int` is its own value as an `int`. -/
theorem wrapInt_of_range (x : Int) (h1 : -9223372036854775808 ≤ x)
    (h2 : x < 9223372036854775808) : wrapInt x = x := by
  unfold wrapInt
  omega

/-- While the running sum of non-negative values stays below `2^63`, the loop
of Go adds without wrap-around. -/
theorem foldl_add_value (l : List Brick) :
    ∀ init : Int, 0 ≤ init → (∀ b ∈ l, 0 ≤ b.Value) →
      init + (l.map Brick.Value).sum < 9223372036854775808 →
      l.foldl (fun acc b => wrapInt (acc + b.Value)) init = init + (l.map Brick.Value).sum := by
  induction l with
  | nil => intro init _ _ _; simp
  | cons b l ih =>
    intro init h0 hpos hlt
    have hb : 0 ≤ b.Value := hpos b (List.mem_cons_self _ _)
    have hl : ∀ x ∈ l, 0 ≤ x.Value := fun x hx => hpos x (List.mem_cons_of_mem _ hx)
    have hsum : 0 ≤ (l.map Brick.Value).sum := by
      apply List.sum_nonneg
      intro v hv
      rcases List.mem_map.mp hv with ⟨x, hx, rfl⟩
      exact hl x hx
    rw [List.map_cons, List.sum_cons] at hlt
    rw [List.foldl_cons, wrapInt_of_range _ (by omega) (by omega),
      ih (init + b.Value) (by omega) hl (by omega), List.map_cons, List.sum_cons]
    omega

theorem cumulativeBrickValue_eq_sum (l : List Brick) (hpos : ∀ b ∈ l, 0 ≤ b.Value)
    (hlt : ((↑l : Multiset Brick).map Brick.Value).sum < 9223372036854775808) :
    cumulativeBrickValue l = ((↑l : Multiset Brick).map Brick.Value).sum := by
  have hlt2 : (0 : Int) + (l.map Brick.Value).sum < 9223372036854775808 := by
    simpa using hlt
  unfold cumulativeBrickValue
  rw [foldl_add_value l 0 (le_refl _) hpos hlt2]
  simp

theorem mem_DissolveCombinations (cs : List BrickCombination) (b : Brick) :
    b ∈ DissolveCombinations cs ↔ ∃ c ∈ cs, b ∈ c.getBricks := by
  unfold DissolveCombinations
  rw [foldl_append_getBricks]
  simp [List.mem_flatMap]

theorem mem_of_mem_BrickSliceDiff (a l : List Brick) (b : Brick) (h : b ∈ BrickSliceDiff a l) :
    b ∈ l := by
  have h1 : 0 < (BrickSliceDiff a l).count b := List.count_pos_iff.mpr h
  rw [count_BrickSliceDiff] at h1
  exact List.count_pos_iff.mp (by omega)

theorem value_pos_of_IsLegalCombination (g : Rules) (c : BrickCombination)
    (h : (g.IsLegalCombination c).1 = true) : ∀ b ∈ c.getBricks, 1 ≤ b.Value := by
  intro b hb
  unfold Rules.IsLegalCombination at h
  by_cases h1 : (c.getBricks.all fun brick =>
      g.Colors.any fun color => brick.Color == color || brick.Color == JokerColor) = true
  · by_cases h2 : (c.getBricks.any fun brick => brick.Value > g.Values || brick.Value < 1) = true
    · simp [h1, h2] at h
    · simp only [List.any_eq_true, not_exists, not_and, Bool.or_eq_true, decide_eq_true_eq,
        not_or, not_lt] at h2
      exact (h2 b hb).2
  · simp [h1] at h

theorem sum_value_nonneg (l : List Brick) (h : ∀ b ∈ l, 1 ≤ b.Value) :
    0 ≤ (l.map Brick.Value).sum := by
  apply List.sum_nonneg
  intro v hv
  rcases List.mem_map.mp hv with ⟨b, hb, rfl⟩
  have := h b hb
  omega

/-- When every combination of the arrangement is legal and the summed value of
the new bricks is below `2^63`, the loop of `IsLegalMove` computes that sum,
and the sum is not negative. -/
theorem cumulativeBrickValue_new (game : GameState) (move : Move)
    (hall : ∀ x ∈ move.Arrangement, (game.Rules.IsLegalCombination x).1 = true)
    (hbound : ((move.tiles - game.tableTiles).map Brick.Value).sum < 9223372036854775808) :
    cumulativeBrickValue (BrickSliceDiff (DissolveCombinations game.Table) move.Bricks) =
        ((move.tiles - game.tableTiles).map Brick.Value).sum ∧
      0 ≤ ((move.tiles - game.tableTiles).map Brick.Value).sum := by
  have hcoe : ((↑(BrickSliceDiff (DissolveCombinations game.Table) move.Bricks) :
      Multiset Brick).map Brick.Value).sum =
      ((move.tiles - game.tableTiles).map Brick.Value).sum := by
    rw [coe_BrickSliceDiff]
    rfl
  have hval : ∀ b ∈ BrickSliceDiff (DissolveCombinations game.Table) move.Bricks,
      1 ≤ b.Value := by
    intro b hb
    have hb2 := mem_of_mem_BrickSliceDiff _ _ _ hb
    rw [Move.Bricks_eq, mem_DissolveCombinations] at hb2
    rcases hb2 with ⟨c, hc, hbc⟩
    exact value_pos_of_IsLegalCombination _ _ (hall c hc) b hbc
  refine ⟨?_, ?_⟩
  · rw [cumulativeBrickValue_eq_sum _ (fun b hb => by have := hval b hb; omega)
      (by rw [hcoe]; exact hbound), hcoe]
  · rw [← hcoe, Multiset.map_coe, Multiset.sum_coe]
    exact sum_value_nonneg _ hval

/-- C4 (amended): for a move authored by the current player that removes no
brick from the table and adds a non-empty multiset of new bricks contained in
the hand: if a combination of the arrangement is rejected by
`IsLegalCombination`, the move is rejected with the reason of the first such
combination in arrangement order; otherwise, provided the summed value of the
new bricks is below `2^63`, the move is rejected as `VALUE_INSUFFICIENT` when
no move of the history carries the name of the player and the summed value of
the new bricks is below `FirstMoveValue`, and it is `LEGAL_MOVE` in every
other case. -/
theorem IsLegalMove_combinations_then_value (game : GameState) (move : Move) (player : Player)
    (hp : game.CurrentPlayer = some player) (hname : move.PlayerName = player.getName)
    (hrem : game.tableTiles ≤ move.tiles) (hnew : move.tiles - game.tableTiles ≠ 0)
    (hown : move.tiles - game.tableTiles ≤ ↑player.Hand) :
    (∀ pre c post, move.Arrangement = pre ++ c :: post →
        (∀ x ∈ pre, (game.Rules.IsLegalCombination x).1 = true) →
        (game.Rules.IsLegalCombination c).1 = false →
        game.IsLegalMove move = some (false, (game.Rules.IsLegalCombination c).2)) ∧
      ((∀ x ∈ move.Arrangement, (game.Rules.IsLegalCombination x).1 = true) →
        ((move.tiles - game.tableTiles).map Brick.Value).sum < 9223372036854775808 →
        game.IsLegalMove move =
          if (∀ m ∈ game.MoveHistory, m.PlayerName ≠ player.Name) ∧
              ((move.tiles - game.tableTiles).map Brick.Value).sum < game.Rules.FirstMoveValue
          then some (false, VALUE_INSUFFICIENT) else some (true, LEGAL_MOVE)) := by
  have h2 : ¬ move.tiles ≤ game.tableTiles := fun h => hnew (tsub_eq_zero_iff_le.mpr h)
  have hl : game.IsLegalMove move = game.combinationVerdict move player := by
    rw [IsLegalMove_eq game move player hp]
    simp [hname, hrem, h2, hown]
  rw [hl]
  constructor
  · intro pre c post harr hpre hc
    unfold GameState.combinationVerdict
    rw [harr, firstIllegalCombination_append _ _ _ _ hpre hc]
  · intro hall hbound
    unfold GameState.combinationVerdict
    rw [(firstIllegalCombination_eq_none _ _).mpr hall]
    obtain ⟨hsum, hpos⟩ := cumulativeBrickValue_new game move hall hbound
    dsimp only
    rw [hsum]
    by_cases hfirst : ∀ m ∈ game.MoveHistory, m.PlayerName ≠ player.Name
    · have hany : (game.MoveHistory.any fun m => m.PlayerName == player.getName) = false := by
        rw [List.any_eq_false]
        intro m hm
        simpa [Player.getName] using hfirst m hm
      simp only [hany, Bool.false_eq_true, if_false, and_iff_right hfirst, GameState.getRules]
    · have hany : (game.MoveHistory.any fun m => m.PlayerName == player.getName) = true := by
        rw [List.any_eq_true]
        push_neg at hfirst
        rcases hfirst with ⟨m, hm, hmn⟩
        exact ⟨m, hm, by simpa [Player.getName] using hmn⟩
      simp only [hany, if_true]
      rw [if_neg (by omega), if_neg (fun h => hfirst h.1)]

/-- The scenario of C4 (scenario 1 of the specification): on the table of three
combinations, with the hand of seven bricks, adding the three fives, worth 15,
is `LEGAL_MOVE` and adding the three ones, worth 3, is `VALUE_INSUFFICIENT`. -/
theorem IsLegalMove_combinations_then_value_witness :
    (testGame.CurrentPlayer = some testPlayer ∧ testMoveFives.PlayerName = testPlayer.getName ∧
      testGame.tableTiles ≤ testMoveFives.tiles ∧ testMoveFives.tiles - testGame.tableTiles ≠ 0 ∧
      testMoveFives.tiles - testGame.tableTiles ≤ ↑testPlayer.Hand ∧
      ((testMoveFives.tiles - testGame.tableTiles).map Brick.Value).sum = 15 ∧
      testGame.IsLegalMove testMoveFives = some (true, LEGAL_MOVE)) ∧
    (testGame.tableTiles ≤ testMoveOnes.tiles ∧ testMoveOnes.tiles - testGame.tableTiles ≠ 0 ∧
      testMoveOnes.tiles - testGame.tableTiles ≤ ↑testPlayer.Hand ∧
      ((testMoveOnes.tiles - testGame.tableTiles).map Brick.Value).sum = 3 ∧
      testGame.IsLegalMove testMoveOnes = some (false, VALUE_INSUFFICIENT)) :=
  ⟨⟨by decide, by decide, by decide, by decide, by decide, by decide,
      ((IsLegalMove_combinations_then_value testGame testMoveFives testPlayer (by decide)
        (by decide) (by decide) (by decide) (by decide)).2 (by decide) (by decide)).trans
        (by decide)⟩,
    ⟨by decide, by decide, by decide, by decide,
      ((IsLegalMove_combinations_then_value testGame testMoveOnes testPlayer (by decide)
        (by decide) (by decide) (by decide) (by decide)).2 (by decide) (by decide)).trans
        (by decide)⟩⟩

/-- C4, as the claim states it, fails when the sum overflows: under the default
rules with values up to `2^62` the player makes its first move with the group
of the red, green and blue brick of value `2^62` from its hand. The
combination is legal and the summed value of the new bricks, `3 * 2^62`, is
not below `FirstMoveValue` = 14, yet the sum of Go's `int` has wrapped to
`-2^62` and `IsLegalMove` answers `VALUE_INSUFFICIENT`. -/
theorem IsLegalMove_value_overflow :
    (hugeGame []).CurrentPlayer = some hugePlayer ∧ hugeMove.PlayerName = hugePlayer.getName ∧
      (hugeGame []).tableTiles ≤ hugeMove.tiles ∧
      hugeMove.tiles - (hugeGame []).tableTiles ≠ 0 ∧
      hugeMove.tiles - (hugeGame []).tableTiles ≤ ↑hugePlayer.Hand ∧
      (∀ x ∈ hugeMove.Arrangement, ((hugeGame []).Rules.IsLegalCombination x).1 = true) ∧
      (∀ m ∈ (hugeGame []).MoveHistory, m.PlayerName ≠ hugePlayer.Name) ∧
      ((hugeMove.tiles - (hugeGame []).tableTiles).map Brick.Value).sum =
        13835058055282163712 ∧
      ¬ (((hugeMove.tiles - (hugeGame []).tableTiles).map Brick.Value).sum <
        (hugeGame []).Rules.FirstMoveValue) ∧
      cumulativeBrickValue
          (BrickSliceDiff (DissolveCombinations (hugeGame []).Table) hugeMove.Bricks) =
        -4611686018427387904 ∧
      (hugeGame []).IsLegalMove hugeMove = some (false, VALUE_INSUFFICIENT) := by
  refine ⟨by decide, by decide, by decide, by decide, by decide, by decide, by decide,
    by decide, by decide, by decide, by decide⟩

/-! ### The commit step `ProcessMove` -/

theorem updatePlayer_length (f : Player → Player) (l : List Player) (i : Nat) :
    (updatePlayer f l i).length = l.length := by
  induction l generalizing i with
  | nil => rfl
  | cons p ps ih => cases i <;> simp [updatePlayer, ih]

theorem updatePlayer_getElem?_self (f : Player → Player) (l : List Player) (i : Nat) (p : Player)
    (h : l[i]? = some p) : (updatePlayer f l i)[i]? = some (f p) := by
  induction l generalizing i with
  | nil => simp at h
  | cons q ps ih =>
    cases i with
    | zero => simp only [List.getElem?_cons_zero, Option.some.injEq] at h; simp [updatePlayer, h]
    | succ i => simp only [List.getElem?_cons_succ] at h; simp [updatePlayer, ih i h]

theorem updatePlayer_getElem?_ne (f : Player → Player) (l : List Player) (i j : Nat)
    (h : j ≠ i) : (updatePlayer f l i)[j]? = l[j]? := by
  induction l generalizing i j with
  | nil => rfl
  | cons q ps ih =>
    cases i with
    | zero =>
      cases j with
      | zero => exact absurd rfl h
      | succ j => simp [updatePlayer]
    | succ i =>
      cases j with
      | zero => simp [updatePlayer]
      | succ j => simp [updatePlayer, ih i j (fun e => h (by rw [e]))]

theorem mem_updatePlayer (f : Player → Player) (l : List Player) (i : Nat) (q : Player)
    (h : q ∈ updatePlayer f l i) : q ∈ l ∨ ∃ p, l[i]? = some p ∧ q = f p := by
  induction l generalizing i with
  | nil => simp [updatePlayer] at h
  | cons p ps ih =>
    cases i with
    | zero =>
      simp only [updatePlayer, List.mem_cons] at h
      rcases h with h | h
      · exact Or.inr ⟨p, by simp, h⟩
      · exact Or.inl (List.mem_cons_of_mem _ h)
    | succ i =>
      simp only [updatePlayer, List.mem_cons] at h
      rcases h with h | h
      · exact Or.inl (by simp [h])
      · rcases ih i h with h2 | ⟨p2, hp2, hq⟩
        · exact Or.inl (List.mem_cons_of_mem _ h2)
        · exact Or.inr ⟨p2, by simpa using hp2, hq⟩

theorem Player.Hand_SetHand (p : Player) (b : List Brick) : (p.SetHand b).Hand = b := by
  unfold Player.Hand Player.SetHand
  cases hh : p.HandHistory with
  | nil => simp
  | cons h t => simp [List.getD_eq_getElem?_getD]

theorem Table_commitMove (game : GameState) (m : Move) :
    (game.commitMove m).Table = m.Arrangement := by
  unfold GameState.Table GameState.commitMove
  cases hh : game.MoveHistory with
  | nil => simp
  | cons h t => simp [List.getD_eq_getElem?_getD]

theorem popFromPile_append (game : GameState) (rest : List Brick) (b : Brick)
    (h : game.Pile = rest ++ [b]) :
    game.popFromPile = ({ game with Pile := rest }, some b) := by
  unfold GameState.popFromPile
  cases rest with
  | nil => simp [h]
  | cons r rest => simp [h, List.getD_eq_getElem?_getD]

theorem popFromPile_nil (game : GameState) (h : game.Pile = []) :
    game.popFromPile = (game, none) := by
  unfold GameState.popFromPile
  simp [h]

theorem CurrentPlayer_of_IsLegalMove (game : GameState) (m : Move) (r : Bool × String)
    (h : game.IsLegalMove m = some r) : ∃ player, game.CurrentPlayer = some player := by
  unfold GameState.IsLegalMove at h
  cases hp : game.CurrentPlayer with
  | none => rw [hp] at h; simp at h
  | some player => exact ⟨player, rfl⟩

/-- C8: in a game that has not been won, after `ProcessMove` of a move that
`IsLegalMove` judges `LEGAL_MOVE`: the move is appended to `MoveHistory`,
`Table()` is the arrangement of the move, one snapshot is appended to the hand
history of the current player and it is, as a multiset, the old hand minus the
new bricks (proposed minus table); the other players and the pile are
unchanged. -/
theorem ProcessMove_legal_move (game : GameState) (m : Move)
    (hwon : game.HasBeenWon = false) (hl : game.IsLegalMove m = some (true, LEGAL_MOVE)) :
    ∃ game1 reason player newHand,
      game.ProcessMove m = some (game1, true, reason) ∧
      game.CurrentPlayer = some player ∧
      game1.MoveHistory = game.MoveHistory ++ [m] ∧
      game1.Table = m.Arrangement ∧
      game1.Pile = game.Pile ∧
      game1.Players.length = game.Players.length ∧
      game1.Players[game.CurrentTurn.toNat]? =
        some { player with HandHistory := player.HandHistory ++ [newHand] } ∧
      (↑newHand : Multiset Brick) = ↑player.Hand - (m.tiles - game.tableTiles) ∧
      ∀ i, i ≠ game.CurrentTurn.toNat → game1.Players[i]? = game.Players[i]? := by
  obtain ⟨player, hp⟩ := CurrentPlayer_of_IsLegalMove game m _ hl
  have hidx : game.Players[game.CurrentTurn.toNat]? = some player := by
    unfold GameState.CurrentPlayer at hp
    split_ifs at hp
    exact hp
  let newHand := BrickSliceDiff (BrickSliceDiff (DissolveCombinations game.Table) m.Bricks)
    player.Hand
  let game1 := (game.setCurrentHand newHand).commitMove m
  have hnew : (↑newHand : Multiset Brick) = ↑player.Hand - (m.tiles - game.tableTiles) := by
    simp only [newHand, coe_BrickSliceDiff]
    rfl
  have hfacts : game1.MoveHistory = game.MoveHistory ++ [m] ∧ game1.Table = m.Arrangement ∧
      game1.Pile = game.Pile ∧ game1.Players.length = game.Players.length ∧
      game1.Players[game.CurrentTurn.toNat]? =
        some { player with HandHistory := player.HandHistory ++ [newHand] } ∧
      ∀ i, i ≠ game.CurrentTurn.toNat → game1.Players[i]? = game.Players[i]? :=
    ⟨rfl, Table_commitMove _ _, rfl, updatePlayer_length _ _ _,
      updatePlayer_getElem?_self _ _ _ _ hidx, fun i hi => updatePlayer_getElem?_ne _ _ _ _ hi⟩
  obtain ⟨f1, f2, f3, f4, f5, f6⟩ := hfacts
  by_cases hw1 : game1.HasBeenWon = true
  · refine ⟨game1, GAME_WON, player, newHand, ?_, hp, f1, f2, f3, f4, f5, hnew, f6⟩
    unfold GameState.ProcessMove
    rw [hl, hp]
    simp only [hwon, Bool.false_eq_true, if_false, if_true]
    rw [if_pos hw1]
  · refine ⟨game1.cycleTurn, LEGAL_MOVE, player, newHand, ?_, hp, ?_, ?_, ?_, ?_, ?_, hnew, ?_⟩
    · unfold GameState.ProcessMove
      rw [hl, hp]
      simp only [hwon, Bool.false_eq_true, if_false, if_true]
      rw [if_neg hw1]
    all_goals (unfold GameState.cycleTurn; dsimp only; split_ifs <;> assumption)

/-- The scenario of C8 (`TestGame_ProcessMove_AcceptedMove` on the table of the
legality tests): the three fives leave the hand and go to the table. -/
theorem ProcessMove_legal_move_witness :
    testGame.HasBeenWon = false ∧ testGame.IsLegalMove testMoveFives = some (true, LEGAL_MOVE) ∧
    ∃ game1 reason player newHand,
      testGame.ProcessMove testMoveFives = some (game1, true, reason) ∧
      testGame.CurrentPlayer = some player ∧
      game1.MoveHistory = testGame.MoveHistory ++ [testMoveFives] ∧
      game1.Table = testMoveFives.Arrangement ∧
      game1.Pile = testGame.Pile ∧
      game1.Players.length = testGame.Players.length ∧
      game1.Players[testGame.CurrentTurn.toNat]? =
        some { player with HandHistory := player.HandHistory ++ [newHand] } ∧
      (↑newHand : Multiset Brick) = ↑player.Hand - (testMoveFives.tiles - testGame.tableTiles) ∧
      ∀ i, i ≠ testGame.CurrentTurn.toNat → game1.Players[i]? = testGame.Players[i]? :=
  ⟨by decide, by decide, ProcessMove_legal_move testGame testMoveFives (by decide) (by decide)⟩

/-- C9: in a game that has not been won, `ProcessMove` of a move that
`IsLegalMove` judges `FORFEITED` returns `(true, FORFEITED)` and appends the
move to `MoveHistory`; if the pile is not empty it loses exactly its last
element and the current player gets one new hand snapshot, the old hand
followed by that brick; if the pile is empty, pile and hands are unchanged. No
other player changes. -/
theorem ProcessMove_forfeited (game : GameState) (m : Move)
    (hwon : game.HasBeenWon = false) (hl : game.IsLegalMove m = some (true, FORFEITED)) :
    ∃ game1 player,
      game.ProcessMove m = some (game1, true, FORFEITED) ∧
      game.CurrentPlayer = some player ∧
      game1.MoveHistory = game.MoveHistory ++ [m] ∧
      (∀ rest b, game.Pile = rest ++ [b] →
        game1.Pile = rest ∧
        game1.Players.length = game.Players.length ∧
        game1.Players[game.CurrentTurn.toNat]? =
          some { player with HandHistory := player.HandHistory ++ [player.Hand ++ [b]] } ∧
        ∀ i, i ≠ game.CurrentTurn.toNat → game1.Players[i]? = game.Players[i]?) ∧
      (game.Pile = [] → game1.Pile = [] ∧ game1.Players = game.Players) := by
  obtain ⟨player, hp⟩ := CurrentPlayer_of_IsLegalMove game m _ hl
  have hidx : game.Players[game.CurrentTurn.toNat]? = some player := by
    unfold GameState.CurrentPlayer at hp
    split_ifs at hp
    exact hp
  have hne : ¬ FORFEITED = LEGAL_MOVE := by decide
  rcases List.eq_nil_or_concat game.Pile with hpile | ⟨rest, b, hpile⟩
  · refine ⟨(game.commitMove m).cycleTurn, player, ?_, hp, ?_, ?_, ?_⟩
    · unfold GameState.ProcessMove
      rw [hl, hp]
      simp only [hwon, Bool.false_eq_true, if_false, hne, if_true]
      rw [popFromPile_nil (game.commitMove m) hpile]
    · unfold GameState.cycleTurn; dsimp only; split_ifs <;> rfl
    · intro rest b h
      rw [hpile] at h
      simp at h
    · intro _
      constructor
      · unfold GameState.cycleTurn; dsimp only; split_ifs <;> exact hpile
      · unfold GameState.cycleTurn; dsimp only; split_ifs <;> rfl
  · rw [List.concat_eq_append] at hpile
    let game2 : GameState := { game.commitMove m with Pile := rest }
    refine ⟨(game2.setCurrentHand (player.Hand ++ [b])).cycleTurn, player, ?_, hp, ?_, ?_, ?_⟩
    · unfold GameState.ProcessMove
      rw [hl, hp]
      simp only [hwon, Bool.false_eq_true, if_false, hne, if_true]
      rw [popFromPile_append (game.commitMove m) rest b hpile]
    · unfold GameState.cycleTurn; dsimp only; split_ifs <;> rfl
    · intro rest2 b2 h
      rw [hpile] at h
      have h1 := List.append_inj_right' h rfl
      have h2 := List.append_inj_left' h rfl
      simp only [List.cons.injEq, and_true] at h1
      subst h1
      subst h2
      have hfacts : (game2.setCurrentHand (player.Hand ++ [b])).Pile = rest ∧
          (game2.setCurrentHand (player.Hand ++ [b])).Players.length = game.Players.length ∧
          (game2.setCurrentHand (player.Hand ++ [b])).Players[game.CurrentTurn.toNat]? =
            some { player with HandHistory := player.HandHistory ++ [player.Hand ++ [b]] } ∧
          ∀ i, i ≠ game.CurrentTurn.toNat →
            (game2.setCurrentHand (player.Hand ++ [b])).Players[i]? = game.Players[i]? :=
        ⟨rfl, updatePlayer_length _ _ _, updatePlayer_getElem?_self _ _ _ _ hidx,
          fun i hi => updatePlayer_getElem?_ne _ _ _ _ hi⟩
      obtain ⟨f1, f2, f3, f4⟩ := hfacts
      refine ⟨?_, ?_, ?_, ?_⟩
      all_goals (unfold GameState.cycleTurn; dsimp only; split_ifs <;> assumption)
    · intro h
      rw [hpile] at h
      simp at h

/-- The scenario of C9 (`TestGame_ProcessMove_Forfeited`, scenario 2 of the
specification): proposing the table as it is draws the last brick of the
pile. -/
theorem ProcessMove_forfeited_witness :
    testGame.HasBeenWon = false ∧
    testGame.IsLegalMove testMoveForfeit = some (true, FORFEITED) ∧
    ∃ game1 player,
      testGame.ProcessMove testMoveForfeit = some (game1, true, FORFEITED) ∧
      testGame.CurrentPlayer = some player ∧
      game1.MoveHistory = testGame.MoveHistory ++ [testMoveForfeit] ∧
      (∀ rest b, testGame.Pile = rest ++ [b] →
        game1.Pile = rest ∧
        game1.Players.length = testGame.Players.length ∧
        game1.Players[testGame.CurrentTurn.toNat]? =
          some { player with HandHistory := player.HandHistory ++ [player.Hand ++ [b]] } ∧
        ∀ i, i ≠ testGame.CurrentTurn.toNat → game1.Players[i]? = testGame.Players[i]?) ∧
      (testGame.Pile = [] → game1.Pile = [] ∧ game1.Players = testGame.Players) :=
  ⟨by decide, by decide, ProcessMove_forfeited testGame testMoveForfeit (by decide) (by decide)⟩

theorem HasBeenWon_cycleTurn (game : GameState) : game.cycleTurn.HasBeenWon = game.HasBeenWon := by
  unfold GameState.cycleTurn; dsimp only; split_ifs <;> rfl

theorem Players_cycleTurn (game : GameState) : game.cycleTurn.Players = game.Players := by
  unfold GameState.cycleTurn; dsimp only; split_ifs <;> rfl

theorem CurrentTurn_cycleTurn (game : GameState) (h0 : 0 ≤ game.CurrentTurn)
    (h1 : game.CurrentTurn < game.Players.length) :
    game.cycleTurn.CurrentTurn = (game.CurrentTurn + 1) % game.Players.length := by
  unfold GameState.cycleTurn
  dsimp only
  by_cases h : game.CurrentTurn + 1 > (game.Players.length : Int) - 1
  · rw [if_pos h]
    have : game.CurrentTurn + 1 = game.Players.length := by omega
    rw [this, Int.emod_self]
  · rw [if_neg h]
    show game.CurrentTurn + 1 = _
    exact (Int.emod_eq_of_lt (by omega) (by omega)).symm

theorem HasBeenWon_setCurrentHand (game : GameState) (hand : List Brick)
    (hwon : game.HasBeenWon = false) (hhand : hand ≠ []) :
    (game.setCurrentHand hand).HasBeenWon = false := by
  unfold GameState.HasBeenWon at hwon ⊢
  rw [List.any_eq_false] at hwon ⊢
  intro q hq
  rcases mem_updatePlayer _ _ _ _ hq with h | ⟨p, _, h⟩
  · exact hwon q h
  · rw [h, Player.Hand_SetHand]
    simpa using hhand

/-- C10: in a game with a valid turn counter and no empty hand, when
`ProcessMove` accepts a move and every hand is non-empty afterwards,
`CurrentTurn` becomes `(CurrentTurn + 1) mod len(Players)`; when the accepted
move empties a hand, the reason is `GAME_WON` and `CurrentTurn` is unchanged.
In both cases `CurrentTurn` stays an index of `Players`. -/
theorem ProcessMove_turn (game game1 : GameState) (m : Move) (reason : String)
    (h0 : 0 ≤ game.CurrentTurn) (h1 : game.CurrentTurn < game.Players.length)
    (hwon : game.HasBeenWon = false)
    (h : game.ProcessMove m = some (game1, true, reason)) :
    (game1.HasBeenWon = false →
      game1.CurrentTurn = (game.CurrentTurn + 1) % game.Players.length) ∧
    (game1.HasBeenWon = true → reason = GAME_WON ∧ game1.CurrentTurn = game.CurrentTurn) ∧
    0 ≤ game1.CurrentTurn ∧ game1.CurrentTurn < game1.Players.length := by
  have hmod0 : 0 ≤ (game.CurrentTurn + 1) % (game.Players.length : Int) :=
    Int.emod_nonneg _ (by omega)
  have hmod1 : (game.CurrentTurn + 1) % (game.Players.length : Int) < game.Players.length :=
    Int.emod_lt_of_pos _ (by omega)
  unfold GameState.ProcessMove at h
  cases hl : game.IsLegalMove m with
  | none => rw [hl] at h; simp at h
  | some r =>
    obtain ⟨player, hp⟩ := CurrentPlayer_of_IsLegalMove game m _ hl
    rw [hl, hp] at h
    simp only [hwon, Bool.false_eq_true, if_false] at h
    by_cases hr1 : r.2 = LEGAL_MOVE
    · simp only [hr1, if_true] at h
      split_ifs at h with hw1
      · simp only [Option.some.injEq, Prod.mk.injEq, true_and] at h
        obtain ⟨hg, hreason⟩ := h
        subst hg
        refine ⟨fun hc => ?_, fun _ => ⟨hreason.symm, rfl⟩, h0, ?_⟩
        · rw [hw1] at hc; simp at hc
        · show game.CurrentTurn < ((updatePlayer _ game.Players _).length : Int)
          rw [updatePlayer_length]
          exact h1
      · simp only [Option.some.injEq, Prod.mk.injEq, true_and] at h
        obtain ⟨hg, _⟩ := h
        have hturn : game1.CurrentTurn = (game.CurrentTurn + 1) % game.Players.length := by
          rw [← hg]
          have := CurrentTurn_cycleTurn ((game.setCurrentHand
            (BrickSliceDiff (BrickSliceDiff (DissolveCombinations game.Table) m.Bricks)
              player.Hand)).commitMove m) h0
            (by show game.CurrentTurn < ((updatePlayer _ game.Players _).length : Int)
                rw [updatePlayer_length]; exact h1)
          rw [this]
          show _ % ((updatePlayer _ game.Players _).length : Int) = _
          rw [updatePlayer_length]
          rfl
        have hlen : game1.Players.length = game.Players.length := by
          rw [← hg, Players_cycleTurn]
          exact updatePlayer_length _ _ _
        refine ⟨fun _ => hturn, fun hc => ?_, ?_, ?_⟩
        · rw [← hg, HasBeenWon_cycleTurn] at hc
          exact absurd hc hw1
        · rw [hturn]; exact hmod0
        · rw [hturn, hlen]; exact hmod1
    · simp only [hr1, if_false] at h
      by_cases hr2 : r.2 = FORFEITED
      · simp only [hr2, if_true] at h
        rcases List.eq_nil_or_concat game.Pile with hpile | ⟨rest, b, hpile⟩
        · rw [popFromPile_nil (game.commitMove m) hpile] at h
          simp only [Option.some.injEq, Prod.mk.injEq, true_and] at h
          obtain ⟨hg, _⟩ := h
          have hturn : game1.CurrentTurn = (game.CurrentTurn + 1) % game.Players.length := by
            rw [← hg]
            exact CurrentTurn_cycleTurn (game.commitMove m) h0 h1
          have hlen : game1.Players.length = game.Players.length := by
            rw [← hg, Players_cycleTurn]
            rfl
          refine ⟨fun _ => hturn, fun hc => ?_, ?_, ?_⟩
          · rw [← hg, HasBeenWon_cycleTurn] at hc
            have : (game.commitMove m).HasBeenWon = game.HasBeenWon := rfl
            rw [this, hwon] at hc
            simp at hc
          · rw [hturn]; exact hmod0
          · rw [hturn, hlen]; exact hmod1
        · rw [List.concat_eq_append] at hpile
          rw [popFromPile_append (game.commitMove m) rest b hpile] at h
          simp only [Option.some.injEq, Prod.mk.injEq, true_and] at h
          obtain ⟨hg, _⟩ := h
          have hturn : game1.CurrentTurn = (game.CurrentTurn + 1) % game.Players.length := by
            rw [← hg]
            have := CurrentTurn_cycleTurn (GameState.setCurrentHand
              { game.commitMove m with Pile := rest } (player.Hand ++ [b])) h0
              (by show game.CurrentTurn < ((updatePlayer _ game.Players _).length : Int)
                  rw [updatePlayer_length]; exact h1)
            rw [this]
            show _ % ((updatePlayer _ game.Players _).length : Int) = _
            rw [updatePlayer_length]
            rfl
          have hlen : game1.Players.length = game.Players.length := by
            rw [← hg, Players_cycleTurn]
            exact updatePlayer_length _ _ _
          refine ⟨fun _ => hturn, fun hc => ?_, ?_, ?_⟩
          · rw [← hg, HasBeenWon_cycleTurn] at hc
            have hnw := HasBeenWon_setCurrentHand { game.commitMove m with Pile := rest }
              (player.Hand ++ [b]) hwon (by simp)
            rw [hnw] at hc
            simp at hc
          · rw [hturn]; exact hmod0
          · rw [hturn, hlen]; exact hmod1
      · simp [hr2] at h

/-- The scenario of C10: the first of two players forfeits, the move is
accepted, no hand is empty, and the turn passes from index 0 to index 1. -/
theorem ProcessMove_turn_witness :
    0 ≤ twoPlayerGame.CurrentTurn ∧ twoPlayerGame.CurrentTurn < twoPlayerGame.Players.length ∧
    twoPlayerGame.HasBeenWon = false ∧
    twoPlayerGame.ProcessMove forfeitA = some (twoPlayerGameAfterForfeit, true, FORFEITED) ∧
    twoPlayerGameAfterForfeit.CurrentTurn =
      (twoPlayerGame.CurrentTurn + 1) % twoPlayerGame.Players.length ∧
    twoPlayerGameAfterForfeit.CurrentTurn = 1 :=
  ⟨by decide, by decide, by decide, by decide,
    (ProcessMove_turn twoPlayerGame twoPlayerGameAfterForfeit forfeitA FORFEITED (by decide)
      (by decide) (by decide) (by decide)).1 (by decide),
    by decide⟩

/-- What `ProcessMove` does with a move it rejects in a game that has not been
won: the state is returned with the turn counter cycled. -/
theorem ProcessMove_rejected (game : GameState) (m : Move) (r : Bool × String)
    (hwon : game.HasBeenWon = false) (hl : game.IsLegalMove m = some r)
    (h1 : r.2 ≠ LEGAL_MOVE) (h2 : r.2 ≠ FORFEITED) :
    game.ProcessMove m = some (game.cycleTurn, false, r.2) := by
  obtain ⟨player, hp⟩ := CurrentPlayer_of_IsLegalMove game m _ hl
  unfold GameState.ProcessMove
  rw [hl, hp]
  simp only [hwon, Bool.false_eq_true, if_false]
  rw [if_neg h1, if_neg h2]

/-- C1 at a failing input: in the two-player game that has not been won, the
move of the current player that `ProcessMove` rejects as `NOT_OWNED` leaves
history, table, hands and pile alone but moves `CurrentTurn` from 0 to 1. -/
theorem ProcessMove_rejected_cycles_turn :
    twoPlayerGame.HasBeenWon = false ∧ twoPlayerGame.CurrentTurn = 0 ∧
    twoPlayerGame.ProcessMove rejectedMoveA =
      some ({ twoPlayerGame with CurrentTurn := 1 }, false, NOT_OWNED) := by
  refine ⟨by decide, by decide, by decide⟩

/-! ### Tile conservation -/

theorem foldl_set_length (ordered : List Brick) (l : List (Nat × Nat)) :
    ∀ init : List Brick,
      (l.foldl (fun acc iv => acc.set iv.2 (ordered.getD iv.1 Brick.zero)) init).length =
        init.length := by
  induction l with
  | nil => intro init; rfl
  | cons iv l ih => intro init; rw [List.foldl_cons, ih, List.length_set]

theorem foldl_set_untouched (ordered : List Brick) (v : Nat) (l : List (Nat × Nat))
    (hv : ∀ iv ∈ l, iv.2 ≠ v) :
    ∀ init : List Brick,
      (l.foldl (fun acc iv => acc.set iv.2 (ordered.getD iv.1 Brick.zero)) init)[v]? =
        init[v]? := by
  induction l with
  | nil => intro init; rfl
  | cons iv l ih =>
    intro init
    rw [List.foldl_cons, ih (fun x hx => hv x (List.mem_cons_of_mem _ hx)),
      List.getElem?_set_ne (hv iv (List.mem_cons_self _ _))]

theorem foldl_set_enumFrom (ordered : List Brick) (p : List Nat) :
    ∀ (k : Nat) (init : List Brick), p.Nodup → (∀ v ∈ p, v < init.length) →
      ∀ j (hj : j < p.length),
        ((p.enumFrom k).foldl (fun acc iv => acc.set iv.2 (ordered.getD iv.1 Brick.zero))
          init)[p[j]]? = some (ordered.getD (k + j) Brick.zero) := by
  induction p with
  | nil => intro k init _ _ j hj; simp at hj
  | cons v0 p ih =>
    intro k init hnd hlt j hj
    rw [List.nodup_cons] at hnd
    rw [List.enumFrom_cons, List.foldl_cons]
    cases j with
    | zero =>
      simp only [List.getElem_cons_zero, Nat.add_zero]
      rw [foldl_set_untouched]
      · rw [List.getElem?_set_self (hlt v0 (List.mem_cons_self _ _))]
      · intro iv hiv h
        have := List.mem_enumFrom hiv
        apply hnd.1
        rw [← h, this.2.2]
        exact List.getElem_mem _
    | succ j =>
      simp only [List.getElem_cons_succ]
      have := ih (k + 1) (init.set v0 (ordered.getD k Brick.zero)) hnd.2
        (fun v hv => by rw [List.length_set]; exact hlt v (List.mem_cons_of_mem _ hv)) j
        (by simpa using hj)
      rw [this]
      congr 2
      omega

/-- The shuffle of `NewGame` by a permutation of the positions rearranges the
ordered pile. -/
theorem shufflePile_perm (ordered : List Brick) (perm : List Nat)
    (hperm : perm.Perm (List.range ordered.length)) :
    (shufflePile ordered perm).Perm ordered := by
  have hnd : perm.Nodup := hperm.nodup_iff.mpr (List.nodup_range _)
  have hlen : perm.length = ordered.length := by rw [hperm.length_eq, List.length_range]
  have hlt : ∀ v ∈ perm, v < ordered.length := fun v hv => List.mem_range.mp (hperm.mem_iff.mp hv)
  have hFlen : (shufflePile ordered perm).length = ordered.length := by
    unfold shufflePile
    rw [foldl_set_length, List.length_replicate]
  have hget : ∀ j (hj : j < perm.length),
      (shufflePile ordered perm)[perm[j]]? = some (ordered.getD j Brick.zero) := by
    intro j hj
    have := foldl_set_enumFrom ordered perm 0 (List.replicate ordered.length Brick.zero) hnd
      (fun v hv => by rw [List.length_replicate]; exact hlt v hv) j hj
    rw [Nat.zero_add] at this
    exact this
  have h1 : ordered = perm.map fun v => (shufflePile ordered perm).getD v Brick.zero := by
    apply List.ext_getElem
    · rw [List.length_map, hlen]
    · intro j hj1 hj2
      rw [List.getElem_map, List.getD_eq_getElem?_getD, hget j (by rw [hlen]; exact hj1)]
      simp [List.getD_eq_getElem?_getD, List.getElem?_eq_getElem hj1]
  have h2 : ((List.range ordered.length).map fun v => (shufflePile ordered perm).getD v Brick.zero) =
      shufflePile ordered perm := by
    apply List.ext_getElem
    · rw [List.length_map, List.length_range, hFlen]
    · intro j hj1 hj2
      simp [List.getD_eq_getElem?_getD, List.getElem?_eq_getElem hj2]
  exact (List.Perm.of_eq h2.symm).trans ((hperm.map _).symm.trans (List.Perm.of_eq h1.symm))

/-- A move judged `LEGAL_MOVE` removed no brick from the table and took the new
bricks from the hand of the current player. -/
theorem IsLegalMove_reason_legal (game : GameState) (m : Move) (player : Player)
    (r : Bool × String) (hp : game.CurrentPlayer = some player)
    (h : game.IsLegalMove m = some r) (hr : r.2 = LEGAL_MOVE) :
    game.tableTiles ≤ m.tiles ∧ m.tiles - game.tableTiles ≤ ↑player.Hand := by
  rw [IsLegalMove_eq game m player hp] at h
  by_cases c1 : player.getName ≠ m.PlayerName
  · rw [if_pos c1, Option.some.injEq] at h
    rw [← h] at hr
    exact absurd hr (by decide)
  · rw [if_neg c1] at h
    by_cases c2 : game.tableTiles ≤ m.tiles
    · rw [if_neg (not_not.mpr c2)] at h
      by_cases c3 : m.tiles ≤ game.tableTiles
      · rw [if_pos c3, Option.some.injEq] at h
        rw [← h] at hr
        exact absurd hr (by decide)
      · rw [if_neg c3] at h
        by_cases c4 : m.tiles - game.tableTiles ≤ ↑player.Hand
        · exact ⟨c2, c4⟩
        · rw [if_pos c4, Option.some.injEq] at h
          rw [← h] at hr
          exact absurd hr (by decide)
    · rw [if_pos c2, Option.some.injEq] at h
      rw [← h] at hr
      exact absurd hr (by decide)

/-- A move judged `FORFEITED` proposes the bricks of the table. -/
theorem IsLegalMove_reason_forfeited (game : GameState) (m : Move) (player : Player)
    (r : Bool × String) (hp : game.CurrentPlayer = some player)
    (h : game.IsLegalMove m = some r) (hr : r.2 = FORFEITED) :
    m.tiles = game.tableTiles := by
  rw [IsLegalMove_eq game m player hp] at h
  by_cases c1 : player.getName ≠ m.PlayerName
  · rw [if_pos c1, Option.some.injEq] at h
    rw [← h] at hr
    exact absurd hr (by decide)
  · rw [if_neg c1] at h
    by_cases c2 : game.tableTiles ≤ m.tiles
    · rw [if_neg (not_not.mpr c2)] at h
      by_cases c3 : m.tiles ≤ game.tableTiles
      · exact le_antisymm c3 c2
      · rw [if_neg c3] at h
        by_cases c4 : m.tiles - game.tableTiles ≤ ↑player.Hand
        · rw [if_neg (not_not.mpr c4)] at h
          rcases combinationVerdict_cases _ _ _ _ h with h | h | h | h | h | h <;>
            (rw [h] at hr; exact absurd hr (by decide))
        · rw [if_pos c4, Option.some.injEq] at h
          rw [← h] at hr
          exact absurd hr (by decide)
    · rw [if_pos c2, Option.some.injEq] at h
      rw [← h] at hr
      exact absurd hr (by decide)

theorem sum_map_updatePlayer (g : Player → Multiset Brick) (f : Player → Player)
    (l : List Player) (i : Nat) (p : Player) (h : l[i]? = some p) :
    ((updatePlayer f l i).map g).sum + g p = (l.map g).sum + g (f p) := by
  induction l generalizing i with
  | nil => simp at h
  | cons q ps ih =>
    cases i with
    | zero =>
      simp only [List.getElem?_cons_zero, Option.some.injEq] at h
      subst h
      simp only [updatePlayer, List.map_cons, List.sum_cons]
      simp only [add_assoc, add_left_comm, add_comm]
    | succ i =>
      simp only [List.getElem?_cons_succ] at h
      simp only [updatePlayer, List.map_cons, List.sum_cons, add_assoc]
      rw [ih i h]

theorem handTiles_setCurrentHand (game : GameState) (player : Player) (hand : List Brick)
    (hp : game.CurrentPlayer = some player) :
    (game.setCurrentHand hand).handTiles + ↑player.Hand = game.handTiles + ↑hand := by
  have hidx : game.Players[game.CurrentTurn.toNat]? = some player := by
    unfold GameState.CurrentPlayer at hp
    split_ifs at hp
    exact hp
  have := sum_map_updatePlayer (fun p => (↑p.Hand : Multiset Brick)) (fun p => p.SetHand hand)
    game.Players game.CurrentTurn.toNat player hidx
  simp only [Player.Hand_SetHand] at this
  exact this

theorem tableTiles_commitMove (game : GameState) (m : Move) :
    (game.commitMove m).tableTiles = m.tiles := by
  unfold GameState.tableTiles
  rw [Table_commitMove]
  rfl

theorem cycleTurn_fields (game : GameState) :
    game.cycleTurn.Rules = game.Rules ∧ game.cycleTurn.Pile = game.Pile ∧
      game.cycleTurn.handTiles = game.handTiles ∧
      game.cycleTurn.tableTiles = game.tableTiles := by
  unfold GameState.cycleTurn
  dsimp only
  split_ifs <;> exact ⟨rfl, rfl, rfl, rfl⟩

/-- One call of `ProcessMove`, whatever its outcome, keeps the rules and the
multiset of the bricks of pile, hands and table. -/
theorem ProcessMove_conserves (game game1 : GameState) (m : Move) (accepted : Bool)
    (reason : String) (h : game.ProcessMove m = some (game1, accepted, reason)) :
    game1.Rules = game.Rules ∧
      ↑game1.Pile + game1.handTiles + game1.tableTiles =
        ↑game.Pile + game.handTiles + game.tableTiles := by
  unfold GameState.ProcessMove at h
  cases hl : game.IsLegalMove m with
  | none => rw [hl] at h; simp at h
  | some r =>
    obtain ⟨player, hp⟩ := CurrentPlayer_of_IsLegalMove game m _ hl
    rw [hl, hp] at h
    dsimp only at h
    by_cases hwon : game.HasBeenWon = true
    · simp only [hwon, if_true, Option.some.injEq, Prod.mk.injEq] at h
      rw [← h.1]
      exact ⟨rfl, rfl⟩
    · simp only [hwon, Bool.false_eq_true, if_false] at h
      by_cases hr1 : r.2 = LEGAL_MOVE
      · simp only [hr1, if_true] at h
        obtain ⟨hrem, hown⟩ := IsLegalMove_reason_legal game m player r hp hl hr1
        have hhand := handTiles_setCurrentHand game player
          (BrickSliceDiff (BrickSliceDiff (DissolveCombinations game.Table) m.Bricks)
            player.Hand) hp
        rw [coe_BrickSliceDiff, coe_BrickSliceDiff] at hhand
        have hkey : (game.setCurrentHand
            (BrickSliceDiff (BrickSliceDiff (DissolveCombinations game.Table) m.Bricks)
              player.Hand)).handTiles + (m.tiles - game.tableTiles) = game.handTiles := by
          have h3 : (↑player.Hand : Multiset Brick) - (m.tiles - game.tableTiles) +
              (m.tiles - game.tableTiles) = ↑player.Hand := tsub_add_cancel_of_le hown
          have h4 := congrArg (fun x => x + (m.tiles - game.tableTiles)) hhand
          simp only [add_assoc] at h4
          rw [show (↑player.Hand : Multiset Brick) -
            ((↑m.Bricks : Multiset Brick) - ↑(DissolveCombinations game.Table)) +
            (m.tiles - game.tableTiles) = ↑player.Hand from h3] at h4
          rw [add_comm (↑player.Hand : Multiset Brick), ← add_assoc] at h4
          exact add_right_cancel h4
        have hgoal : ∀ g2 : GameState, g2.Rules = game.Rules → g2.Pile = game.Pile →
            g2.handTiles = (game.setCurrentHand
              (BrickSliceDiff (BrickSliceDiff (DissolveCombinations game.Table) m.Bricks)
                player.Hand)).handTiles → g2.tableTiles = m.tiles →
            g2.Rules = game.Rules ∧ ↑g2.Pile + g2.handTiles + g2.tableTiles =
              ↑game.Pile + game.handTiles + game.tableTiles := by
          intro g2 a1 a2 a3 a4
          refine ⟨a1, ?_⟩
          rw [a2, a3, a4, ← hkey, ← tsub_add_cancel_of_le hrem]
          simp only [add_tsub_cancel_right, add_assoc]
        split_ifs at h
        · simp only [Option.some.injEq, Prod.mk.injEq] at h
          rw [← h.1]
          exact hgoal _ rfl rfl rfl (tableTiles_commitMove _ _)
        · simp only [Option.some.injEq, Prod.mk.injEq] at h
          rw [← h.1]
          obtain ⟨c1, c2, c3, c4⟩ := cycleTurn_fields ((game.setCurrentHand
            (BrickSliceDiff (BrickSliceDiff (DissolveCombinations game.Table) m.Bricks)
              player.Hand)).commitMove m)
          exact hgoal _ (c1.trans rfl) (c2.trans rfl) (c3.trans rfl)
            (c4.trans (tableTiles_commitMove _ _))
      · simp only [hr1, if_false] at h
        by_cases hr2 : r.2 = FORFEITED
        · simp only [hr2, if_true] at h
          have htab := IsLegalMove_reason_forfeited game m player r hp hl hr2
          rcases List.eq_nil_or_concat game.Pile with hpile | ⟨rest, b, hpile⟩
          · rw [popFromPile_nil (game.commitMove m) hpile] at h
            simp only [Option.some.injEq, Prod.mk.injEq] at h
            rw [← h.1]
            obtain ⟨c1, c2, c3, c4⟩ := cycleTurn_fields (game.commitMove m)
            refine ⟨c1.trans rfl, ?_⟩
            rw [c2, c3, c4, tableTiles_commitMove, htab]
            rfl
          · rw [List.concat_eq_append] at hpile
            rw [popFromPile_append (game.commitMove m) rest b hpile] at h
            simp only [Option.some.injEq, Prod.mk.injEq] at h
            rw [← h.1]
            obtain ⟨c1, c2, c3, c4⟩ := cycleTurn_fields (GameState.setCurrentHand
              { game.commitMove m with Pile := rest } (player.Hand ++ [b]))
            have hhand := handTiles_setCurrentHand { game.commitMove m with Pile := rest } player
              (player.Hand ++ [b]) hp
            have hh2 : (GameState.setCurrentHand { game.commitMove m with Pile := rest }
                (player.Hand ++ [b])).handTiles = game.handTiles + ↑[b] := by
              have e : (↑(player.Hand ++ [b]) : Multiset Brick) = ↑[b] + ↑player.Hand := by
                rw [← Multiset.coe_add]
                exact add_comm _ _
              rw [e, ← add_assoc] at hhand
              exact add_right_cancel hhand
            refine ⟨c1.trans rfl, ?_⟩
            rw [c2, c3, c4, hh2]
            have ht : (GameState.setCurrentHand { game.commitMove m with Pile := rest }
                (player.Hand ++ [b])).tableTiles = game.tableTiles := by
              rw [← htab]
              exact tableTiles_commitMove game m
            rw [ht, hpile, ← Multiset.coe_add]
            show (↑rest : Multiset Brick) + _ + _ = _
            simp only [add_assoc, add_left_comm, add_comm]
        · simp only [hr2, if_false, Option.some.injEq, Prod.mk.injEq] at h
          rw [← h.1]
          obtain ⟨c1, c2, c3, c4⟩ := cycleTurn_fields game
          exact ⟨c1, by rw [c2, c3, c4]⟩

theorem drawHand_spec :
    ∀ (n : Nat) (game : GameState) (tmp : List Brick) (game1 : GameState) (tmp1 : List Brick),
      drawHand n game tmp = some (game1, tmp1) →
      (↑game1.Pile + ↑tmp1 : Multiset Brick) = ↑game.Pile + ↑tmp ∧
        game1.Players = game.Players ∧ game1.MoveHistory = game.MoveHistory ∧
        game1.Rules = game.Rules := by
  intro n
  induction n with
  | zero =>
    intro game tmp game1 tmp1 h
    simp only [drawHand, Option.some.injEq, Prod.mk.injEq] at h
    rw [← h.1, ← h.2]
    exact ⟨rfl, rfl, rfl, rfl⟩
  | succ n ih =>
    intro game tmp game1 tmp1 h
    rcases List.eq_nil_or_concat game.Pile with hpile | ⟨rest, b, hpile⟩
    · rw [drawHand, popFromPile_nil game hpile] at h
      simp at h
    · rw [List.concat_eq_append] at hpile
      rw [drawHand, popFromPile_append game rest b hpile] at h
      obtain ⟨i1, i2, i3, i4⟩ := ih _ _ _ _ h
      refine ⟨?_, i2, i3, i4⟩
      rw [i1, hpile]
      show (↑rest : Multiset Brick) + ↑(tmp ++ [b]) = ↑(rest ++ [b]) + ↑tmp
      rw [← Multiset.coe_add, ← Multiset.coe_add]
      simp only [add_assoc, add_left_comm, add_comm]

theorem dealHands_spec (handSize : Int) :
    ∀ (idxs : List Nat) (game game1 : GameState),
      dealHands handSize idxs game = some game1 → idxs.Nodup →
      (∀ i ∈ idxs, ∃ p, game.Players[i]? = some p ∧ p.Hand = []) →
      ↑game1.Pile + game1.handTiles = ↑game.Pile + game.handTiles ∧
        game1.MoveHistory = game.MoveHistory ∧ game1.Rules = game.Rules := by
  intro idxs
  induction idxs with
  | nil =>
    intro game game1 h _ _
    simp only [dealHands, Option.some.injEq] at h
    rw [← h]
    exact ⟨rfl, rfl, rfl⟩
  | cons i rest ih =>
    intro game game1 h hnd hfresh
    rw [List.nodup_cons] at hnd
    rw [dealHands] at h
    cases hd : drawHand handSize.toNat game [] with
    | none => rw [hd] at h; simp at h
    | some r =>
      obtain ⟨game2, tmp⟩ := r
      rw [hd] at h
      dsimp only at h
      obtain ⟨d1, d2, d3, d4⟩ := drawHand_spec _ _ _ _ _ hd
      obtain ⟨p, hp, hpe⟩ := hfresh i (List.mem_cons_self _ _)
      have hfresh2 : ∀ j ∈ rest, ∃ q,
          (updatePlayer (fun p => p.SetHand tmp) game2.Players i)[j]? = some q ∧ q.Hand = [] := by
        intro j hj
        obtain ⟨q, hq, hqe⟩ := hfresh j (List.mem_cons_of_mem _ hj)
        have hji : j ≠ i := fun e => hnd.1 (e ▸ hj)
        exact ⟨q, by rw [updatePlayer_getElem?_ne _ _ _ _ hji, d2]; exact hq, hqe⟩
      obtain ⟨e1, e2, e3⟩ := ih _ _ h hnd.2 hfresh2
      refine ⟨?_, e2.trans d3, e3.trans d4⟩
      rw [e1]
      have hsum := sum_map_updatePlayer (fun p => (↑p.Hand : Multiset Brick))
        (fun p => p.SetHand tmp) game2.Players i p (by rw [d2]; exact hp)
      simp only [Player.Hand_SetHand, hpe, Multiset.coe_nil, add_zero] at hsum
      show (↑game2.Pile : Multiset Brick) +
        ((updatePlayer (fun p => p.SetHand tmp) game2.Players i).map
          fun p => (↑p.Hand : Multiset Brick)).sum = _
      rw [hsum, ← add_assoc, add_right_comm, d1, d2]
      simp [GameState.handTiles]

theorem handTiles_fresh (l : List Player) (h : ∀ p ∈ l, p.HandHistory = []) :
    (l.map fun p => (↑p.Hand : Multiset Brick)).sum = 0 := by
  induction l with
  | nil => rfl
  | cons p ps ih =>
    have hp : p.Hand = [] := by
      unfold Player.Hand
      simp [h p (List.mem_cons_self _ _)]
    rw [List.map_cons, List.sum_cons, ih fun q hq => h q (List.mem_cons_of_mem _ hq), hp]
    rfl

/-- The game `NewGame` deals to fresh players holds exactly the bricks of the
rule set, in the pile and the hands. -/
theorem NewGame_conserves (rules : Rules) (seed : Int) (perm : List Nat) (ps : List Player)
    (start : GameState) (hperm : perm.Perm (List.range rules.AllBricks.length))
    (hfresh : ∀ p ∈ ps, p.HandHistory = []) (hnew : NewGame rules seed perm ps = some start) :
    start.Rules = rules ∧
      ↑start.Pile + start.handTiles + start.tableTiles = ↑rules.AllBricks := by
  unfold NewGame at hnew
  dsimp only at hnew
  have hf : ∀ i ∈ List.range ps.length, ∃ p, ps[i]? = some p ∧ p.Hand = [] := by
    intro i hi
    have hi2 : i < ps.length := List.mem_range.mp hi
    refine ⟨ps[i], List.getElem?_eq_getElem hi2, ?_⟩
    unfold Player.Hand
    simp [hfresh ps[i] (List.getElem_mem _)]
  obtain ⟨e1, e2, e3⟩ := dealHands_spec _ _ _ _ hnew (List.nodup_range _) hf
  refine ⟨e3, ?_⟩
  have htab : start.tableTiles = 0 := by
    unfold GameState.tableTiles GameState.Table
    rw [e2]
    rfl
  rw [htab, add_zero, e1]
  show (↑(shufflePile rules.AllBricks perm) : Multiset Brick) +
    (ps.map fun p => (↑p.Hand : Multiset Brick)).sum = _
  rw [handTiles_fresh ps hfresh, add_zero, Multiset.coe_eq_coe]
  exact shufflePile_perm _ _ hperm

/-- C2 (tile conservation): for every rule set, every permutation of the brick
positions and every list of fresh players for which `NewGame` succeeds, in
every state reachable from the `NewGame` state by calls of `ProcessMove`
(accepted or rejected) the multiset union of the pile, the current hands of
all players and the dissolved current table is the multiset
`Rules.AllBricks()`. -/
theorem tile_conservation (rules : Rules) (seed : Int) (perm : List Nat) (ps : List Player)
    (start game : GameState) (hperm : perm.Perm (List.range rules.AllBricks.length))
    (hfresh : ∀ p ∈ ps, p.HandHistory = []) (hnew : NewGame rules seed perm ps = some start)
    (hreach : Reachable start game) :
    game.Rules = rules ∧
      ↑game.Pile + game.handTiles + game.tableTiles = ↑game.Rules.AllBricks := by
  induction hreach with
  | start =>
    obtain ⟨h1, h2⟩ := NewGame_conserves rules seed perm ps start hperm hfresh hnew
    exact ⟨h1, by rw [h1]; exact h2⟩
  | step g g1 m accepted reason _ hstep ih =>
    obtain ⟨h1, h2⟩ := ProcessMove_conserves g g1 m accepted reason hstep
    exact ⟨h1.trans ih.1, by rw [h2, h1]; exact ih.2⟩

/-- The scenario of C2: `NewGame` under `smallRules` deals two of the four
bricks to the one player; after the forfeit that draws the joker the pile, the
hand and the empty table still hold the four bricks of the rule set. -/
theorem tile_conservation_witness :
    smallPerm.Perm (List.range smallRules.AllBricks.length) ∧
    (∀ p ∈ [NewHumanPlayer "A"], p.HandHistory = []) ∧
    NewGame smallRules 7 smallPerm [NewHumanPlayer "A"] = some smallGame ∧
    Reachable smallGame smallGameAfterForfeit ∧
    (↑smallGameAfterForfeit.Pile + smallGameAfterForfeit.handTiles +
      smallGameAfterForfeit.tableTiles : Multiset Brick) = ↑smallRules.AllBricks :=
  ⟨by decide, by decide, by decide,
    Reachable.step smallGame smallGameAfterForfeit ⟨[], "A"⟩ true FORFEITED Reachable.start
      (by decide),
    (tile_conservation smallRules 7 smallPerm [NewHumanPlayer "A"] smallGame smallGameAfterForfeit
      (by decide) (by decide) (by decide)
      (Reachable.step smallGame smallGameAfterForfeit ⟨[], "A"⟩ true FORFEITED Reachable.start
        (by decide))).2⟩

/-! ### A game that has been won -/

/-- With the turn counter an index of the players, `IsLegalMove` returns. -/
theorem IsLegalMove_isSome (game : GameState) (m : Move) (player : Player)
    (hp : game.CurrentPlayer = some player) : ∃ r, game.IsLegalMove m = some r := by
  unfold GameState.IsLegalMove
  rw [hp]
  dsimp only
  split_ifs <;> (try split) <;> exact ⟨_, rfl⟩

theorem CurrentPlayer_of_valid (game : GameState) (h0 : 0 ≤ game.CurrentTurn)
    (h1 : game.CurrentTurn < game.Players.length) : ∃ player, game.CurrentPlayer = some player := by
  have hlt : game.CurrentTurn.toNat < game.Players.length := by omega
  refine ⟨game.Players[game.CurrentTurn.toNat], ?_⟩
  unfold GameState.CurrentPlayer
  rw [if_neg (by omega)]
  exact List.getElem?_eq_getElem hlt

theorem HasBeenWon_of_empty_hand (game : GameState) (h : ∃ p ∈ game.Players, p.Hand = []) :
    game.HasBeenWon = true := by
  obtain ⟨p, hp, he⟩ := h
  unfold GameState.HasBeenWon
  rw [List.any_eq_true]
  exact ⟨p, hp, by simp [he]⟩

/-- Whatever `ProcessMove` returns in a game that has been won, it is the
unchanged game, not accepted, with reason `GAME_WON`. -/
theorem ProcessMove_won_result (game game1 : GameState) (m : Move) (accepted : Bool)
    (reason : String) (hwon : game.HasBeenWon = true)
    (h : game.ProcessMove m = some (game1, accepted, reason)) :
    game1 = game ∧ accepted = false ∧ reason = GAME_WON := by
  unfold GameState.ProcessMove at h
  cases hl : game.IsLegalMove m with
  | none => rw [hl] at h; simp at h
  | some r =>
    obtain ⟨player, hp⟩ := CurrentPlayer_of_IsLegalMove game m _ hl
    rw [hl, hp] at h
    simp only [hwon, if_true, Option.some.injEq, Prod.mk.injEq] at h
    exact ⟨h.1.symm, h.2.1.symm, h.2.2.symm⟩

/-- C11, as the code has it: in a game state whose turn counter is an index of
the players and in which some player holds an empty hand, `ProcessMove` of any
move returns `(false, GAME_WON)` and the unchanged state; and every state
reached from a won game by calls of `ProcessMove` is that same game, so
`HasBeenWon` stays true. -/
theorem ProcessMove_won (game : GameState) (m : Move)
    (h0 : 0 ≤ game.CurrentTurn) (h1 : game.CurrentTurn < game.Players.length)
    (hempty : ∃ p ∈ game.Players, p.Hand = []) :
    game.ProcessMove m = some (game, false, GAME_WON) ∧
      ∀ game1, Reachable game game1 → game1 = game ∧ game1.HasBeenWon = true := by
  have hwon := HasBeenWon_of_empty_hand game hempty
  obtain ⟨player, hp⟩ := CurrentPlayer_of_valid game h0 h1
  obtain ⟨r, hl⟩ := IsLegalMove_isSome game m player hp
  constructor
  · unfold GameState.ProcessMove
    rw [hl, hp]
    simp only [hwon, if_true]
  · intro game1 hreach
    induction hreach with
    | start => exact ⟨rfl, hwon⟩
    | step g g1 m1 accepted reason _ hstep ih =>
      rw [ih.1] at hstep
      obtain ⟨e, _, _⟩ := ProcessMove_won_result game g1 m1 accepted reason hwon hstep
      exact ⟨e, by rw [e]; exact hwon⟩

/-- The scenario of C11: in the won two-player game the forfeit of the second
player is turned down with `GAME_WON` and nothing changes. -/
theorem ProcessMove_won_witness :
    0 ≤ wonGame.CurrentTurn ∧ wonGame.CurrentTurn < wonGame.Players.length ∧
    (∃ p ∈ wonGame.Players, p.Hand = []) ∧
    wonGame.ProcessMove wonGame.lastMove = some (wonGame, false, GAME_WON) :=
  ⟨by decide, by decide, ⟨winner, by decide, by decide⟩,
    (ProcessMove_won wonGame wonGame.lastMove (by decide) (by decide)
      ⟨winner, by decide, by decide⟩).1⟩

/-- C11 as stated fails on a state whose turn counter is no index of the
players: the first player holds an empty hand, yet `ProcessMove` does not
return; it panics in `CurrentPlayer` before the `HasBeenWon` guard. -/
theorem ProcessMove_won_invalid_turn :
    (∃ p ∈ wonGameBadTurn.Players, p.Hand = []) ∧
    wonGameBadTurn.ProcessMove (NewMove "testplayerB" []) = none ∧
    wonGameBadTurn.ProcessMove (NewMove "testplayerB" []) ≠
      some (wonGameBadTurn, false, GAME_WON) :=
  ⟨⟨winner, by decide, by decide⟩, by decide, by decide⟩

/-! ### `IsValidGroup` -/

theorem dedup_length_le_one {α : Type} [DecidableEq α] (l : List α) :
    l.dedup.length ≤ 1 ↔ ∀ x ∈ l, ∀ y ∈ l, x = y := by
  constructor
  · intro h x hx y hy
    have hx2 : x ∈ l.dedup := List.mem_dedup.mpr hx
    have hy2 : y ∈ l.dedup := List.mem_dedup.mpr hy
    match hd : l.dedup, h, hx2, hy2 with
    | [], _, hx2, _ => simp at hx2
    | [a], _, hx2, hy2 =>
      simp only [List.mem_singleton] at hx2 hy2
      rw [hx2, hy2]
    | a :: b :: t, h, _, _ => simp at h
  · intro h
    have hnd : l.dedup.Nodup := List.nodup_dedup l
    match hd : l.dedup, hnd with
    | [], _ => simp
    | [a], _ => simp
    | a :: b :: t, hnd =>
      have ha : a ∈ l := List.mem_dedup.mp (by rw [hd]; simp)
      have hb : b ∈ l := List.mem_dedup.mp (by rw [hd]; simp)
      have := h a ha b hb
      simp [this] at hnd

theorem groupColorRepeated_eq_false (l : List Brick) :
    ∀ colorMap : List String,
      groupColorRepeated l colorMap = false ↔
        (∀ b ∈ l, b.Color ≠ JokerColor → b.Color ∉ colorMap) ∧
          ((l.filter fun b => b.Color != JokerColor).map Brick.Color).Nodup := by
  induction l with
  | nil => intro colorMap; simp [groupColorRepeated]
  | cons b rest ih =>
    intro colorMap
    rw [groupColorRepeated]
    by_cases hj : b.Color = JokerColor
    · have hb : (b.Color != JokerColor) = false := by simp [hj]
      have hf : (b :: rest).filter (fun b => b.Color != JokerColor) =
          rest.filter (fun b => b.Color != JokerColor) :=
        List.filter_cons_of_neg (by simp [hj])
      rw [hb, Bool.and_false, if_neg (by simp), ih, hf]
      constructor
      · rintro ⟨h1, h2⟩
        refine ⟨?_, h2⟩
        intro x hx hxj
        rcases List.mem_cons.mp hx with e | hx
        · exact absurd (e ▸ hj) hxj
        · exact fun hm => h1 x hx hxj (List.mem_cons_of_mem _ hm)
      · rintro ⟨h1, h2⟩
        refine ⟨?_, h2⟩
        intro x hx hxj hm
        rcases List.mem_cons.mp hm with e | hm
        · exact hxj (e.trans hj)
        · exact h1 x (List.mem_cons_of_mem _ hx) hxj hm
    · have hb : (b.Color != JokerColor) = true := by simpa using hj
      have hf : (b :: rest).filter (fun b => b.Color != JokerColor) =
          b :: rest.filter (fun b => b.Color != JokerColor) := List.filter_cons_of_pos hb
      rw [hb, Bool.and_true, hf, List.map_cons, List.nodup_cons]
      by_cases hm : b.Color ∈ colorMap
      · have hc : colorMap.contains b.Color = true := by simpa using hm
        rw [hc, if_pos rfl]
        constructor
        · intro h; exact absurd h (by simp)
        · rintro ⟨h1, _⟩; exact absurd hm (h1 b (List.mem_cons_self _ _) hj)
      · have hc : colorMap.contains b.Color = false := by simpa using hm
        rw [hc, if_neg (by simp), ih]
        constructor
        · rintro ⟨h1, h2⟩
          refine ⟨?_, ?_, h2⟩
          · intro x hx hxj
            rcases List.mem_cons.mp hx with e | hx
            · rw [e]; exact hm
            · exact fun hmem => h1 x hx hxj (List.mem_cons_of_mem _ hmem)
          · intro hmem
            obtain ⟨x, hx, hxc⟩ := List.mem_map.mp hmem
            have hx2 := List.mem_filter.mp hx
            exact h1 x hx2.1 (by simpa using hx2.2) (by rw [hxc]; exact List.mem_cons_self _ _)
        · rintro ⟨h1, h2, h3⟩
          refine ⟨?_, h3⟩
          intro x hx hxj hmem
          rcases List.mem_cons.mp hmem with e | hmem
          · exact h2 (List.mem_map.mpr ⟨x, List.mem_filter.mpr ⟨hx, by simpa using hxj⟩, e⟩)
          · exact h1 x (List.mem_cons_of_mem _ hx) hxj hmem

/-- The four checks of `IsValidGroup` in their order, read on the bricks. -/
theorem IsValidGroup_eq (c : BrickCombination) :
    c.IsValidGroup =
      if c.Bricks.length < 3 then (false, COMBINATION_TOO_SMALL)
      else if ¬ ∃ b ∈ c.Bricks, b.Color ≠ JokerColor then (false, CONTAINS_ONLY_JOKERS)
      else if ¬ ∀ a ∈ c.Bricks, ∀ b ∈ c.Bricks, a.Color ≠ JokerColor → b.Color ≠ JokerColor →
          a.Value = b.Value then (false, CONTAINS_MULTIPLE_VALUES)
      else if ¬ ((c.Bricks.filter fun b => b.Color != JokerColor).map Brick.Color).Nodup then
        (false, COLORS_NOT_UNIQUE)
      else (true, VALID_GROUP) := by
  unfold BrickCombination.IsValidGroup
  dsimp only
  by_cases h1 : c.Bricks.length < 3
  · rw [if_pos h1, if_pos h1]
  · rw [if_neg h1, if_neg h1]
    by_cases h2 : ∃ b ∈ c.Bricks, b.Color ≠ JokerColor
    · have h2b : containsNonJoker c.Bricks = true := by
        unfold containsNonJoker
        rw [List.any_eq_true]
        obtain ⟨b, hb, hbj⟩ := h2
        exact ⟨b, hb, by simpa using hbj⟩
      rw [if_neg (by simp [h2b]), if_neg (not_not.mpr h2)]
      have hv : ((c.Bricks.filter fun b => b.Color != JokerColor).map Brick.Value).dedup.length > 1 ↔
          ¬ ∀ a ∈ c.Bricks, ∀ b ∈ c.Bricks, a.Color ≠ JokerColor → b.Color ≠ JokerColor →
            a.Value = b.Value := by
        rw [gt_iff_lt, ← not_le, dedup_length_le_one]
        apply not_congr
        simp only [List.mem_map, List.mem_filter, bne_iff_ne, ne_eq, forall_exists_index, and_imp]
        constructor
        · intro h a ha b hb haj hbj
          exact h a.Value a ha haj rfl b.Value b hb hbj rfl
        · rintro h x a ha haj rfl y b hb hbj rfl
          exact h a ha b hb haj hbj
      by_cases h3 : ∀ a ∈ c.Bricks, ∀ b ∈ c.Bricks, a.Color ≠ JokerColor → b.Color ≠ JokerColor →
          a.Value = b.Value
      · rw [if_neg (fun h => hv.mp h h3), if_neg (not_not.mpr h3)]
        by_cases h4 : ((c.Bricks.filter fun b => b.Color != JokerColor).map Brick.Color).Nodup
        · have h4b : groupColorRepeated c.Bricks [] = false :=
            (groupColorRepeated_eq_false c.Bricks []).mpr ⟨fun _ _ _ => by simp, h4⟩
          rw [if_neg (by simp [h4b]), if_neg (not_not.mpr h4)]
        · have h4b : groupColorRepeated c.Bricks [] = true := by
            rw [← Bool.not_eq_false]
            exact fun h => h4 ((groupColorRepeated_eq_false c.Bricks []).mp h).2
          rw [if_pos h4b, if_pos h4]
      · rw [if_pos (hv.mpr h3), if_pos h3]
    · have h2b : containsNonJoker c.Bricks = false := by
        unfold containsNonJoker
        rw [List.any_eq_false]
        intro b hb
        push_neg at h2
        simpa using h2 b hb
      rw [if_pos (by simp [h2b]), if_pos h2]

/-- C14: `IsValidGroup` returns true exactly when the combination has at least
3 bricks, some brick is not a joker, all bricks that are not jokers have the
same value and pairwise distinct colours; and when it returns false the reason
is that of the first failing check in the order `COMBINATION_TOO_SMALL`,
`CONTAINS_ONLY_JOKERS`, `CONTAINS_MULTIPLE_VALUES`, `COLORS_NOT_UNIQUE`. -/
theorem IsValidGroup_iff (c : BrickCombination) :
    (c.IsValidGroup.1 = true ↔
      3 ≤ c.Bricks.length ∧ (∃ b ∈ c.Bricks, b.Color ≠ JokerColor) ∧
      (∀ a ∈ c.Bricks, ∀ b ∈ c.Bricks, a.Color ≠ JokerColor → b.Color ≠ JokerColor →
        a.Value = b.Value) ∧
      ((c.Bricks.filter fun b => b.Color != JokerColor).map Brick.Color).Nodup) ∧
    (c.Bricks.length < 3 → c.IsValidGroup = (false, COMBINATION_TOO_SMALL)) ∧
    (3 ≤ c.Bricks.length → (¬ ∃ b ∈ c.Bricks, b.Color ≠ JokerColor) →
      c.IsValidGroup = (false, CONTAINS_ONLY_JOKERS)) ∧
    (3 ≤ c.Bricks.length → (∃ b ∈ c.Bricks, b.Color ≠ JokerColor) →
      (¬ ∀ a ∈ c.Bricks, ∀ b ∈ c.Bricks, a.Color ≠ JokerColor → b.Color ≠ JokerColor →
        a.Value = b.Value) →
      c.IsValidGroup = (false, CONTAINS_MULTIPLE_VALUES)) ∧
    (3 ≤ c.Bricks.length → (∃ b ∈ c.Bricks, b.Color ≠ JokerColor) →
      (∀ a ∈ c.Bricks, ∀ b ∈ c.Bricks, a.Color ≠ JokerColor → b.Color ≠ JokerColor →
        a.Value = b.Value) →
      ¬ ((c.Bricks.filter fun b => b.Color != JokerColor).map Brick.Color).Nodup →
      c.IsValidGroup = (false, COLORS_NOT_UNIQUE)) := by
  rw [IsValidGroup_eq]
  refine ⟨?_, ?_, ?_, ?_, ?_⟩
  · by_cases h1 : c.Bricks.length < 3
    · rw [if_pos h1]
      exact ⟨fun h => absurd h (by simp), fun h => absurd h.1 (by omega)⟩
    · rw [if_neg h1]
      by_cases h2 : ∃ b ∈ c.Bricks, b.Color ≠ JokerColor
      · rw [if_neg (not_not.mpr h2)]
        by_cases h3 : ∀ a ∈ c.Bricks, ∀ b ∈ c.Bricks, a.Color ≠ JokerColor →
            b.Color ≠ JokerColor → a.Value = b.Value
        · rw [if_neg (not_not.mpr h3)]
          by_cases h4 : ((c.Bricks.filter fun b => b.Color != JokerColor).map Brick.Color).Nodup
          · rw [if_neg (not_not.mpr h4)]
            exact ⟨fun _ => ⟨by omega, h2, h3, h4⟩, fun _ => rfl⟩
          · rw [if_pos h4]
            exact ⟨fun h => absurd h (by simp), fun h => absurd h.2.2.2 h4⟩
        · rw [if_pos h3]
          exact ⟨fun h => absurd h (by simp), fun h => absurd h.2.2.1 h3⟩
      · rw [if_pos h2]
        exact ⟨fun h => absurd h (by simp), fun h => absurd h.2.1 h2⟩
  · intro h1
    rw [if_pos h1]
  · intro h1 h2
    rw [if_neg (by omega), if_pos h2]
  · intro h1 h2 h3
    rw [if_neg (by omega), if_neg (not_not.mpr h2), if_pos h3]
  · intro h1 h2 h3 h4
    rw [if_neg (by omega), if_neg (not_not.mpr h2), if_neg (not_not.mpr h3), if_pos h4]

/-- The scenario of C14 (`TestIsLegalCombination`): four jokers are at least 3
bricks without a brick that is not a joker, so `IsValidGroup` turns them down
with `CONTAINS_ONLY_JOKERS`. -/
theorem IsValidGroup_iff_witness :
    3 ≤ fourJokers.Bricks.length ∧ (¬ ∃ b ∈ fourJokers.Bricks, b.Color ≠ JokerColor) ∧
    fourJokers.IsValidGroup = (false, CONTAINS_ONLY_JOKERS) :=
  ⟨by decide, by decide, (IsValidGroup_iff fourJokers).2.2.1 (by decide) (by decide)⟩

/-- The verdict of `IsValidGroup`, reason included, does not depend on the
order of the bricks. -/
theorem IsValidGroup_perm (c d : BrickCombination) (h : c.Bricks.Perm d.Bricks) :
    c.IsValidGroup = d.IsValidGroup := by
  rw [IsValidGroup_eq, IsValidGroup_eq]
  have e1 : c.Bricks.length = d.Bricks.length := h.length_eq
  have e2 : (∃ b ∈ c.Bricks, b.Color ≠ JokerColor) ↔ ∃ b ∈ d.Bricks, b.Color ≠ JokerColor := by
    constructor
    · rintro ⟨b, hb, hj⟩; exact ⟨b, h.mem_iff.mp hb, hj⟩
    · rintro ⟨b, hb, hj⟩; exact ⟨b, h.mem_iff.mpr hb, hj⟩
  have e3 : (∀ a ∈ c.Bricks, ∀ b ∈ c.Bricks, a.Color ≠ JokerColor → b.Color ≠ JokerColor →
        a.Value = b.Value) ↔
      ∀ a ∈ d.Bricks, ∀ b ∈ d.Bricks, a.Color ≠ JokerColor → b.Color ≠ JokerColor →
        a.Value = b.Value := by
    constructor
    · intro hc a ha b hb; exact hc a (h.mem_iff.mpr ha) b (h.mem_iff.mpr hb)
    · intro hd a ha b hb; exact hd a (h.mem_iff.mp ha) b (h.mem_iff.mp hb)
  have e4 : ((c.Bricks.filter fun b => b.Color != JokerColor).map Brick.Color).Nodup ↔
      ((d.Bricks.filter fun b => b.Color != JokerColor).map Brick.Color).Nodup :=
    ((h.filter _).map _).nodup_iff
  exact if_congr (by rw [e1]) rfl (if_congr (not_congr e2) rfl
    (if_congr (not_congr e3) rfl (if_congr (not_congr e4) rfl rfl)))

/-! ### `IsValidRun` -/

/-- C12 at a failing input: the run blue 1, blue 2, joker of the test suite is
a valid run, and the same bricks with the joker first are rejected with
`CONTAINS_DUPLICATE_VALUES`, because the value loop of `IsValidRun` records
the value 1 of the joker and then meets blue 1. -/
theorem IsValidRun_order_sensitive :
    runJokerFirst.Bricks.Perm runJokerLast.Bricks ∧
    runJokerLast.IsValidRun = (true, VALID_RUN) ∧
    runJokerFirst.IsValidRun = (false, CONTAINS_DUPLICATE_VALUES) ∧
    runJokerFirst.IsValidGroup = runJokerLast.IsValidGroup := by
  refine ⟨by decide, by decide, by decide, by decide⟩

theorem runValueRepeated_eq_false (l : List Brick) :
    ∀ valueMap : List Int, runValueRepeated l valueMap = false →
      (∀ b ∈ l, b.Color ≠ JokerColor → b.Value ∉ valueMap) ∧
        ((l.filter fun b => b.Color != JokerColor).map Brick.Value).Nodup := by
  induction l with
  | nil => intro valueMap _; simp
  | cons b rest ih =>
    intro valueMap h
    rw [runValueRepeated] at h
    by_cases hc : (valueMap.contains b.Value && b.Color != JokerColor) = true
    · rw [if_pos hc] at h
      exact absurd h (by simp)
    · rw [if_neg hc] at h
      obtain ⟨i1, i2⟩ := ih _ h
      have hrest : ∀ x ∈ rest, x.Color ≠ JokerColor → x.Value ∉ valueMap ∧ x.Value ≠ b.Value := by
        intro x hx hxj
        have := i1 x hx hxj
        rw [List.mem_cons, not_or] at this
        exact ⟨this.2, this.1⟩
      by_cases hj : b.Color = JokerColor
      · have hf : (b :: rest).filter (fun b => b.Color != JokerColor) =
            rest.filter (fun b => b.Color != JokerColor) :=
          List.filter_cons_of_neg (by simp [hj])
        rw [hf]
        refine ⟨?_, i2⟩
        intro x hx hxj
        rcases List.mem_cons.mp hx with e | hx
        · exact absurd (e ▸ hj) hxj
        · exact (hrest x hx hxj).1
      · have hb : (b.Color != JokerColor) = true := by simpa using hj
        have hf : (b :: rest).filter (fun b => b.Color != JokerColor) =
            b :: rest.filter (fun b => b.Color != JokerColor) := List.filter_cons_of_pos hb
        rw [hf, List.map_cons, List.nodup_cons]
        have hbv : b.Value ∉ valueMap := by
          intro hm
          apply hc
          simp [hm, hj]
        refine ⟨?_, ?_, i2⟩
        · intro x hx hxj
          rcases List.mem_cons.mp hx with e | hx
          · rw [e]; exact hbv
          · exact (hrest x hx hxj).1
        · intro hmem
          obtain ⟨x, hx, hxv⟩ := List.mem_map.mp hmem
          have hx2 := List.mem_filter.mp hx
          exact (hrest x hx2.1 (by simpa using hx2.2)).2 hxv

theorem highest_fold (l : List Brick) :
    ∀ acc : Brick × Int, acc.2 ≤ acc.1.Value → acc.1.Color ≠ JokerColor →
      (l.foldl (fun (acc : Brick × Int) b =>
        if b.Value > acc.2 && b.Color != JokerColor then (b, b.Value) else acc) acc).1.Color ≠
          JokerColor ∧
      ∀ v, (v ≤ acc.2 ∨ ∃ b ∈ l, b.Color ≠ JokerColor ∧ b.Value = v) →
        v ≤ (l.foldl (fun (acc : Brick × Int) b =>
          if b.Value > acc.2 && b.Color != JokerColor then (b, b.Value) else acc) acc).1.Value := by
  induction l with
  | nil =>
    intro acc h1 h2
    refine ⟨h2, ?_⟩
    rintro v (hv | ⟨b, hb, _⟩)
    · exact le_trans hv h1
    · simp at hb
  | cons b rest ih =>
    intro acc h1 h2
    rw [List.foldl_cons]
    by_cases hc : (b.Value > acc.2 && b.Color != JokerColor) = true
    · rw [if_pos hc]
      simp only [Bool.and_eq_true, decide_eq_true_eq, bne_iff_ne, ne_eq] at hc
      obtain ⟨i1, i2⟩ := ih (b, b.Value) (le_refl _) hc.2
      refine ⟨i1, ?_⟩
      rintro v (hv | ⟨x, hx, hxj, hxv⟩)
      · exact i2 v (Or.inl (by show v ≤ b.Value; omega))
      · rcases List.mem_cons.mp hx with e | hx
        · exact i2 v (Or.inl (by show v ≤ b.Value; rw [← hxv, e]))
        · exact i2 v (Or.inr ⟨x, hx, hxj, hxv⟩)
    · rw [if_neg hc]
      obtain ⟨i1, i2⟩ := ih acc h1 h2
      refine ⟨i1, ?_⟩
      rintro v (hv | ⟨x, hx, hxj, hxv⟩)
      · exact i2 v (Or.inl hv)
      · rcases List.mem_cons.mp hx with e | hx
        · apply i2 v
          left
          simp only [Bool.and_eq_true, decide_eq_true_eq, bne_iff_ne, ne_eq, not_and,
            not_not] at hc
          by_contra hlt
          rw [e] at hxj hxv
          exact hxj (hc (by omega))
        · exact i2 v (Or.inr ⟨x, hx, hxj, hxv⟩)

theorem lowest_fold (l : List Brick) :
    ∀ acc : Brick × Int, acc.1.Value ≤ acc.2 →
      ∀ v, (acc.2 ≤ v ∨ ∃ b ∈ l, b.Color ≠ JokerColor ∧ b.Value = v) →
        (l.foldl (fun (acc : Brick × Int) b =>
          if b.Value < acc.2 && b.Color != JokerColor then (b, b.Value) else acc) acc).1.Value ≤
            v := by
  induction l with
  | nil =>
    intro acc h1
    rintro v (hv | ⟨b, hb, _⟩)
    · exact le_trans h1 hv
    · simp at hb
  | cons b rest ih =>
    intro acc h1
    rw [List.foldl_cons]
    by_cases hc : (b.Value < acc.2 && b.Color != JokerColor) = true
    · rw [if_pos hc]
      simp only [Bool.and_eq_true, decide_eq_true_eq, bne_iff_ne, ne_eq] at hc
      have i2 := ih (b, b.Value) (le_refl _)
      rintro v (hv | ⟨x, hx, hxj, hxv⟩)
      · exact i2 v (Or.inl (by show b.Value ≤ v; omega))
      · rcases List.mem_cons.mp hx with e | hx
        · exact i2 v (Or.inl (by show b.Value ≤ v; rw [← hxv, e]))
        · exact i2 v (Or.inr ⟨x, hx, hxj, hxv⟩)
    · rw [if_neg hc]
      have i2 := ih acc h1
      rintro v (hv | ⟨x, hx, hxj, hxv⟩)
      · exact i2 v (Or.inl hv)
      · rcases List.mem_cons.mp hx with e | hx
        · apply i2 v
          left
          simp only [Bool.and_eq_true, decide_eq_true_eq, bne_iff_ne, ne_eq, not_and,
            not_not] at hc
          by_contra hlt
          rw [e] at hxj hxv
          exact hxj (hc (by omega))
        · exact i2 v (Or.inr ⟨x, hx, hxj, hxv⟩)

/-- A successful walk of `IsValidRun` has met no more missing values than there
were jokers to spend. -/
theorem runWalk_missing (c : BrickCombination) (color : String) :
    ∀ (n : Nat) (v jokerCount : Int), runWalk c color n v jokerCount = true → 0 ≤ jokerCount →
      ∀ S : Finset Int, (∀ u ∈ S, v - n < u ∧ u ≤ v ∧ c.Contains u color = false) →
        (S.card : Int) ≤ jokerCount := by
  intro n
  induction n with
  | zero =>
    intro v j _ hj S hS
    have : S = ∅ := by
      apply Finset.eq_empty_of_forall_not_mem
      intro u hu
      have := hS u hu
      simp only [Nat.cast_zero, sub_zero] at this
      omega
    rw [this]
    simpa using hj
  | succ n ih =>
    intro v j h hj S hS
    rw [runWalk] at h
    by_cases hc : c.Contains v color = true
    · simp only [hc, Bool.not_true, Bool.false_eq_true, if_false] at h
      apply ih (v - 1) j h hj S
      intro u hu
      obtain ⟨a1, a2, a3⟩ := hS u hu
      have hne : u ≠ v := by
        intro e
        rw [e, hc] at a3
        exact absurd a3 (by simp)
      push_cast at a1
      exact ⟨by omega, by omega, a3⟩
    · simp only [hc, Bool.not_false, if_true] at h
      by_cases hpos : j > 0
      · rw [if_pos hpos] at h
        have := ih (v - 1) (j - 1) h (by omega) (S.erase v) (by
          intro u hu
          obtain ⟨hne, hmem⟩ := Finset.mem_erase.mp hu
          obtain ⟨a1, a2, a3⟩ := hS u hmem
          push_cast at a1
          exact ⟨by omega, by omega, a3⟩)
        have hcard : S.card - 1 ≤ (S.erase v).card := Finset.pred_card_le_card_erase
        omega
      · rw [if_neg hpos] at h
        exact absurd h (by simp)

/-- C13: when `IsValidRun` returns true, the combination has at least 3 bricks,
a brick that is not a joker, one colour and pairwise distinct values among the
bricks that are not jokers, and between the lowest value `L` and the highest
value `H` of those bricks no more values are missing than the combination has
jokers. -/
theorem IsValidRun_sound (c : BrickCombination) (h : c.IsValidRun.1 = true) :
    3 ≤ c.Bricks.length ∧ (∃ b ∈ c.Bricks, b.Color ≠ JokerColor) ∧
    (∀ a ∈ c.Bricks, ∀ b ∈ c.Bricks, a.Color ≠ JokerColor → b.Color ≠ JokerColor →
      a.Color = b.Color) ∧
    ((c.Bricks.filter fun b => b.Color != JokerColor).map Brick.Value).Nodup ∧
    ∀ L H : Int,
      (∃ b ∈ c.Bricks, b.Color ≠ JokerColor ∧ b.Value = L) →
      (∀ b ∈ c.Bricks, b.Color ≠ JokerColor → L ≤ b.Value) →
      (∃ b ∈ c.Bricks, b.Color ≠ JokerColor ∧ b.Value = H) →
      (∀ b ∈ c.Bricks, b.Color ≠ JokerColor → b.Value ≤ H) →
      (((Finset.Icc L H).filter fun v =>
          ¬ ∃ b ∈ c.Bricks, b.Color ≠ JokerColor ∧ b.Value = v).card : Int) ≤
        (c.Bricks.filter fun b => b.Color == JokerColor).length := by
  unfold BrickCombination.IsValidRun at h
  dsimp only at h
  by_cases h1 : c.Bricks.length < 3
  · rw [if_pos h1] at h
    exact absurd h (by simp)
  rw [if_neg h1] at h
  by_cases h2 : (!containsNonJoker c.Bricks) = true
  · rw [if_pos h2] at h
    exact absurd h (by simp)
  rw [if_neg h2] at h
  by_cases h3 : ((c.Bricks.filter fun b => b.Color != JokerColor).map Brick.Color).dedup.length > 1
  · rw [if_pos h3] at h
    exact absurd h (by simp)
  rw [if_neg h3] at h
  by_cases h4 : runValueRepeated c.Bricks [] = true
  · rw [if_pos h4] at h
    exact absurd h (by simp)
  rw [if_neg h4] at h
  by_cases h5 : runWalk c (highestBrick c.Bricks).Color
      ((highestBrick c.Bricks).Value - (lowestBrick c.Bricks).Value + 1).toNat
      (highestBrick c.Bricks).Value
      ((c.Bricks.filter fun b => b.Color == JokerColor).length : Int) = true
  swap
  · rw [if_neg h5] at h
    exact absurd h (by simp)
  have hnj : ∃ b ∈ c.Bricks, b.Color ≠ JokerColor := by
    simp only [Bool.not_eq_true', Bool.not_eq_false] at h2
    unfold containsNonJoker at h2
    obtain ⟨b, hb, hbj⟩ := List.any_eq_true.mp h2
    exact ⟨b, hb, by simpa using hbj⟩
  have hcol : ∀ a ∈ c.Bricks, ∀ b ∈ c.Bricks, a.Color ≠ JokerColor → b.Color ≠ JokerColor →
      a.Color = b.Color := by
    have := (dedup_length_le_one _).mp (not_lt.mp h3)
    intro a ha b hb haj hbj
    exact this a.Color (List.mem_map.mpr ⟨a, List.mem_filter.mpr ⟨ha, by simpa using haj⟩, rfl⟩)
      b.Color (List.mem_map.mpr ⟨b, List.mem_filter.mpr ⟨hb, by simpa using hbj⟩, rfl⟩)
  have hval := (runValueRepeated_eq_false c.Bricks [] (by simpa using h4)).2
  refine ⟨by omega, hnj, hcol, hval, ?_⟩
  intro L H hL hLmin hH hHmax
  obtain ⟨hhc, hhv⟩ := highest_fold c.Bricks (Brick.zero, 0) (le_refl _) (by decide)
  have hlv := lowest_fold c.Bricks (Brick.zero, 100000) (by decide)
  have hHw : H ≤ (highestBrick c.Bricks).Value := hhv H (Or.inr hH)
  have hLw : (lowestBrick c.Bricks).Value ≤ L := hlv L (Or.inr hL)
  have hLH : L ≤ H := by
    obtain ⟨b, hb, hbj, hbv⟩ := hL
    rw [← hbv]
    exact hHmax b hb hbj
  apply runWalk_missing c _ _ _ _ h5 (by simp)
  intro u hu
  rw [Finset.mem_filter, Finset.mem_Icc] at hu
  obtain ⟨⟨hu1, hu2⟩, hu3⟩ := hu
  refine ⟨?_, by omega, ?_⟩
  · rw [Int.toNat_of_nonneg (by omega)]
    omega
  · rw [← Bool.not_eq_true]
    intro hcont
    apply hu3
    unfold BrickCombination.Contains at hcont
    obtain ⟨a, ha, hac⟩ := List.any_eq_true.mp hcont
    simp only [Bool.and_eq_true, beq_iff_eq] at hac
    refine ⟨a, ha, ?_, hac.2⟩
    rw [hac.1]
    exact hhc

/-- The scenario of C13: blue 1, blue 3 and a joker form a valid run; one
value, 2, is missing between 1 and 3, and there is one joker. -/
theorem IsValidRun_sound_witness :
    runWithGap.IsValidRun.1 = true ∧
    (((Finset.Icc (1 : Int) 3).filter fun v =>
        ¬ ∃ b ∈ runWithGap.Bricks, b.Color ≠ JokerColor ∧ b.Value = v).card : Int) ≤
      (runWithGap.Bricks.filter fun b => b.Color == JokerColor).length :=
  ⟨by decide,
    (IsValidRun_sound runWithGap (by decide)).2.2.2.2 1 3 ⟨⟨1, "blue"⟩, by decide, by decide, rfl⟩
      (by decide) ⟨⟨3, "blue"⟩, by decide, by decide, rfl⟩ (by decide)⟩

/-! ### `Rules.IsLegalCombination` -/

/-- The joker loop of `IsLegalCombination` returns early exactly when the
bricks, if there are any, bring the count above the limit. -/
theorem tooManyJokers_eq_true (limit : Int) (l : List Brick) :
    ∀ jokercount : Int, tooManyJokers limit l jokercount = true ↔
      l ≠ [] ∧ jokercount + (l.filter fun b => b.Color == JokerColor).length > limit := by
  induction l with
  | nil => intro k; simp [tooManyJokers]
  | cons b rest ih =>
    intro k
    rw [tooManyJokers]
    by_cases hj : (b.Color == JokerColor) = true
    · have hf : (b :: rest).filter (fun b => b.Color == JokerColor) =
          b :: rest.filter (fun b => b.Color == JokerColor) := List.filter_cons_of_pos hj
      rw [if_pos hj, hf, List.length_cons]
      by_cases hk : k + 1 > limit
      · rw [if_pos hk]
        simp only [ne_eq, reduceCtorEq, not_false_eq_true, true_and, true_iff]
        push_cast
        omega
      · rw [if_neg hk, ih]
        simp only [ne_eq, reduceCtorEq, not_false_eq_true, true_and]
        push_cast
        constructor
        · rintro ⟨_, h⟩; omega
        · intro h
          refine ⟨?_, by omega⟩
          intro e
          rw [e] at h
          simp at h
          omega
    · have hf : (b :: rest).filter (fun b => b.Color == JokerColor) =
          rest.filter (fun b => b.Color == JokerColor) := List.filter_cons_of_neg hj
      rw [if_neg hj, hf]
      by_cases hk : k > limit
      · rw [if_pos hk]
        simp only [ne_eq, reduceCtorEq, not_false_eq_true, true_and, true_iff]
        omega
      · rw [if_neg hk, ih]
        simp only [ne_eq, reduceCtorEq, not_false_eq_true, true_and]
        constructor
        · rintro ⟨_, h⟩; omega
        · intro h
          refine ⟨?_, h⟩
          intro e
          rw [e] at h
          simp at h
          omega

/-- With at least one colour in the rules, the colour loop of
`IsLegalCombination` passes exactly when every brick has a colour of the rules
or the joker colour. -/
theorem colorCheck_eq_true (g : Rules) (c : BrickCombination) (hcol : g.Colors ≠ []) :
    (c.getBricks.all fun brick =>
        g.Colors.any fun color => brick.Color == color || brick.Color == JokerColor) = true ↔
      ¬ ∃ b ∈ c.Bricks, b.Color ∉ g.Colors ∧ b.Color ≠ JokerColor := by
  rw [List.all_eq_true]
  push_neg
  constructor
  · intro h b hb hnot
    have := h b hb
    rw [List.any_eq_true] at this
    obtain ⟨color, hc, hor⟩ := this
    simp only [Bool.or_eq_true, beq_iff_eq] at hor
    rcases hor with e | e
    · exact absurd (e ▸ hc) hnot
    · exact e
  · intro h b hb
    rw [List.any_eq_true]
    by_cases hm : b.Color ∈ g.Colors
    · exact ⟨b.Color, hm, by simp⟩
    · obtain ⟨color, hc⟩ := List.exists_mem_of_ne_nil _ hcol
      exact ⟨color, hc, by simp [h b hb hm]⟩

/-- C15 (amended): for a rule set with at least one colour and a combination
that is not empty in case `JokersPerCombination` is negative,
`IsLegalCombination` reports the first failing check in the order unknown
colour, value out of bounds, too many jokers, neither run nor group, and it
returns `(true, LEGAL_COMBINATION)` exactly when none of the four fails. -/
theorem IsLegalCombination_order (g : Rules) (c : BrickCombination)
    (hcol : g.Colors ≠ []) (hjok : 0 ≤ g.JokersPerCombination ∨ c.Bricks ≠ []) :
    ((∃ b ∈ c.Bricks, b.Color ∉ g.Colors ∧ b.Color ≠ JokerColor) →
      g.IsLegalCombination c = (false, UNKNOWN_COLOR)) ∧
    ((¬ ∃ b ∈ c.Bricks, b.Color ∉ g.Colors ∧ b.Color ≠ JokerColor) →
      (∃ b ∈ c.Bricks, b.Value > g.Values ∨ b.Value < 1) →
      g.IsLegalCombination c = (false, VALUE_OUT_OF_BOUNDS)) ∧
    ((¬ ∃ b ∈ c.Bricks, b.Color ∉ g.Colors ∧ b.Color ≠ JokerColor) →
      (¬ ∃ b ∈ c.Bricks, b.Value > g.Values ∨ b.Value < 1) →
      ((c.Bricks.filter fun b => b.Color == JokerColor).length : Int) > g.JokersPerCombination →
      g.IsLegalCombination c = (false, TOO_MANY_JOKERS_IN_COMBINATION)) ∧
    ((¬ ∃ b ∈ c.Bricks, b.Color ∉ g.Colors ∧ b.Color ≠ JokerColor) →
      (¬ ∃ b ∈ c.Bricks, b.Value > g.Values ∨ b.Value < 1) →
      ¬ ((c.Bricks.filter fun b => b.Color == JokerColor).length : Int) >
        g.JokersPerCombination →
      (c.IsValidRun.1 = false ∧ c.IsValidGroup.1 = false) →
      g.IsLegalCombination c = (false, ILLEGAL_COMBINATION)) ∧
    (g.IsLegalCombination c = (true, LEGAL_COMBINATION) ↔
      (¬ ∃ b ∈ c.Bricks, b.Color ∉ g.Colors ∧ b.Color ≠ JokerColor) ∧
      (¬ ∃ b ∈ c.Bricks, b.Value > g.Values ∨ b.Value < 1) ∧
      ¬ ((c.Bricks.filter fun b => b.Color == JokerColor).length : Int) >
        g.JokersPerCombination ∧
      ¬ (c.IsValidRun.1 = false ∧ c.IsValidGroup.1 = false)) := by
  have e1 := colorCheck_eq_true g c hcol
  have e2 : (c.getBricks.any fun brick => brick.Value > g.Values || brick.Value < 1) = true ↔
      ∃ b ∈ c.Bricks, b.Value > g.Values ∨ b.Value < 1 := by
    rw [List.any_eq_true]
    constructor
    · rintro ⟨b, hb, h⟩; exact ⟨b, hb, by simpa using h⟩
    · rintro ⟨b, hb, h⟩; exact ⟨b, hb, by simpa using h⟩
  have e3 : tooManyJokers g.JokersPerCombination c.getBricks 0 = true ↔
      ((c.Bricks.filter fun b => b.Color == JokerColor).length : Int) > g.JokersPerCombination := by
    rw [tooManyJokers_eq_true, zero_add]
    constructor
    · rintro ⟨_, h⟩; exact h
    · intro h
      refine ⟨?_, h⟩
      intro e
      have hnil : c.Bricks = [] := e
      rcases hjok with hj | hj
      · rw [hnil] at h
        simp at h
        omega
      · exact hj hnil
  have e4 : (!(c.IsValidRun.1 || c.IsValidGroup.1)) = true ↔
      (c.IsValidRun.1 = false ∧ c.IsValidGroup.1 = false) := by
    cases c.IsValidRun.1 <;> cases c.IsValidGroup.1 <;> simp
  unfold Rules.IsLegalCombination
  dsimp only
  by_cases k1 : ∃ b ∈ c.Bricks, b.Color ∉ g.Colors ∧ b.Color ≠ JokerColor
  · have c1 : (!(c.getBricks.all fun brick =>
        g.Colors.any fun color => brick.Color == color || brick.Color == JokerColor)) = true := by
      rw [Bool.not_eq_true', ← Bool.not_eq_true, e1]
      exact not_not.mpr k1
    rw [if_pos c1]
    exact ⟨fun _ => rfl, fun h => absurd k1 h, fun h => absurd k1 h, fun h => absurd k1 h,
      fun h => absurd h (by simp), fun h => absurd k1 h.1⟩
  have c1 : ¬ (!(c.getBricks.all fun brick =>
      g.Colors.any fun color => brick.Color == color || brick.Color == JokerColor)) = true := by
    rw [Bool.not_eq_true', Bool.not_eq_false, e1]
    exact k1
  rw [if_neg c1]
  refine ⟨fun h => absurd h k1, ?_⟩
  by_cases k2 : ∃ b ∈ c.Bricks, b.Value > g.Values ∨ b.Value < 1
  · rw [if_pos (e2.mpr k2)]
    exact ⟨fun _ _ => rfl, fun _ h => absurd k2 h, fun _ h => absurd k2 h,
      fun h => absurd h (by simp), fun h => absurd k2 h.2.1⟩
  rw [if_neg (fun h => k2 (e2.mp h))]
  refine ⟨fun _ h => absurd h k2, ?_⟩
  by_cases k3 : ((c.Bricks.filter fun b => b.Color == JokerColor).length : Int) >
      g.JokersPerCombination
  · rw [if_pos (e3.mpr k3)]
    exact ⟨fun _ _ _ => rfl, fun _ _ h => absurd k3 h,
      fun h => absurd h (by simp), fun h => absurd k3 h.2.2.1⟩
  rw [if_neg (fun h => k3 (e3.mp h))]
  refine ⟨fun _ _ h => absurd h k3, ?_⟩
  by_cases k4 : c.IsValidRun.1 = false ∧ c.IsValidGroup.1 = false
  · rw [if_pos (e4.mpr k4)]
    exact ⟨fun _ _ _ _ => rfl, fun h => absurd h (by simp), fun h => absurd k4 h.2.2.2⟩
  rw [if_neg (fun h => k4 (e4.mp h))]
  exact ⟨fun _ _ _ h => absurd h k4, fun _ => ⟨k1, k2, k3, k4⟩, fun _ => rfl⟩

/-- The scenario of C15 (`TestIsLegalCombination`): four jokers under the
default rules have known colours and values in range, so they are turned down
for the number of jokers, not as `ILLEGAL_COMBINATION`. -/
theorem IsLegalCombination_order_witness :
    NewDefaultRules.Colors ≠ [] ∧
    (0 ≤ NewDefaultRules.JokersPerCombination ∨ fourJokers.Bricks ≠ []) ∧
    (fourJokers.IsValidRun.1 = false ∧ fourJokers.IsValidGroup.1 = false) ∧
    NewDefaultRules.IsLegalCombination fourJokers = (false, TOO_MANY_JOKERS_IN_COMBINATION) :=
  ⟨by decide, Or.inl (by decide), by decide,
    (IsLegalCombination_order NewDefaultRules fourJokers (by decide)
      (Or.inl (by decide))).2.2.1 (by decide) (by decide) (by decide)⟩

/-- C15 as stated fails for a rule set without colours: the four jokers have no
brick whose colour is neither in `Colors` nor the joker colour and no value out
of range, they are more than `JokersPerCombination`, yet the reason is
`UNKNOWN_COLOR`, because the colour loop finds no colour to compare with. It
fails as well for the empty combination under a negative
`JokersPerCombination`: no colour is unknown and no value out of range, its 0
jokers are more than -1, yet the reason is `ILLEGAL_COMBINATION`, because the
number of jokers is compared inside the loop over the bricks. -/
theorem IsLegalCombination_without_colors :
    ((¬ ∃ b ∈ fourJokers.Bricks, b.Color ∉ colorlessRules.Colors ∧ b.Color ≠ JokerColor) ∧
      (¬ ∃ b ∈ fourJokers.Bricks, b.Value > colorlessRules.Values ∨ b.Value < 1) ∧
      ((fourJokers.Bricks.filter fun b => b.Color == JokerColor).length : Int) >
        colorlessRules.JokersPerCombination ∧
      colorlessRules.IsLegalCombination fourJokers = (false, UNKNOWN_COLOR) ∧
      colorlessRules.IsLegalCombination fourJokers ≠ (false, TOO_MANY_JOKERS_IN_COMBINATION)) ∧
    (negativeJokerRules.Colors ≠ [] ∧ negativeJokerRules.JokersPerCombination = -1 ∧
      (¬ ∃ b ∈ (BrickCombination.mk []).Bricks,
        b.Color ∉ negativeJokerRules.Colors ∧ b.Color ≠ JokerColor) ∧
      (¬ ∃ b ∈ (BrickCombination.mk []).Bricks,
        b.Value > negativeJokerRules.Values ∨ b.Value < 1) ∧
      (((BrickCombination.mk []).Bricks.filter fun b => b.Color == JokerColor).length : Int) >
        negativeJokerRules.JokersPerCombination ∧
      negativeJokerRules.IsLegalCombination ⟨[]⟩ = (false, ILLEGAL_COMBINATION) ∧
      negativeJokerRules.IsLegalCombination ⟨[]⟩ ≠ (false, TOO_MANY_JOKERS_IN_COMBINATION)) := by
  refine ⟨⟨by decide, by decide, by decide, by decide, by decide⟩,
    ⟨by decide, by decide, by decide, by decide, by decide, by decide, by decide⟩⟩

/-- C16 at a failing input: under the default rules the run blue 1, blue 2 with
a joker of value 0 has only known colours and no out-of-range value on a brick
that is not a joker, yet it is rejected with `VALUE_OUT_OF_BOUNDS`: the value
loop of `IsLegalCombination` tests the joker too. -/
theorem IsLegalCombination_joker_value :
    (∀ b ∈ runWithZeroJoker.Bricks, b.Color ∈ NewDefaultRules.Colors ∨ b.Color = JokerColor) ∧
    (¬ ∃ b ∈ runWithZeroJoker.Bricks, b.Color ≠ JokerColor ∧
      (b.Value > NewDefaultRules.Values ∨ b.Value < 1)) ∧
    NewDefaultRules.IsLegalCombination runWithZeroJoker = (false, VALUE_OUT_OF_BOUNDS) ∧
    NewDefaultRules.IsLegalCombination runJokerLast = (true, LEGAL_COMBINATION) := by
  refine ⟨by decide, by decide, by decide, by decide⟩

set_option maxRecDepth 100000 in
/-- C17 at a failing input: under the default rules the thirteen red bricks
with a joker are accepted by `IsLegalCombination` and judged a valid run by
`IsValidRun`, although they are 14 bricks and no 14 pairwise distinct values
lie in 1..13. -/
theorem IsLegalCombination_long_run :
    NewDefaultRules.IsLegalCombination longRun = (true, LEGAL_COMBINATION) ∧
    longRun.IsValidRun = (true, VALID_RUN) ∧
    (longRun.Bricks.length : Int) > NewDefaultRules.Values ∧
    ¬ ∃ values : List Int, values.length = longRun.Bricks.length ∧ values.Nodup ∧
      ∀ v ∈ values, 1 ≤ v ∧ v ≤ NewDefaultRules.Values := by
  refine ⟨by decide, by decide, by decide, ?_⟩
  rintro ⟨values, hlen, hnd, hrange⟩
  have hsub : values.toFinset ⊆ Finset.Icc (1 : Int) 13 := by
    intro v hv
    rw [List.mem_toFinset] at hv
    rw [Finset.mem_Icc]
    exact hrange v hv
  have hcard := Finset.card_le_card hsub
  rw [List.toFinset_card_of_nodup hnd, hlen, Int.card_Icc] at hcard
  revert hcard
  decide

/-- C18 at a failing input: under the default rules, whose four colours are
pairwise distinct, the five bricks yellow 1, blue 1, green 1, red 1 and a
joker are no valid run, `IsValidGroup` accepts them, and `IsLegalCombination`
accepts them. -/
theorem IsLegalCombination_group_of_five :
    NewDefaultRules.Colors.Nodup ∧
    groupOfFive.Bricks.length > NewDefaultRules.Colors.length ∧
    groupOfFive.IsValidRun.1 = false ∧
    groupOfFive.IsValidGroup = (true, VALID_GROUP) ∧
    NewDefaultRules.IsLegalCombination groupOfFive = (true, LEGAL_COMBINATION) := by
  refine ⟨by decide, by decide, by decide, by decide, by decide⟩

/-! ### The problem that `ILPSolver.Solve` builds -/

/-- `countBrickOccurrence` counts the occurrences of the brick. -/
theorem countBrickOccurrence_eq (set : List Brick) (b : Brick) :
    countBrickOccurrence set b = (set.count b : Int) := by
  unfold countBrickOccurrence
  rw [List.count_eq_countP, List.countP_eq_length_filter]
  congr 2
  apply List.filter_congr
  intro a _
  cases a with
  | mk av ac =>
    cases b with
    | mk bv bc =>
      rw [Bool.eq_iff_iff]
      simp only [Bool.and_eq_true, beq_iff_eq, Brick.mk.injEq]
      exact and_comm

theorem comboVar_fold_no_match (h : Nat) (l : List BrickCombination) :
    ∀ (k found : Nat), (∀ c ∈ l, c.Hash ≠ h) →
      (l.enumFrom k).foldl (fun found ic => if ic.2.Hash = h then ic.1 else found) found =
        found := by
  induction l with
  | nil => intro k found _; rfl
  | cons c rest ih =>
    intro k found hno
    rw [List.enumFrom_cons, List.foldl_cons, if_neg (hno c (List.mem_cons_self _ _))]
    exact ih _ _ fun x hx => hno x (List.mem_cons_of_mem _ hx)

theorem comboVar_fold_match (l : List BrickCombination) :
    ∀ (k found j : Nat) (hj : j < l.length), (l.map BrickCombination.Hash).Nodup →
      (l.enumFrom k).foldl (fun found ic => if ic.2.Hash = l[j].Hash then ic.1 else found)
        found = k + j := by
  induction l with
  | nil => intro k found j hj; simp at hj
  | cons c rest ih =>
    intro k found j hj hnd
    rw [List.map_cons, List.nodup_cons] at hnd
    rw [List.enumFrom_cons, List.foldl_cons]
    cases j with
    | zero =>
      simp only [List.getElem_cons_zero, if_true, Nat.add_zero]
      apply comboVar_fold_no_match
      intro x hx e
      exact hnd.1 (List.mem_map.mpr ⟨x, hx, e⟩)
    | succ j =>
      simp only [List.getElem_cons_succ]
      rw [ih (k + 1) _ j (by simpa using hj) hnd.2]
      omega

/-- When the hashes of the combinations are pairwise distinct, the variable
looked up under the hash of a combination is the variable of that
combination. -/
theorem comboVarIndex_getElem (l : List BrickCombination) (j : Nat) (hj : j < l.length)
    (hnd : (l.map BrickCombination.Hash).Nodup) : comboVarIndex l l[j].Hash = j := by
  unfold comboVarIndex
  rw [List.enum_eq_enumFrom, comboVar_fold_match l 0 0 j hj hnd, Nat.zero_add]

theorem constraint_terms_sum (l : List BrickCombination) (b : Brick) (soln : Nat → Int)
    (hnd : (l.map BrickCombination.Hash).Nodup) :
    ((l.map fun combi =>
        (countBrickOccurrence combi.getBricks b, comboVarIndex l combi.Hash)).map
          fun t => t.1 * soln t.2).sum =
      (l.enum.map fun ic => (ic.2.Bricks.count b : Int) * soln ic.1).sum := by
  congr 1
  apply List.ext_getElem
  · simp
  · intro j h1 h2
    simp only [List.getElem_map, List.getElem_enum, countBrickOccurrence_eq,
      BrickCombination.getBricks]
    rw [comboVarIndex_getElem l j (by simpa using h1) hnd]

theorem count_flatMap_replicate_getBricks (b : Brick) (c : BrickCombination) (n : Nat) :
    ((List.replicate n c).flatMap BrickCombination.getBricks).count b =
      n * c.Bricks.count b := by
  induction n with
  | zero => simp
  | succ n ih =>
    rw [List.replicate_succ, List.flatMap_cons, List.count_append, ih]
    simp only [BrickCombination.getBricks]
    rw [Nat.succ_mul]
    omega

/-- A brick occurs in the returned combinations as often as the solution
chooses combinations with it. -/
theorem count_combinationsToPut (b : Brick) (soln : Nat → Int) (l : List BrickCombination) :
    ∀ k : Nat,
      (DissolveCombinations
        ((l.enumFrom k).flatMap fun ic => List.replicate (soln ic.1).toNat ic.2)).count b =
      ((l.enumFrom k).map fun ic => (soln ic.1).toNat * ic.2.Bricks.count b).sum := by
  unfold DissolveCombinations
  simp only [foldl_append_getBricks, List.nil_append]
  induction l with
  | nil => intro k; simp
  | cons c rest ih =>
    intro k
    rw [List.enumFrom_cons, List.flatMap_cons, List.flatMap_append, List.count_append,
      List.map_cons, List.sum_cons, ih (k + 1), count_flatMap_replicate_getBricks]

/-- A feasible solution keeps every combination variable between 0 and 2. -/
theorem Feasible_combo_bounds (s : ILPSolver) (hand : List Brick) (table : List BrickCombination)
    (maxValue : Bool) (soln : Nat → Int) (hf : (s.SolveProblem hand table maxValue).Feasible soln)
    (j : Nat) (hj : j < s.combinations.length) : 0 ≤ soln j ∧ soln j ≤ 2 := by
  have hmem : (j, (⟨"combi_" ++ Itoa j, 0, 0, 2⟩ : ILPVariable)) ∈
      (s.SolveProblem hand table maxValue).Variables.enum := by
    rw [List.mk_mem_enum_iff_getElem?]
    unfold ILPSolver.SolveProblem
    dsimp only
    rw [List.getElem?_append_left (by simpa using hj), List.getElem?_map, List.getElem?_enum,
      List.getElem?_eq_getElem hj]
    rfl
  exact hf.1 _ hmem

/-- A feasible solution keeps the variable of every unique brick between 0 and
the number of its copies in the hand, and satisfies its constraint. -/
theorem Feasible_brick (s : ILPSolver) (hand : List Brick) (table : List BrickCombination)
    (maxValue : Bool) (soln : Nat → Int) (hf : (s.SolveProblem hand table maxValue).Feasible soln)
    (hnd : (s.combinations.map BrickCombination.Hash).Nodup)
    (i : Nat) (hi : i < s.uniqueBricks.length) :
    0 ≤ soln (s.combinations.length + i) ∧
      soln (s.combinations.length + i) ≤ (hand.count s.uniqueBricks[i] : Int) ∧
      (s.combinations.enum.map fun ic =>
          (ic.2.Bricks.count s.uniqueBricks[i] : Int) * soln ic.1).sum =
        ((DissolveCombinations table).count s.uniqueBricks[i] : Int) +
          soln (s.combinations.length + i) := by
  have hmem : (s.combinations.length + i,
      (⟨s.uniqueBricks[i].Color ++ "_" ++ Itoa s.uniqueBricks[i].Value,
        if maxValue then s.uniqueBricks[i].Value else 1, 0,
        countBrickOccurrence hand s.uniqueBricks[i]⟩ : ILPVariable)) ∈
      (s.SolveProblem hand table maxValue).Variables.enum := by
    rw [List.mk_mem_enum_iff_getElem?]
    unfold ILPSolver.SolveProblem
    dsimp only
    rw [List.getElem?_append_right (by simp), List.getElem?_map]
    simp only [List.length_map, List.enum_length, Nat.add_sub_cancel_left,
      List.getElem?_eq_getElem hi, Option.map_some']
  have hb := hf.1 _ hmem
  rw [countBrickOccurrence_eq] at hb
  have hcon : (⟨(-1, s.combinations.length + i) ::
        s.combinations.map fun combi =>
          (countBrickOccurrence combi.getBricks s.uniqueBricks[i],
            comboVarIndex s.combinations combi.Hash),
      countBrickOccurrence (DissolveCombinations table) s.uniqueBricks[i]⟩ : ILPConstraint) ∈
      (s.SolveProblem hand table maxValue).Constraints := by
    unfold ILPSolver.SolveProblem
    dsimp only
    rw [List.mem_map]
    exact ⟨(i, s.uniqueBricks[i]),
      List.mk_mem_enum_iff_getElem?.mpr (List.getElem?_eq_getElem hi), rfl⟩
  have hc := hf.2 _ hcon
  dsimp only at hc
  rw [List.map_cons, List.sum_cons, constraint_terms_sum _ _ _ hnd,
    countBrickOccurrence_eq] at hc
  refine ⟨hb.1, hb.2, ?_⟩
  dsimp only at hc
  omega

theorem sum_enumFrom_toNat (b : Brick) (soln : Nat → Int) (l : List BrickCombination) :
    ∀ k : Nat, (∀ j, k ≤ j → j < k + l.length → 0 ≤ soln j) →
      (((l.enumFrom k).map fun ic => (soln ic.1).toNat * ic.2.Bricks.count b).sum : Int) =
        ((l.enumFrom k).map fun ic => (ic.2.Bricks.count b : Int) * soln ic.1).sum := by
  induction l with
  | nil => intro k _; simp
  | cons c rest ih =>
    intro k hpos
    have h0 := hpos k (le_refl _) (by simp)
    rw [List.enumFrom_cons, List.map_cons, List.map_cons, List.sum_cons, List.sum_cons,
      Nat.cast_add, Nat.cast_mul,
      ih (k + 1) (fun j h1 h2 => hpos j (by omega) (by simp only [List.length_cons]; omega)),
      Int.toNat_of_nonneg h0]
    ring

theorem sum_enumFrom_zero (b : Brick) (soln : Nat → Int) (l : List BrickCombination)
    (hb : ∀ c ∈ l, b ∉ c.Bricks) :
    ∀ k : Nat, ((l.enumFrom k).map fun ic => (soln ic.1).toNat * ic.2.Bricks.count b).sum = 0 := by
  induction l with
  | nil => intro k; simp
  | cons c rest ih =>
    intro k
    rw [List.enumFrom_cons, List.map_cons, List.sum_cons,
      ih (fun x hx => hb x (List.mem_cons_of_mem _ hx)) (k + 1),
      List.count_eq_zero.mpr (hb c (List.mem_cons_self _ _)), Nat.mul_zero]

/-- Solver safety for a search space with pairwise distinct hashes whose
combinations are made of the unique bricks, and a table made of the unique
bricks: the returned combinations hold the bricks of the table, and what they
add comes from the hand. -/
theorem combinationsToPut_safe (s : ILPSolver) (hand : List Brick)
    (table : List BrickCombination) (maxValue : Bool) (soln : Nat → Int)
    (hnd : (s.combinations.map BrickCombination.Hash).Nodup)
    (hspace : ∀ c ∈ s.combinations, ∀ b ∈ c.Bricks, b ∈ s.uniqueBricks)
    (htable : ∀ b ∈ DissolveCombinations table, b ∈ s.uniqueBricks)
    (hf : (s.SolveProblem hand table maxValue).Feasible soln) :
    (↑(DissolveCombinations table) : Multiset Brick) ≤
        ↑(DissolveCombinations (s.combinationsToPut soln)) ∧
      (↑(DissolveCombinations (s.combinationsToPut soln)) : Multiset Brick) -
        ↑(DissolveCombinations table) ≤ ↑hand := by
  have hcount : ∀ b : Brick,
      (DissolveCombinations table).count b ≤
          (DissolveCombinations (s.combinationsToPut soln)).count b ∧
        (DissolveCombinations (s.combinationsToPut soln)).count b -
          (DissolveCombinations table).count b ≤ hand.count b := by
    intro b
    unfold ILPSolver.combinationsToPut
    rw [List.enum_eq_enumFrom, count_combinationsToPut]
    by_cases hb : b ∈ s.uniqueBricks
    · obtain ⟨i, hi, hbi⟩ := List.getElem_of_mem hb
      obtain ⟨f1, f2, f3⟩ := Feasible_brick s hand table maxValue soln hf hnd i hi
      have hsum := sum_enumFrom_toNat b soln s.combinations 0
        (fun j _ h2 => (Feasible_combo_bounds s hand table maxValue soln hf j
          (by omega)).1)
      rw [hbi, List.enum_eq_enumFrom] at f3
      rw [hbi] at f2
      omega
    · have h0 : ((s.combinations.enumFrom 0).map
          fun ic => (soln ic.1).toNat * ic.2.Bricks.count b).sum = 0 :=
        sum_enumFrom_zero b soln s.combinations (fun c hc hbc => hb (hspace c hc b hbc)) 0
      have ht : (DissolveCombinations table).count b = 0 :=
        List.count_eq_zero.mpr fun hm => hb (htable b hm)
      rw [h0, ht]
      omega
  constructor
  · rw [Multiset.le_iff_count]
    intro b
    rw [Multiset.coe_count, Multiset.coe_count]
    exact (hcount b).1
  · rw [Multiset.le_iff_count]
    intro b
    rw [Multiset.count_sub, Multiset.coe_count, Multiset.coe_count, Multiset.coe_count]
    exact (hcount b).2
/-! ### The search space that `NewILPSolver` builds -/

/-- What `addCombinations` keeps: the hashes stay the hashes of the
combinations, they stay pairwise distinct, the unique bricks are untouched and
every combination of the result was there before or was given. -/
theorem addCombinations_spec (l : List BrickCombination) :
    ∀ (s s1 : ILPSolver), s.addCombinations l = some s1 →
      s.combinationHashes = s.combinations.map BrickCombination.Hash →
      (s.combinations.map BrickCombination.Hash).Nodup →
      s1.combinationHashes = s1.combinations.map BrickCombination.Hash ∧
        (s1.combinations.map BrickCombination.Hash).Nodup ∧
        s1.uniqueBricks = s.uniqueBricks ∧
        ∀ c ∈ s1.combinations, c ∈ s.combinations ∨ c ∈ l := by
  induction l with
  | nil =>
    intro s s1 h hh hnd
    rw [ILPSolver.addCombinations] at h
    cases h
    exact ⟨hh, hnd, rfl, fun c hc => Or.inl hc⟩
  | cons combo rest ih =>
    intro s s1 h hh hnd
    rw [ILPSolver.addCombinations] at h
    dsimp only at h
    by_cases hk : s.combinationHashes.contains combo.Hash = true
    · rw [if_pos hk] at h
      obtain ⟨h1, h2, h3, h4⟩ := ih s s1 h hh hnd
      exact ⟨h1, h2, h3, fun c hc => (h4 c hc).imp id (List.mem_cons_of_mem _)⟩
    · rw [if_neg hk] at h
      have hnew : combo.Hash ∉ s.combinations.map BrickCombination.Hash := by
        rw [← hh]
        simpa using hk
      have hnd1 : ((s.combinations ++ [combo]).map BrickCombination.Hash).Nodup := by
        rw [List.map_append, List.map_cons, List.map_nil, List.nodup_append]
        refine ⟨hnd, List.nodup_singleton _, ?_⟩
        intro x hx hx1
        rw [List.mem_singleton] at hx1
        exact hnew (hx1 ▸ hx)
      have hh1 : s.combinationHashes ++ [combo.Hash] =
          (s.combinations ++ [combo]).map BrickCombination.Hash := by
        rw [hh, List.map_append, List.map_cons, List.map_nil]
      have hstep : ∀ s2 : ILPSolver, s2.combinations = s.combinations ++ [combo] →
          s2.combinationHashes = s.combinationHashes ++ [combo.Hash] →
          s2.uniqueBricks = s.uniqueBricks → s2.addCombinations rest = some s1 →
          s1.combinationHashes = s1.combinations.map BrickCombination.Hash ∧
            (s1.combinations.map BrickCombination.Hash).Nodup ∧
            s1.uniqueBricks = s.uniqueBricks ∧
            ∀ c ∈ s1.combinations, c ∈ s.combinations ∨ c ∈ combo :: rest := by
        intro s2 e1 e2 e3 h2
        obtain ⟨h1, h2, h3, h4⟩ := ih s2 s1 h2 (by rw [e1, e2, hh1]) (by rw [e1]; exact hnd1)
        refine ⟨h1, h2, h3.trans e3, ?_⟩
        intro c hc
        rcases h4 c hc with hc1 | hc1
        · rw [e1] at hc1
          rcases List.mem_append.mp hc1 with hc2 | hc2
          · exact Or.inl hc2
          · rw [List.mem_singleton] at hc2
            rw [hc2]
            exact Or.inr (List.mem_cons_self _ _)
        · exact Or.inr (List.mem_cons_of_mem _ hc1)
      by_cases hr : combo.IsValidRun.1 = true
      · rw [if_pos hr] at h
        refine hstep _ ?_ ?_ ?_ h <;> rfl
      · rw [if_neg hr] at h
        by_cases hg : combo.IsValidGroup.1 = true
        · rw [if_pos hg] at h
          refine hstep _ ?_ ?_ ?_ h <;> rfl
        · rw [if_neg hg] at h
          cases h

theorem mem_combinationsWithoutReplacement (l : List Brick) :
    ∀ (k : Int) (c : List Brick), c ∈ combinationsWithoutReplacement l k → ∀ b ∈ c, b ∈ l := by
  induction l with
  | nil =>
    intro k c hc
    simp [combinationsWithoutReplacement] at hc
  | cons a rest ih =>
    intro k c hc b hb
    rw [combinationsWithoutReplacement, List.mem_append] at hc
    rcases hc with hc | hc
    · by_cases hk : k = 1
      · rw [if_pos hk, List.mem_singleton] at hc
        rw [hc, List.mem_singleton] at hb
        rw [hb]
        exact List.mem_cons_self _ _
      · rw [if_neg hk, List.mem_map] at hc
        obtain ⟨next, hn, rfl⟩ := hc
        rcases List.mem_cons.mp hb with hb | hb
        · rw [hb]
          exact List.mem_cons_self _ _
        · exact List.mem_cons_of_mem _ (ih _ _ hn b hb)
    · exact List.mem_cons_of_mem _ (ih _ _ hc b hb)

/-- The runs of `ComputeAllRuns` are made of the given bricks. -/
theorem ComputeAllRuns_bricks (brickSet : List Brick) (c : BrickCombination)
    (hc : c ∈ ComputeAllRuns brickSet) : ∀ b ∈ c.Bricks, b ∈ brickSet := by
  unfold ComputeAllRuns at hc
  simp only [List.mem_flatMap, List.mem_map] at hc
  obtain ⟨color, _, runsize, _, i, _, rfl⟩ := hc
  intro b hb
  exact (List.mem_filter.mp (List.mem_of_mem_drop (List.mem_of_mem_take hb))).1

/-- The groups of `ComputeAllGroups` are made of the given bricks. -/
theorem ComputeAllGroups_bricks (brickSet : List Brick) (c : BrickCombination)
    (hc : c ∈ ComputeAllGroups brickSet) : ∀ b ∈ c.Bricks, b ∈ brickSet := by
  unfold ComputeAllGroups at hc
  simp only [List.mem_append, List.mem_flatMap, List.mem_map] at hc
  intro b hb
  rcases hc with ⟨value, _, rfl⟩ | ⟨value, _, l, hl, rfl⟩
  · exact (List.mem_filter.mp hb).1
  · exact (List.mem_filter.mp (mem_combinationsWithoutReplacement _ _ _ hl b hb)).1

/-- A salted combination is made of bricks of the combination and of jokers. -/
theorem saltCombination_bricks (c c1 : BrickCombination) (hc : c1 ∈ saltCombination c) :
    ∀ b ∈ c1.Bricks, b ∈ c.Bricks ∨ b = MakeJoker := by
  unfold saltCombination at hc
  rw [List.mem_map] at hc
  obtain ⟨i, _, rfl⟩ := hc
  intro b hb
  exact List.mem_or_eq_of_mem_set hb

theorem saltWithJokersRec_bricks (brickSet : List Brick) :
    ∀ (depth : Nat) (l : List BrickCombination) (n : Int),
      (∀ c ∈ l, ∀ b ∈ c.Bricks, b ∈ brickSet ∨ b = MakeJoker) →
      ∀ c ∈ saltWithJokersRec depth l n, ∀ b ∈ c.Bricks, b ∈ brickSet ∨ b = MakeJoker := by
  intro depth
  induction depth with
  | zero =>
    intro l n hl c hc
    exact hl c hc
  | succ depth ih =>
    intro l n hl c hc
    rw [saltWithJokersRec] at hc
    have hl1 : ∀ c ∈ l ++ l.flatMap saltCombination,
        ∀ b ∈ c.Bricks, b ∈ brickSet ∨ b = MakeJoker := by
      intro c1 hc1 b hb
      rcases List.mem_append.mp hc1 with h | h
      · exact hl c1 h b hb
      · rw [List.mem_flatMap] at h
        obtain ⟨c0, h0, h1⟩ := h
        rcases saltCombination_bricks c0 c1 h1 b hb with h2 | h2
        · exact hl c0 h0 b h2
        · exact Or.inr h2
    by_cases hn : n - 1 > 0
    · rw [if_pos hn] at hc
      exact ih _ _ hl1 c hc
    · rw [if_neg hn] at hc
      exact hl1 c hc

/-- The search space of `NewILPSolver`: the hashes of its combinations are
pairwise distinct, its unique bricks are the base bricks, with one joker when
jokers are in play, and its combinations are made of base bricks and
jokers. -/
theorem NewILPSolver_spec (rules : Rules) (s : ILPSolver) (hs : NewILPSolver rules = some s) :
    (s.combinations.map BrickCombination.Hash).Nodup ∧
      s.uniqueBricks =
        (if rules.JokersInPlay > 0 then rules.BaseBricks ++ [MakeJoker] else rules.BaseBricks) ∧
      ∀ c ∈ s.combinations, ∀ b ∈ c.Bricks, b ∈ rules.BaseBricks ∨ b = MakeJoker := by
  unfold NewILPSolver at hs
  dsimp only at hs
  obtain ⟨s3, hs3, h4⟩ := Option.bind_eq_some.mp hs
  obtain ⟨s2, hs2, h3⟩ := Option.bind_eq_some.mp hs3
  obtain ⟨s1, h1, h2⟩ := Option.bind_eq_some.mp hs2
  have hruns : ∀ c ∈ ComputeAllRuns rules.BaseBricks,
      ∀ b ∈ c.Bricks, b ∈ rules.BaseBricks ∨ b = MakeJoker :=
    fun c hc b hb => Or.inl (ComputeAllRuns_bricks _ c hc b hb)
  have hgroups : ∀ c ∈ ComputeAllGroups rules.BaseBricks,
      ∀ b ∈ c.Bricks, b ∈ rules.BaseBricks ∨ b = MakeJoker :=
    fun c hc b hb => Or.inl (ComputeAllGroups_bricks _ c hc b hb)
  obtain ⟨a1, b1, c1, d1⟩ := addCombinations_spec _ _ _ h1 rfl List.nodup_nil
  obtain ⟨a2, b2, c2, d2⟩ := addCombinations_spec _ _ _ h2 a1 b1
  obtain ⟨a3, b3, c3, d3⟩ := addCombinations_spec _ _ _ h3 a2 b2
  obtain ⟨a4, b4, c4, d4⟩ := addCombinations_spec _ _ _ h4 a3 b3
  refine ⟨b4, ?_, ?_⟩
  · rw [c4, c3, c2, c1]
  · have e1 : ∀ c ∈ s1.combinations, ∀ b ∈ c.Bricks, b ∈ rules.BaseBricks ∨ b = MakeJoker := by
      intro c hc
      rcases d1 c hc with h | h
      · simp at h
      · exact saltWithJokersRec_bricks _ _ _ _ hgroups c h
    have e2 : ∀ c ∈ s2.combinations, ∀ b ∈ c.Bricks, b ∈ rules.BaseBricks ∨ b = MakeJoker := by
      intro c hc
      rcases d2 c hc with h | h
      · exact e1 c h
      · exact saltWithJokersRec_bricks _ _ _ _ hruns c h
    have e3 : ∀ c ∈ s3.combinations, ∀ b ∈ c.Bricks, b ∈ rules.BaseBricks ∨ b = MakeJoker := by
      intro c hc
      rcases d3 c hc with h | h
      · exact e2 c h
      · exact hgroups c h
    intro c hc
    rcases d4 c hc with h | h
    · exact e3 c h
    · exact hruns c h
/-! ### Solver safety -/

/-- C19 (amended). Solver safety: for every rule set with at least one joker in
play for which `NewILPSolver` returns a search space, every hand, every table
made of base bricks of the rule set and jokers, and every integer assignment
that the external solver returns and that satisfies the bounds and the
equality constraints of the problem `Solve` builds, `Solve` returns every
combination as often as its variable says, the bricks of the returned
combinations contain the bricks of the table as a multiset, and the bricks
they add to the table form a sub-multiset of the hand. -/
theorem Solve_safe (rules : Rules) (s : ILPSolver) (hand : List Brick)
    (table : List BrickCombination) (maxValue : Bool)
    (probSolve : ILPProblem → Option (Nat → Int)) (soln : Nat → Int)
    (hs : NewILPSolver rules = some s) (hj : rules.JokersInPlay > 0)
    (htable : ∀ b ∈ DissolveCombinations table, b ∈ rules.BaseBricks ∨ b = MakeJoker)
    (hsolve : probSolve (s.SolveProblem hand table maxValue) = some soln)
    (hf : (s.SolveProblem hand table maxValue).Feasible soln) :
    s.Solve hand table maxValue probSolve =
        some (s.combinationsToPut soln, s.bricksToPut soln) ∧
      (↑(DissolveCombinations table) : Multiset Brick) ≤
        ↑(DissolveCombinations (s.combinationsToPut soln)) ∧
      (↑(DissolveCombinations (s.combinationsToPut soln)) : Multiset Brick) -
        ↑(DissolveCombinations table) ≤ ↑hand := by
  obtain ⟨hnd, hu, hb⟩ := NewILPSolver_spec rules s hs
  rw [if_pos hj] at hu
  have hmem : ∀ b : Brick, b ∈ rules.BaseBricks ∨ b = MakeJoker → b ∈ s.uniqueBricks := by
    intro b h
    rw [hu, List.mem_append, List.mem_singleton]
    exact h
  refine ⟨?_, combinationsToPut_safe s hand table maxValue soln hnd
    (fun c hc b hbc => hmem b (hb c hc b hbc)) (fun b hbt => hmem b (htable b hbt)) hf⟩
  unfold ILPSolver.Solve
  rw [hsolve]

/-- On `tinyRules`, with red 1, green 1 and the joker in the hand and the group
of the three base bricks on the table, the solution `keepAndAdd` is feasible
and safe. -/
theorem Solve_safe_witness :
    NewILPSolver tinyRules = some tinySolver ∧ tinyRules.JokersInPlay > 0 ∧
      (∀ b ∈ DissolveCombinations tableOfThree, b ∈ tinyRules.BaseBricks ∨ b = MakeJoker) ∧
      (tinySolver.SolveProblem [⟨1, "red"⟩, ⟨1, "green"⟩, MakeJoker] tableOfThree
        false).Feasible keepAndAdd ∧
      (tinySolver.Solve [⟨1, "red"⟩, ⟨1, "green"⟩, MakeJoker] tableOfThree false
          (fun _ => some keepAndAdd) =
        some (tinySolver.combinationsToPut keepAndAdd, tinySolver.bricksToPut keepAndAdd) ∧
      (↑(DissolveCombinations tableOfThree) : Multiset Brick) ≤
        ↑(DissolveCombinations (tinySolver.combinationsToPut keepAndAdd)) ∧
      (↑(DissolveCombinations (tinySolver.combinationsToPut keepAndAdd)) : Multiset Brick) -
        ↑(DissolveCombinations tableOfThree) ≤
          ↑[(⟨1, "red"⟩ : Brick), ⟨1, "green"⟩, MakeJoker]) :=
  ⟨by decide, by decide, by decide, by decide,
    Solve_safe tinyRules tinySolver [⟨1, "red"⟩, ⟨1, "green"⟩, MakeJoker] tableOfThree false
      (fun _ => some keepAndAdd) keepAndAdd (by decide) (by decide) (by decide) rfl
      (by decide)⟩

/-- C19 (as stated) fails. Without jokers in play the search space of
`NewILPSolver` still holds the combinations with a joker, but no joker is
among the unique bricks: with red 1 and green 1 in the hand and an empty
table, the feasible solution `jokerFromNowhere` makes `Solve` return the group
red 1, green 1, joker, whose joker is not in the hand. And on `tinyRules`, for
a table of bricks of value 2, choosing nothing is feasible, and the returned
combinations do not hold the table. -/
theorem Solve_unsafe :
    (NewILPSolver noJokerRules = some noJokerSolver ∧
      (noJokerSolver.SolveProblem [⟨1, "red"⟩, ⟨1, "green"⟩] [] false).Feasible
        jokerFromNowhere ∧
      noJokerSolver.Solve [⟨1, "red"⟩, ⟨1, "green"⟩] [] false
          (fun _ => some jokerFromNowhere) =
        some ([⟨[⟨1, "red"⟩, ⟨1, "green"⟩, MakeJoker]⟩], [⟨1, "red"⟩, ⟨1, "green"⟩]) ∧
      ¬ ((↑(DissolveCombinations (noJokerSolver.combinationsToPut jokerFromNowhere)) :
            Multiset Brick) - ↑(DissolveCombinations []) ≤
          ↑[(⟨1, "red"⟩ : Brick), ⟨1, "green"⟩])) ∧
    (NewILPSolver tinyRules = some tinySolver ∧
      (tinySolver.SolveProblem [] tableOfTwos false).Feasible chooseNothing ∧
      tinySolver.Solve [] tableOfTwos false (fun _ => some chooseNothing) = some ([], []) ∧
      ¬ ((↑(DissolveCombinations tableOfTwos) : Multiset Brick) ≤
          ↑(DissolveCombinations (tinySolver.combinationsToPut chooseNothing)))) := by
  refine ⟨⟨by decide, by decide, by decide, by decide⟩, by decide, by decide, by decide,
    by decide⟩
/-! ### Feasibility of the problem -/

theorem sum_map_indicator (f : BrickCombination → Int) (t : BrickCombination) :
    ∀ l : List BrickCombination, l.Nodup → t ∈ l →
      (l.map fun c => f c * (if t = c then 1 else 0)).sum = f t := by
  intro l
  induction l with
  | nil => intro _ h; simp at h
  | cons a rest ih =>
    intro hnd hmem
    rw [List.nodup_cons] at hnd
    rw [List.map_cons, List.sum_cons]
    by_cases hta : t = a
    · subst hta
      have hz : (rest.map fun c => f c * (if t = c then 1 else 0)).sum = 0 := by
        apply List.sum_eq_zero
        intro x hx
        rw [List.mem_map] at hx
        obtain ⟨c, hc, rfl⟩ := hx
        have hne : ¬ t = c := fun e => hnd.1 (e ▸ hc)
        rw [if_neg hne, mul_zero]
      rw [hz, if_pos rfl, mul_one, add_zero]
    · rcases List.mem_cons.mp hmem with h | h
      · exact absurd h hta
      · rw [if_neg hta, mul_zero, zero_add, ih hnd.2 h]

theorem count_DissolveCombinations_cons (b : Brick) (t : BrickCombination)
    (table : List BrickCombination) :
    (DissolveCombinations (t :: table)).count b =
      t.Bricks.count b + (DissolveCombinations table).count b := by
  unfold DissolveCombinations
  rw [foldl_append_getBricks, foldl_append_getBricks, List.nil_append, List.nil_append,
    List.flatMap_cons, List.count_append]
  rfl

/-- When the combinations of the table belong to a list without duplicates, a
brick occurs on the table as often as the combinations of the list hold it,
each counted as often as it lies on the table. -/
theorem sum_count_table (b : Brick) (l : List BrickCombination) (hnd : l.Nodup) :
    ∀ table : List BrickCombination, (∀ c ∈ table, c ∈ l) →
      (l.map fun c => (c.Bricks.count b : Int) * (table.count c : Int)).sum =
        ((DissolveCombinations table).count b : Int) := by
  intro table
  induction table with
  | nil =>
    intro _
    have hz : (l.map fun c => (c.Bricks.count b : Int) * (([] : List BrickCombination).count c : Int)).sum = 0 := by
      apply List.sum_eq_zero
      intro x hx
      rw [List.mem_map] at hx
      obtain ⟨c, _, rfl⟩ := hx
      simp
    rw [hz]
    rfl
  | cons t table ih =>
    intro hsub
    have hfun : (fun c : BrickCombination =>
          (c.Bricks.count b : Int) * ((t :: table).count c : Int)) =
        fun c => (c.Bricks.count b : Int) * (table.count c : Int) +
          (c.Bricks.count b : Int) * (if t = c then 1 else 0) := by
      funext c
      rw [List.count_cons]
      by_cases htc : t = c
      · simp only [htc, beq_self_eq_true, if_true]
        push_cast
        ring
      · have hbeq : (t == c) = false := by simpa using htc
        simp only [hbeq, if_neg htc]
        push_cast
        ring
    rw [hfun, List.sum_map_add, ih (fun c hc => hsub c (List.mem_cons_of_mem _ hc)),
      sum_map_indicator _ t l hnd (hsub t (List.mem_cons_self _ _)),
      count_DissolveCombinations_cons]
    push_cast
    ring

theorem tableSolution_combo (s : ILPSolver) (table : List BrickCombination) (j : Nat)
    (hj : j < s.combinations.length) :
    s.tableSolution table j = (table.count s.combinations[j] : Int) := by
  unfold ILPSolver.tableSolution
  rw [List.getElem?_eq_getElem hj]

theorem tableSolution_brick (s : ILPSolver) (table : List BrickCombination) (i : Nat) :
    s.tableSolution table (s.combinations.length + i) = 0 := by
  unfold ILPSolver.tableSolution
  rw [List.getElem?_eq_none (by omega)]

/-- Where the problem that `Solve` builds is feasible. For every rule set for
which `NewILPSolver` returns a search space, every hand and every table whose
bricks can be regrouped into combinations of the search space, none of them
used more than twice (the list `cover`), there is an integer assignment within
the bounds of all variables that gives 0 to the variable of every unique brick
(placing nothing) and satisfies every constraint. -/
theorem SolveProblem_feasible (rules : Rules) (s : ILPSolver) (hand : List Brick)
    (table cover : List BrickCombination) (maxValue : Bool)
    (hs : NewILPSolver rules = some s)
    (hcover : ∀ c ∈ cover, c ∈ s.combinations)
    (htwice : ∀ c ∈ cover, cover.count c ≤ 2)
    (hperm : (DissolveCombinations cover).Perm (DissolveCombinations table)) :
    ∃ soln : Nat → Int, (s.SolveProblem hand table maxValue).Feasible soln ∧
      ∀ i, i < s.uniqueBricks.length → soln (s.combinations.length + i) = 0 := by
  obtain ⟨hnd, _, _⟩ := NewILPSolver_spec rules s hs
  refine ⟨s.tableSolution cover, ⟨?_, ?_⟩, fun i _ => tableSolution_brick s cover i⟩
  · rintro ⟨k, v⟩ hv
    rw [List.mk_mem_enum_iff_getElem?] at hv
    unfold ILPSolver.SolveProblem at hv
    dsimp only at hv ⊢
    by_cases hk : k < s.combinations.length
    · rw [List.getElem?_append_left (by simpa using hk), List.getElem?_map,
        List.getElem?_enum, List.getElem?_eq_getElem hk] at hv
      simp only [Option.map_some', Option.some.injEq] at hv
      subst hv
      rw [tableSolution_combo s cover k hk]
      dsimp only
      have h2 : cover.count s.combinations[k] ≤ 2 := by
        by_cases hm : s.combinations[k] ∈ cover
        · exact htwice _ hm
        · rw [List.count_eq_zero.mpr hm]
          omega
      omega
    · rw [List.getElem?_append_right (by simpa using hk), List.getElem?_map] at hv
      obtain ⟨bri, _, rfl⟩ := Option.map_eq_some'.mp hv
      have hk2 : k = s.combinations.length + (k - s.combinations.length) := by omega
      rw [hk2, tableSolution_brick]
      dsimp only
      rw [countBrickOccurrence_eq]
      omega
  · intro con hcon
    unfold ILPSolver.SolveProblem at hcon
    dsimp only at hcon
    rw [List.mem_map] at hcon
    obtain ⟨⟨i, b⟩, _, rfl⟩ := hcon
    dsimp only
    have hsum : (s.combinations.enum.map fun ic =>
          (ic.2.Bricks.count b : Int) * s.tableSolution cover ic.1).sum =
        ((DissolveCombinations table).count b : Int) := by
      rw [← hperm.count_eq b,
        ← sum_count_table b s.combinations (List.Nodup.of_map _ hnd) cover hcover]
      congr 1
      apply List.ext_getElem
      · simp
      · intro j h1 h2
        simp only [List.getElem_map, List.getElem_enum]
        rw [tableSolution_combo s cover j (by simpa using h1)]
    rw [List.map_cons, List.sum_cons, constraint_terms_sum _ _ _ hnd, countBrickOccurrence_eq,
      tableSolution_brick, hsum]
    dsimp only
    omega

/-- On `tinyRules`, with the three base bricks on the table in another order
than the search space has them, the problem is feasible with nothing
placed. -/
theorem SolveProblem_feasible_witness :
    NewILPSolver tinyRules = some tinySolver ∧
      (∀ c ∈ tableOfThree, c ∈ tinySolver.combinations) ∧
      (∀ c ∈ tableOfThree, tableOfThree.count c ≤ 2) ∧
      (DissolveCombinations tableOfThree).Perm (DissolveCombinations tableOfThreeMixed) ∧
      ∃ soln : Nat → Int,
        (tinySolver.SolveProblem [⟨1, "red"⟩] tableOfThreeMixed false).Feasible soln ∧
          ∀ i, i < tinySolver.uniqueBricks.length →
            soln (tinySolver.combinations.length + i) = 0 :=
  ⟨by decide, by decide, by decide, by decide,
    SolveProblem_feasible tinyRules tinySolver [⟨1, "red"⟩] tableOfThreeMixed tableOfThree false
      (by decide) (by decide) (by decide) (by decide)⟩

/-- C20 at a failing input. On `tinyRules` the table `tableOfFour`, whose one
combination `IsLegalCombination` accepts and whose bricks are unique bricks of
the search space, makes the problem of an empty hand infeasible: no
assignment satisfies its bounds and constraints, against the note on `Solve`
that the problem is always feasible. -/
theorem SolveProblem_infeasible :
    NewILPSolver tinyRules = some tinySolver ∧
      (∀ c ∈ tableOfFour, tinyRules.IsLegalCombination c = (true, LEGAL_COMBINATION)) ∧
      (∀ b ∈ DissolveCombinations tableOfFour, b ∈ tinySolver.uniqueBricks) ∧
      ∀ soln : Nat → Int, ¬ (tinySolver.SolveProblem [] tableOfFour false).Feasible soln := by
  refine ⟨by decide, by decide, by decide, ?_⟩
  intro soln hf
  have b4 := hf.1 (4, ⟨"red_1", 1, 0, 0⟩) (by decide)
  have b5 := hf.1 (5, ⟨"green_1", 1, 0, 0⟩) (by decide)
  have b6 := hf.1 (6, ⟨"blue_1", 1, 0, 0⟩) (by decide)
  have b7 := hf.1 (7, ⟨"joker_1", 1, 0, 0⟩) (by decide)
  have c1 := hf.2 ⟨[(-1, 4), (1, 0), (0, 1), (1, 2), (1, 3)], 1⟩ (by decide)
  have c2 := hf.2 ⟨[(-1, 5), (1, 0), (1, 1), (0, 2), (1, 3)], 1⟩ (by decide)
  have c3 := hf.2 ⟨[(-1, 6), (1, 0), (1, 1), (1, 2), (0, 3)], 1⟩ (by decide)
  have c4 := hf.2 ⟨[(-1, 7), (0, 0), (1, 1), (1, 2), (1, 3)], 1⟩ (by decide)
  simp only [List.map_cons, List.map_nil, List.sum_cons, List.sum_nil] at c1 c2 c3 c4
  dsimp only at b4 b5 b6 b7
  omega

/-! ### Hashes -/

/-- C29: the hash of a combination does not depend on the order of its bricks:
two combinations whose bricks are permutations of each other have the same
hash. -/
theorem Hash_perm (c1 c2 : BrickCombination) (h : c1.Bricks.Perm c2.Bricks) :
    c1.Hash = c2.Hash := by
  unfold BrickCombination.Hash
  apply List.Perm.foldl_eq' h
  intro x _ y _ z
  rw [Nat.xor_assoc, Nat.xor_comm x.Hash y.Hash, ← Nat.xor_assoc]

/-- The scenario of C29 (`TestBrickCombination_HashOrderInsensitive`): green 3,
2, 1 and green 1, 2, 3 have the same hash. -/
theorem Hash_perm_witness :
    greenDown.Bricks.Perm greenUp.Bricks ∧ greenDown.Hash = greenUp.Hash :=
  ⟨by decide, Hash_perm greenDown greenUp (by decide)⟩

/-- C30 (amended): two jokers with the same `Value` field are the same brick:
`BrickSliceDiff` of the one against the other is empty, and their hashes are
equal. -/
theorem joker_interchangeable (j1 j2 : Brick) (h1 : j1.Color = JokerColor)
    (h2 : j2.Color = JokerColor) (hv : j1.Value = j2.Value) :
    j1 = j2 ∧ BrickSliceDiff [j1] [j2] = [] ∧ j1.Hash = j2.Hash := by
  have e : j1 = j2 := by
    cases j1
    cases j2
    simp only [Brick.mk.injEq]
    exact ⟨hv, h1.trans h2.symm⟩
  subst e
  refine ⟨rfl, ?_, rfl⟩
  rw [← List.length_eq_zero, BrickSliceDiff_length_eq_zero]

/-- Two jokers built by `MakeJoker` are interchangeable. -/
theorem joker_interchangeable_witness :
    MakeJoker.Color = JokerColor ∧ MakeJoker.Value = MakeJoker.Value ∧
      BrickSliceDiff [MakeJoker] [MakeJoker] = [] ∧ MakeJoker.Hash = MakeJoker.Hash :=
  ⟨by decide, rfl, (joker_interchangeable MakeJoker MakeJoker (by decide) (by decide) rfl).2⟩

/-- C30 (as stated) fails: the joker with value 0 and the joker of `MakeJoker`
both have the joker colour, yet `BrickSliceDiff` keeps the one against the
other and their hashes differ: both read the `Value` field. -/
theorem joker_values_distinguished :
    zeroJoker.Color = JokerColor ∧ MakeJoker.Color = JokerColor ∧
      BrickSliceDiff [zeroJoker] [MakeJoker] = [MakeJoker] ∧
      BrickSliceDiff [zeroJoker] [MakeJoker] ≠ [] ∧ zeroJoker.Hash ≠ MakeJoker.Hash := by
  refine ⟨by decide, by decide, by decide, by decide, by decide⟩
/-! ### The empty arrangement -/

/-- What `ProcessMove` does with a move that `IsLegalMove` judges `FORFEITED`
in a game that has not been won. -/
theorem ProcessMove_of_forfeited (game : GameState) (m : Move) (player : Player)
    (hp : game.CurrentPlayer = some player) (hwon : game.HasBeenWon = false)
    (hl : game.IsLegalMove m = some (true, FORFEITED)) :
    (game.Pile = [] →
      game.ProcessMove m = some ((game.commitMove m).cycleTurn, true, FORFEITED)) ∧
    (∀ rest b, game.Pile = rest ++ [b] →
      game.ProcessMove m =
        some ((({ game.commitMove m with Pile := rest } : GameState).setCurrentHand
          (player.Hand ++ [b])).cycleTurn, true, FORFEITED)) := by
  have hne : ¬ FORFEITED = LEGAL_MOVE := by decide
  constructor
  · intro hpile
    unfold GameState.ProcessMove
    rw [hl, hp]
    simp only [hwon, Bool.false_eq_true, if_false, hne, if_true]
    rw [popFromPile_nil (game.commitMove m) hpile]
  · intro rest b hpile
    unfold GameState.ProcessMove
    rw [hl, hp]
    simp only [hwon, Bool.false_eq_true, if_false, hne, if_true]
    rw [popFromPile_append (game.commitMove m) rest b hpile]

/-- What `ProcessMove` does in a game that has been won. -/
theorem ProcessMove_of_won (game : GameState) (m : Move) (player : Player) (r : Bool × String)
    (hp : game.CurrentPlayer = some player) (hwon : game.HasBeenWon = true)
    (hl : game.IsLegalMove m = some r) :
    game.ProcessMove m = some (game, false, GAME_WON) := by
  unfold GameState.ProcessMove
  rw [hl, hp]
  simp only [hwon, if_true]

theorem CurrentTurn_cycleTurn_congr (g1 g2 : GameState) (hP : g1.Players = g2.Players)
    (hT : g1.CurrentTurn = g2.CurrentTurn) :
    g1.cycleTurn.CurrentTurn = g2.cycleTurn.CurrentTurn := by
  unfold GameState.cycleTurn
  dsimp only
  rw [hP, hT]
  split_ifs <;> rfl

theorem MoveHistory_cycleTurn (game : GameState) :
    game.cycleTurn.MoveHistory = game.MoveHistory := by
  unfold GameState.cycleTurn; dsimp only; split_ifs <;> rfl

theorem Pile_cycleTurn (game : GameState) : game.cycleTurn.Pile = game.Pile := by
  unfold GameState.cycleTurn; dsimp only; split_ifs <;> rfl

/-- Proposing the current table is a forfeit. -/
theorem IsLegalMove_current_table (game : GameState) (player : Player)
    (hp : game.CurrentPlayer = some player) :
    game.IsLegalMove (NewMove player.getName game.Table) = some (true, FORFEITED) := by
  rw [IsLegalMove_eq game _ player hp]
  have h1 : (NewMove player.getName game.Table).tiles = game.tableTiles := rfl
  rw [h1]
  simp [NewMove]

/-- C24 (amended): for a move of the current player with an empty arrangement:
when the table holds no brick, `IsLegalMove` returns `(true, FORFEITED)`, as it
does for the proposal of the current table, and `ProcessMove` has the same
outcome for both moves, with the same players, pile, turn and bricks on the
table afterwards; when the table holds a brick, `IsLegalMove` returns
`(false, BRICKS_REMOVED)`. -/
theorem IsLegalMove_empty_arrangement (game : GameState) (m : Move) (player : Player)
    (hp : game.CurrentPlayer = some player) (hname : m.PlayerName = player.getName)
    (harr : m.Arrangement = []) :
    (DissolveCombinations game.Table = [] →
      game.IsLegalMove m = some (true, FORFEITED) ∧
      game.IsLegalMove (NewMove m.PlayerName game.Table) = some (true, FORFEITED) ∧
      ∃ game1 game2 accepted reason,
        game.ProcessMove m = some (game1, accepted, reason) ∧
        game.ProcessMove (NewMove m.PlayerName game.Table) = some (game2, accepted, reason) ∧
        game1.Players = game2.Players ∧ game1.Pile = game2.Pile ∧
        game1.CurrentTurn = game2.CurrentTurn ∧
        DissolveCombinations game1.Table = DissolveCombinations game2.Table) ∧
    (DissolveCombinations game.Table ≠ [] →
      game.IsLegalMove m = some (false, BRICKS_REMOVED)) := by
  have hm : m.tiles = 0 := by
    unfold Move.tiles
    rw [Move.Bricks_eq, harr]
    rfl
  have hlm : game.IsLegalMove m =
      if DissolveCombinations game.Table = [] then some (true, FORFEITED)
      else some (false, BRICKS_REMOVED) := by
    rw [IsLegalMove_eq game m player hp, hm]
    by_cases ht : DissolveCombinations game.Table = []
    · have ht2 : game.tableTiles = 0 := by
        unfold GameState.tableTiles
        rw [ht]
        rfl
      simp [hname, ht, ht2]
    · have ht2 : ¬ game.tableTiles ≤ 0 := by
        unfold GameState.tableTiles
        intro hle
        exact ht ((Multiset.coe_eq_zero _).mp (le_antisymm hle (zero_le _)))
      simp [hname, ht, ht2]
  constructor
  · intro ht
    have h1 : game.IsLegalMove m = some (true, FORFEITED) := by rw [hlm, if_pos ht]
    have h2 : game.IsLegalMove (NewMove m.PlayerName game.Table) = some (true, FORFEITED) := by
      rw [hname]
      exact IsLegalMove_current_table game player hp
    refine ⟨h1, h2, ?_⟩
    cases hwon : game.HasBeenWon with
    | true =>
      exact ⟨game, game, false, GAME_WON, ProcessMove_of_won game m player _ hp hwon h1,
        ProcessMove_of_won game _ player _ hp hwon h2, rfl, rfl, rfl, rfl⟩
    | false =>
      have htab : ∀ (move : Move) (g : GameState), g.MoveHistory = game.MoveHistory ++ [move] →
          g.Table = move.Arrangement := by
        intro move g hg
        have : g.Table = (game.commitMove move).Table := by
          unfold GameState.Table
          rw [hg]
          rfl
        rw [this, Table_commitMove]
      rcases List.eq_nil_or_concat game.Pile with hpile | ⟨rest, b, hpile⟩
      · refine ⟨_, _, true, FORFEITED, (ProcessMove_of_forfeited game m player hp hwon h1).1 hpile,
          (ProcessMove_of_forfeited game _ player hp hwon h2).1 hpile, ?_, ?_, ?_, ?_⟩
        · rw [Players_cycleTurn, Players_cycleTurn]
          rfl
        · rw [Pile_cycleTurn, Pile_cycleTurn]
          rfl
        · exact CurrentTurn_cycleTurn_congr _ _ rfl rfl
        · rw [htab m _ (by rw [MoveHistory_cycleTurn]; rfl),
            htab (NewMove m.PlayerName game.Table) _ (by rw [MoveHistory_cycleTurn]; rfl), harr]
          exact ht.symm
      · rw [List.concat_eq_append] at hpile
        refine ⟨_, _, true, FORFEITED,
          (ProcessMove_of_forfeited game m player hp hwon h1).2 rest b hpile,
          (ProcessMove_of_forfeited game _ player hp hwon h2).2 rest b hpile, ?_, ?_, ?_, ?_⟩
        · rw [Players_cycleTurn, Players_cycleTurn]
          rfl
        · rw [Pile_cycleTurn, Pile_cycleTurn]
          rfl
        · exact CurrentTurn_cycleTurn_congr _ _ rfl rfl
        · rw [htab m _ (by rw [MoveHistory_cycleTurn]; rfl),
            htab (NewMove m.PlayerName game.Table) _ (by rw [MoveHistory_cycleTurn]; rfl), harr]
          exact ht.symm
  · intro ht
    rw [hlm, if_neg ht]

/-- In the two-player game with an empty table the empty arrangement of the
first player is a forfeit. -/
theorem IsLegalMove_empty_arrangement_witness :
    twoPlayerGame.CurrentPlayer = some testPlayerA ∧
      (NewMove "testplayerA" []).PlayerName = testPlayerA.getName ∧
      (NewMove "testplayerA" []).Arrangement = [] ∧
      DissolveCombinations twoPlayerGame.Table = [] ∧
      twoPlayerGame.IsLegalMove (NewMove "testplayerA" []) = some (true, FORFEITED) :=
  ⟨by decide, by decide, rfl, by decide,
    ((IsLegalMove_empty_arrangement twoPlayerGame (NewMove "testplayerA" []) testPlayerA
      (by decide) (by decide) rfl).1 (by decide)).1⟩

/-- C24 (as stated) fails: on the table of `testGame`, which holds nine bricks,
the empty arrangement of the current player is rejected with `BRICKS_REMOVED`,
while the proposal of the current table is a forfeit. -/
theorem IsLegalMove_empty_arrangement_removes :
    testGame.CurrentPlayer = some testPlayer ∧
      testMoveEmpty.PlayerName = testPlayer.getName ∧ testMoveEmpty.Arrangement = [] ∧
      testGame.IsLegalMove testMoveEmpty = some (false, BRICKS_REMOVED) ∧
      testGame.IsLegalMove testMoveForfeit = some (true, FORFEITED) := by
  refine ⟨by decide, by decide, by decide, by decide, by decide⟩
/-! ### The value of a first move -/

/-- The summed value of a multiset of bricks whose jokers carry the value 1:
the values of the bricks that are not jokers, and 1 for every joker. -/
theorem sum_value_jokers (s : Multiset Brick)
    (hj : ∀ b ∈ s, b.Color = JokerColor → b.Value = 1) :
    (s.map Brick.Value).sum =
      ((s.filter fun b => b.Color ≠ JokerColor).map Brick.Value).sum +
        ((s.filter fun b => b.Color = JokerColor).card : Int) := by
  have hsplit : s = (s.filter fun b => b.Color ≠ JokerColor) +
      (s.filter fun b => b.Color = JokerColor) := by
    have h := Multiset.filter_add_not (fun b : Brick => b.Color ≠ JokerColor) s
    simp only [ne_eq, not_not] at h
    exact h.symm
  have hone : ((s.filter fun b => b.Color = JokerColor).map Brick.Value) =
      Multiset.replicate (s.filter fun b => b.Color = JokerColor).card 1 := by
    rw [Multiset.eq_replicate]
    refine ⟨Multiset.card_map _ _, ?_⟩
    intro v hv
    obtain ⟨b, hb, rfl⟩ := Multiset.mem_map.mp hv
    rw [Multiset.mem_filter] at hb
    exact hj b hb.1 hb.2
  conv_lhs => rw [hsplit]
  rw [Multiset.map_add, Multiset.sum_add, hone, Multiset.sum_replicate, nsmul_eq_mul, mul_one]

/-- C25 (amended): in the first-move threshold check of `IsLegalMove` a joker
counts with its `Value` field. For a first move of the current player that
passes the earlier checks, the value compared with `FirstMoveValue` is the sum
of the `Value` fields of all new bricks, jokers included, provided that sum is
below `2^63`; every new brick, jokers included, counts at least 1; and when
the new jokers carry the value 1 of `MakeJoker`, the sum is the summed value
of the new bricks that are not jokers plus the number of new jokers. -/
theorem IsLegalMove_first_move_value (game : GameState) (move : Move) (player : Player)
    (hp : game.CurrentPlayer = some player) (hname : move.PlayerName = player.getName)
    (hrem : game.tableTiles ≤ move.tiles) (hnew : move.tiles - game.tableTiles ≠ 0)
    (hown : move.tiles - game.tableTiles ≤ ↑player.Hand)
    (hall : ∀ x ∈ move.Arrangement, (game.Rules.IsLegalCombination x).1 = true)
    (hfirst : ∀ m ∈ game.MoveHistory, m.PlayerName ≠ player.Name) :
    (((move.tiles - game.tableTiles).map Brick.Value).sum < 9223372036854775808 →
      game.IsLegalMove move =
        if ((move.tiles - game.tableTiles).map Brick.Value).sum < game.Rules.FirstMoveValue
        then some (false, VALUE_INSUFFICIENT) else some (true, LEGAL_MOVE)) ∧
    (∀ b ∈ move.tiles - game.tableTiles, 1 ≤ b.Value) ∧
    ((∀ b ∈ move.tiles - game.tableTiles, b.Color = JokerColor → b.Value = 1) →
      ((move.tiles - game.tableTiles).map Brick.Value).sum =
        (((move.tiles - game.tableTiles).filter fun b => b.Color ≠ JokerColor).map
            Brick.Value).sum +
          (((move.tiles - game.tableTiles).filter fun b => b.Color = JokerColor).card : Int)) := by
  have h2 : ¬ move.tiles ≤ game.tableTiles := fun h => hnew (tsub_eq_zero_iff_le.mpr h)
  refine ⟨?_, ?_, sum_value_jokers _⟩
  · intro hbound
    rw [IsLegalMove_eq game move player hp]
    simp only [hname, ne_eq, not_true_eq_false, if_false, hrem, h2, hown]
    unfold GameState.combinationVerdict
    rw [(firstIllegalCombination_eq_none _ _).mpr hall]
    have hany : (game.MoveHistory.any fun m => m.PlayerName == player.getName) = false := by
      rw [List.any_eq_false]
      intro m hm
      simpa [Player.getName] using hfirst m hm
    have hsum := (cumulativeBrickValue_new game move hall hbound).1
    simp only [hany, Bool.false_eq_true, if_false, hsum, GameState.getRules]
  · intro b hb
    have hb1 : b ∈ move.tiles := Multiset.mem_of_le (Multiset.sub_le_self _ _) hb
    have hb2 : b ∈ DissolveCombinations move.Arrangement := by
      rw [← Move.Bricks_eq]
      exact hb1
    obtain ⟨c, hc, hbc⟩ := (mem_DissolveCombinations _ _).mp hb2
    exact value_pos_of_IsLegalCombination game.Rules c (hall c hc) b hbc

/-- The first move blue 6, blue 7, joker under the default rules: the value
compared with `FirstMoveValue` = 14 is 6 + 7 + 1. -/
theorem IsLegalMove_first_move_value_witness :
    jokerGame.CurrentPlayer = some jokerPlayer ∧ jokerMove.PlayerName = jokerPlayer.getName ∧
      jokerGame.tableTiles ≤ jokerMove.tiles ∧ jokerMove.tiles - jokerGame.tableTiles ≠ 0 ∧
      jokerMove.tiles - jokerGame.tableTiles ≤ ↑jokerPlayer.Hand ∧
      (∀ x ∈ jokerMove.Arrangement, (jokerGame.Rules.IsLegalCombination x).1 = true) ∧
      (∀ m ∈ jokerGame.MoveHistory, m.PlayerName ≠ jokerPlayer.Name) ∧
      ((jokerMove.tiles - jokerGame.tableTiles).map Brick.Value).sum = 14 ∧
      jokerGame.IsLegalMove jokerMove = some (true, LEGAL_MOVE) :=
  ⟨by decide, by decide, by decide, by decide, by decide, by decide, by decide, by decide,
    ((IsLegalMove_first_move_value jokerGame jokerMove jokerPlayer (by decide) (by decide)
      (by decide) (by decide) (by decide) (by decide) (by decide)).1 (by decide)).trans
      (by decide)⟩

/-- C25 (as stated) fails: in the first move blue 6, blue 7, joker under the
default rules the new bricks that are not jokers sum to 13, below
`FirstMoveValue` = 14, yet the move is `LEGAL_MOVE`: the joker counts 1. And
the value compared is a sum of Go's `int`: in the first move of the three
bricks of value `2^62`, none a joker, the new bricks sum to `3 * 2^62`, the
value compared with `FirstMoveValue` = 14 is `-2^62`, and the move is
`VALUE_INSUFFICIENT`. -/
theorem IsLegalMove_joker_counts :
    (jokerGame.IsFirstMove jokerMove.PlayerName = true ∧
      BrickSliceDiff (DissolveCombinations jokerGame.Table) jokerMove.Bricks =
        [⟨6, "blue"⟩, ⟨7, "blue"⟩, MakeJoker] ∧
      (([⟨6, "blue"⟩, ⟨7, "blue"⟩, MakeJoker].filter fun b : Brick =>
          b.Color != JokerColor).map Brick.Value).sum = 13 ∧
      jokerGame.Rules.FirstMoveValue = 14 ∧
      jokerGame.IsLegalMove jokerMove = some (true, LEGAL_MOVE)) ∧
    ((hugeGame []).IsFirstMove hugeMove.PlayerName = true ∧
      BrickSliceDiff (DissolveCombinations (hugeGame []).Table) hugeMove.Bricks =
        hugeGroup.Bricks ∧
      ((hugeGroup.Bricks.filter fun b : Brick => b.Color != JokerColor).map Brick.Value).sum =
        13835058055282163712 ∧
      (hugeGame []).Rules.FirstMoveValue = 14 ∧
      cumulativeBrickValue hugeGroup.Bricks = -4611686018427387904 ∧
      (hugeGame []).IsLegalMove hugeMove = some (false, VALUE_INSUFFICIENT)) := by
  refine ⟨⟨by decide, by decide, by decide, by decide, by decide⟩,
    ⟨by decide, by decide, by decide, by decide, by decide, by decide⟩⟩
/-! ### The turns of the AI players -/

/-- C21 at a failing input: under the default rules the AI player `firstAI`
makes its first move on an empty table; its solver answers with the run red 1,
red 2, red 3, a run that `ComputeAllRuns` enumerates for the search space and
that `IsLegalCombination` accepts, made of bricks of the hand. `RunAITurns`
passes the value constraint 0 to `MakeMove` because the move is the first of
the player, so `MakeMove` returns the run; `IsLegalMove` compares its value 6
with `FirstMoveValue` = 14, `ProcessMove` rejects the move with
`VALUE_INSUFFICIENT`, and `RunAITurns` panics. -/
theorem RunAITurns_first_move_panics :
    aiGame.HasBeenWon = false ∧ aiGame.CurrentPlayer = some firstAI ∧ firstAI.Human = false ∧
      redRun ∈ ComputeAllRuns NewDefaultRules.BaseBricks ∧
      NewDefaultRules.IsLegalCombination redRun = (true, LEGAL_COMBINATION) ∧
      (↑redRun.Bricks : Multiset Brick) ≤ ↑firstAI.Hand ∧
      aiGame.IsFirstMove firstAI.getName = true ∧
      firstAI.MakeMove redRunSolver aiGame.Table 0 = some (NewMove "A" [redRun]) ∧
      aiGame.IsLegalMove (NewMove "A" [redRun]) = some (false, VALUE_INSUFFICIENT) ∧
      aiGame.ProcessMove (NewMove "A" [redRun]) =
        some (aiGame.cycleTurn, false, VALUE_INSUFFICIENT) ∧
      ∀ fuel, aiGame.RunAITurns (fun _ => redRunSolver) (fuel + 1) = RunResult.panicked := by
  refine ⟨by decide, by decide, by decide, by decide, by decide, by decide, by decide,
    by decide, by decide, by decide, ?_⟩
  intro fuel
  rfl
/-! ### `RunAITurns` at the boundary -/

/-- The move of `MakeMove` carries the name of the player. -/
theorem MakeMove_name (p : Player) (solver : Solver) (table : List BrickCombination)
    (minValue : Int) (m : Move) (h : p.MakeMove solver table minValue = some m) :
    m.PlayerName = p.getName := by
  unfold Player.MakeMove at h
  dsimp only at h
  cases hs : solver p.Hand table (if minValue > 0 then true else false) with
  | none =>
    rw [hs] at h
    simp at h
  | some r =>
    rw [hs] at h
    dsimp only at h
    split_ifs at h
    · simp only [Option.some.injEq] at h
      rw [← h]
      rfl
    · simp only [Option.some.injEq] at h
      rw [← h]
      rfl

/-- No reason of `IsLegalMove` is `GAME_WON`. -/
theorem IsLegalMove_reason_ne_won (game : GameState) (m : Move) (r : Bool × String)
    (h : game.IsLegalMove m = some r) : r.2 ≠ GAME_WON := by
  obtain ⟨player, hp⟩ := CurrentPlayer_of_IsLegalMove game m r h
  rw [IsLegalMove_eq game m player hp] at h
  split_ifs at h
  all_goals first
    | (cases h; decide)
    | (rcases combinationVerdict_cases game m player r h with e | e | e | e | e | e <;>
        (rw [e]; decide))

/-- When `ProcessMove` refuses a move with `GAME_WON`, the game had been won
and is returned as it was. -/
theorem ProcessMove_refused_won (game game1 : GameState) (m : Move)
    (h : game.ProcessMove m = some (game1, false, GAME_WON)) :
    game1 = game ∧ game.HasBeenWon = true := by
  unfold GameState.ProcessMove at h
  cases hl : game.IsLegalMove m with
  | none =>
    rw [hl] at h
    simp at h
  | some r =>
    cases hp : game.CurrentPlayer with
    | none =>
      rw [hl, hp] at h
      simp at h
    | some player =>
      rw [hl, hp] at h
      dsimp only at h
      cases hwon : game.HasBeenWon with
      | true =>
        rw [hwon] at h
        simp only [if_true, Option.some.injEq, Prod.mk.injEq, and_true] at h
        exact ⟨h.symm, rfl⟩
      | false =>
        exfalso
        rw [hwon] at h
        simp only [Bool.false_eq_true, if_false] at h
        by_cases h1 : r.2 = LEGAL_MOVE
        · rw [if_pos h1] at h
          split_ifs at h <;> simp at h
        · rw [if_neg h1] at h
          by_cases h2 : r.2 = FORFEITED
          · rw [if_pos h2] at h
            split at h <;> simp at h
          · rw [if_neg h2] at h
            simp only [Option.some.injEq, Prod.mk.injEq, true_and] at h
            exact IsLegalMove_reason_ne_won game m r hl h.2

/-- At a boundary state `RunAITurns` returns the state as it is. -/
theorem RunAITurns_of_AtBoundary (solvers : Nat → Solver) (game : GameState)
    (hb : game.AtBoundary solvers) (fuel : Nat) :
    game.RunAITurns solvers (fuel + 1) = RunResult.returned game := by
  obtain ⟨player, hp, hcase⟩ := hb
  rw [GameState.RunAITurns, hp]
  dsimp only
  cases hh : player.Human with
  | true => simp
  | false =>
    rcases hcase with hc | ⟨hwon, hm⟩
    · rw [hh] at hc
      exact absurd hc (by decide)
    · simp only [Bool.false_eq_true, if_false]
      unfold GameState.valueConstraint at hm
      obtain ⟨move, hmove⟩ := Option.isSome_iff_exists.mp hm
      rw [hmove]
      dsimp only
      have hn := MakeMove_name _ _ _ _ _ hmove
      obtain ⟨r, hr⟩ := IsLegalMove_isSome game move player hp
      rw [ProcessMove_of_won game move player r hp hwon hr]
      simp [hn]

/-- A state that `RunAITurns` returns is a boundary state. -/
theorem AtBoundary_of_RunAITurns (solvers : Nat → Solver) :
    ∀ (fuel : Nat) (game game1 : GameState),
      game.RunAITurns solvers fuel = RunResult.returned game1 → game1.AtBoundary solvers := by
  intro fuel
  induction fuel with
  | zero =>
    intro game game1 h
    rw [GameState.RunAITurns] at h
    cases h
  | succ fuel ih =>
    intro game game1 h
    rw [GameState.RunAITurns] at h
    cases hp : game.CurrentPlayer with
    | none =>
      rw [hp] at h
      cases h
    | some player =>
      rw [hp] at h
      dsimp only at h
      cases hh : player.Human with
      | true =>
        rw [hh] at h
        simp only [if_true, RunResult.returned.injEq] at h
        rw [← h]
        exact ⟨player, hp, Or.inl hh⟩
      | false =>
        rw [hh] at h
        simp only [Bool.false_eq_true, if_false] at h
        cases hm : player.MakeMove (solvers game.CurrentTurn.toNat) game.Table
            (if game.IsFirstMove player.getName then 0 else game.getRules.FirstMoveValue) with
        | none =>
          rw [hm] at h
          cases h
        | some move =>
          rw [hm] at h
          dsimp only at h
          split_ifs at h with hname
          cases hpm : game.ProcessMove move with
          | none =>
            rw [hpm] at h
            cases h
          | some res =>
            obtain ⟨game2, accepted, reason⟩ := res
            rw [hpm] at h
            dsimp only at h
            cases accepted with
            | true => exact ih game2 game1 (by simpa using h)
            | false =>
              simp only [Bool.not_false, if_true] at h
              split_ifs at h with hreason
              simp only [RunResult.returned.injEq] at h
              subst hreason
              obtain ⟨e1, e2⟩ := ProcessMove_refused_won game game2 move hpm
              rw [← h, e1]
              refine ⟨player, hp, Or.inr ⟨e2, ?_⟩⟩
              unfold GameState.valueConstraint
              rw [hm]
              rfl
/-- When the solver of the current AI player fails, `RunAITurns` panics. -/
theorem RunAITurns_of_MakeMove_none (solvers : Nat → Solver) (game : GameState)
    (player : Player) (fuel : Nat) (hp : game.CurrentPlayer = some player)
    (hh : player.Human = false)
    (hm : player.MakeMove (solvers game.CurrentTurn.toNat) game.Table
      (game.valueConstraint player) = none) :
    game.RunAITurns solvers (fuel + 1) = RunResult.panicked := by
  rw [GameState.RunAITurns, hp]
  dsimp only
  unfold GameState.valueConstraint at hm
  rw [hh, hm]
  rfl

/-- The table `tableOfFour` makes the problem of an empty hand infeasible on
`tinySolver`, whatever the objective. -/
theorem tableOfFour_infeasible (maxValue : Bool) (soln : Nat → Int) :
    ¬ (tinySolver.SolveProblem [] tableOfFour maxValue).Feasible soln := by
  intro hf
  have b4 : (0 : Int) ≤ soln 4 ∧ soln 4 ≤ 0 := by
    cases maxValue
    · exact hf.1 (4, ⟨"red_1", 1, 0, 0⟩) (by decide)
    · exact hf.1 (4, ⟨"red_1", 1, 0, 0⟩) (by decide)
  have b5 : (0 : Int) ≤ soln 5 ∧ soln 5 ≤ 0 := by
    cases maxValue
    · exact hf.1 (5, ⟨"green_1", 1, 0, 0⟩) (by decide)
    · exact hf.1 (5, ⟨"green_1", 1, 0, 0⟩) (by decide)
  have b6 : (0 : Int) ≤ soln 6 ∧ soln 6 ≤ 0 := by
    cases maxValue
    · exact hf.1 (6, ⟨"blue_1", 1, 0, 0⟩) (by decide)
    · exact hf.1 (6, ⟨"blue_1", 1, 0, 0⟩) (by decide)
  have b7 : (0 : Int) ≤ soln 7 ∧ soln 7 ≤ 0 := by
    cases maxValue
    · exact hf.1 (7, ⟨"joker_1", 1, 0, 0⟩) (by decide)
    · exact hf.1 (7, ⟨"joker_1", 1, 0, 0⟩) (by decide)
  have hcon : ∀ con ∈ ([⟨[(-1, 4), (1, 0), (0, 1), (1, 2), (1, 3)], 1⟩,
      ⟨[(-1, 5), (1, 0), (1, 1), (0, 2), (1, 3)], 1⟩,
      ⟨[(-1, 6), (1, 0), (1, 1), (1, 2), (0, 3)], 1⟩,
      ⟨[(-1, 7), (0, 0), (1, 1), (1, 2), (1, 3)], 1⟩] : List ILPConstraint),
      (con.Terms.map fun t => t.1 * soln t.2).sum = con.EqualTo := by
    have e : (tinySolver.SolveProblem [] tableOfFour maxValue).Constraints =
        [⟨[(-1, 4), (1, 0), (0, 1), (1, 2), (1, 3)], 1⟩,
          ⟨[(-1, 5), (1, 0), (1, 1), (0, 2), (1, 3)], 1⟩,
          ⟨[(-1, 6), (1, 0), (1, 1), (1, 2), (0, 3)], 1⟩,
          ⟨[(-1, 7), (0, 0), (1, 1), (1, 2), (1, 3)], 1⟩] := by
      cases maxValue <;> decide
    rw [← e]
    exact hf.2
  have c1 := hcon _ (List.mem_cons_self _ _)
  have c2 := hcon _ (List.mem_cons_of_mem _ (List.mem_cons_self _ _))
  have c3 := hcon _ (List.mem_cons_of_mem _ (List.mem_cons_of_mem _ (List.mem_cons_self _ _)))
  have c4 := hcon _ (List.mem_cons_of_mem _ (List.mem_cons_of_mem _
    (List.mem_cons_of_mem _ (List.mem_cons_self _ _))))
  simp only [List.map_cons, List.map_nil, List.sum_cons, List.sum_nil] at c1 c2 c3 c4
  omega

/-- C22 (amended): in a game state whose current player is human, or which has
been won and in which the solver of the current AI player answers without an
error, `RunAITurns` returns and leaves the state as it is; and whenever a call
of `RunAITurns` returns, a second call on the returned state returns that
state unchanged. -/
theorem RunAITurns_boundary (solvers : Nat → Solver) :
    (∀ (game : GameState) (player : Player), game.CurrentPlayer = some player →
      (player.Human = true ∨
        (game.HasBeenWon = true ∧
          (player.MakeMove (solvers game.CurrentTurn.toNat) game.Table
            (game.valueConstraint player)).isSome = true)) →
      ∀ fuel, game.RunAITurns solvers (fuel + 1) = RunResult.returned game) ∧
    (∀ (fuel : Nat) (game game1 : GameState),
      game.RunAITurns solvers fuel = RunResult.returned game1 →
      ∀ fuel2, game1.RunAITurns solvers (fuel2 + 1) = RunResult.returned game1) :=
  ⟨fun game player hp hb fuel => RunAITurns_of_AtBoundary solvers game ⟨player, hp, hb⟩ fuel,
    fun fuel game game1 h fuel2 =>
      RunAITurns_of_AtBoundary solvers game1 (AtBoundary_of_RunAITurns solvers fuel game game1 h)
        fuel2⟩

/-- With the turn at the human player `RunAITurns` changes nothing; and from
`aiGame`, where the AI player forfeits with the `DummySolver`, it returns at
the human player, and a second call returns the same state. -/
theorem RunAITurns_boundary_witness :
    humanTurnGame.CurrentPlayer = some humanB ∧ humanB.Human = true ∧
      humanTurnGame.RunAITurns (fun _ => DummySolver) 1 = RunResult.returned humanTurnGame ∧
      ∃ game1, aiGame.RunAITurns (fun _ => DummySolver) 2 = RunResult.returned game1 ∧
        game1.CurrentTurn = 1 ∧ game1.MoveHistory = [NewMove "A" []] ∧
        game1.RunAITurns (fun _ => DummySolver) 1 = RunResult.returned game1 :=
  ⟨by decide, by decide,
    (RunAITurns_boundary (fun _ => DummySolver)).1 humanTurnGame humanB (by decide)
      (Or.inl (by decide)) 0,
    _, rfl, by decide, by decide,
    (RunAITurns_boundary (fun _ => DummySolver)).2 2 aiGame _ rfl 0⟩

/-- C22 (as stated) fails on won games in which `RunAITurns` panics. In
`wonGameBadTurn` the turn counter is no index of the players. In
`wonTinyGame` the AI player `A` has won and is the current player; the problem
of its empty hand and the table is infeasible, so an external solver that only
returns assignments satisfying the problem returns an error, and `MakeMove`
panics on it. -/
theorem RunAITurns_won_panics :
    (wonGameBadTurn.HasBeenWon = true ∧
      ∀ (solvers : Nat → Solver) (fuel : Nat),
        wonGameBadTurn.RunAITurns solvers (fuel + 1) = RunResult.panicked) ∧
    (wonTinyGame.HasBeenWon = true ∧ wonTinyGame.CurrentPlayer = some tinyWinner ∧
      tinyWinner.Human = false ∧ NewILPSolver wonTinyGame.Rules = some tinySolver ∧
      ∀ (probSolve : ILPProblem → Option (Nat → Int)),
        (∀ p soln, probSolve p = some soln → p.Feasible soln) →
        ∀ fuel : Nat,
          wonTinyGame.RunAITurns (fun _ => tinySolver.asSolver probSolve) (fuel + 1) =
            RunResult.panicked) := by
  refine ⟨⟨by decide, fun solvers fuel => rfl⟩, by decide, by decide, by decide, by decide, ?_⟩
  intro probSolve hsound fuel
  apply RunAITurns_of_MakeMove_none _ wonTinyGame tinyWinner fuel (by decide) (by decide)
  have e1 : wonTinyGame.Table = tableOfFour := by decide
  have e2 : wonTinyGame.valueConstraint tinyWinner = 1 := by decide
  have e3 : tinyWinner.Hand = [] := by decide
  rw [e1, e2]
  unfold Player.MakeMove
  dsimp only
  rw [e3]
  have hnone : tinySolver.asSolver probSolve [] tableOfFour
      (if (1 : Int) > 0 then true else false) = none := by
    unfold ILPSolver.asSolver ILPSolver.Solve
    cases hs : probSolve (tinySolver.SolveProblem [] tableOfFour
        (if (1 : Int) > 0 then true else false)) with
    | none => rfl
    | some soln => exact absurd (hsound _ _ hs) (tableOfFour_infeasible _ soln)
  rw [hnone]
/-! ### The progress of one turn -/

theorem handCount_eq (game : GameState) : game.handCount = Multiset.card game.handTiles := by
  unfold GameState.handCount GameState.handTiles
  induction game.Players with
  | nil => rfl
  | cons p ps ih =>
    rw [List.map_cons, List.sum_cons, List.map_cons, List.sum_cons, Multiset.card_add, ih,
      Multiset.coe_card]

/-- A move with the reason `LEGAL_MOVE` adds a brick to the table. -/
theorem IsLegalMove_legal_adds (game : GameState) (m : Move) (player : Player)
    (r : Bool × String) (hp : game.CurrentPlayer = some player)
    (h : game.IsLegalMove m = some r) (hr : r.2 = LEGAL_MOVE) : ¬ m.tiles ≤ game.tableTiles := by
  intro hle
  rw [IsLegalMove_eq game m player hp] at h
  split_ifs at h
  all_goals (cases h; revert hr; decide)

/-- The pile and the table after an accepted move in a game that has not been
won: a legal move leaves the pile alone, a forfeit takes the last brick of a
pile that is not empty, and leaves players and pile alone when it is. -/
theorem ProcessMove_accepted_cases (game game1 : GameState) (m : Move) (reason : String)
    (hwon : game.HasBeenWon = false)
    (h : game.ProcessMove m = some (game1, true, reason)) :
    game1.tableTiles = m.tiles ∧
      ((game1.Pile = game.Pile ∧ game.tableTiles ≤ m.tiles ∧ ¬ m.tiles ≤ game.tableTiles) ∨
        (m.tiles = game.tableTiles ∧
          ((game.Pile = [] ∧ game1.Pile = [] ∧ game1.Players = game.Players) ∨
            ∃ rest b, game.Pile = rest ++ [b] ∧ game1.Pile = rest))) := by
  unfold GameState.ProcessMove at h
  cases hl : game.IsLegalMove m with
  | none => rw [hl] at h; simp at h
  | some r =>
    obtain ⟨player, hp⟩ := CurrentPlayer_of_IsLegalMove game m _ hl
    rw [hl, hp] at h
    dsimp only at h
    simp only [hwon, Bool.false_eq_true, if_false] at h
    by_cases hr1 : r.2 = LEGAL_MOVE
    · simp only [hr1, if_true] at h
      obtain ⟨hrem, _⟩ := IsLegalMove_reason_legal game m player r hp hl hr1
      have hadd := IsLegalMove_legal_adds game m player r hp hl hr1
      split_ifs at h
      · simp only [Option.some.injEq, Prod.mk.injEq] at h
        rw [← h.1]
        exact ⟨tableTiles_commitMove _ _, Or.inl ⟨rfl, hrem, hadd⟩⟩
      · simp only [Option.some.injEq, Prod.mk.injEq] at h
        rw [← h.1]
        obtain ⟨_, c2, _, c4⟩ := cycleTurn_fields ((game.setCurrentHand
          (BrickSliceDiff (BrickSliceDiff (DissolveCombinations game.Table) m.Bricks)
            player.Hand)).commitMove m)
        exact ⟨c4.trans (tableTiles_commitMove _ _), Or.inl ⟨c2.trans rfl, hrem, hadd⟩⟩
    · simp only [hr1, if_false] at h
      by_cases hr2 : r.2 = FORFEITED
      · simp only [hr2, if_true] at h
        have htab := IsLegalMove_reason_forfeited game m player r hp hl hr2
        rcases List.eq_nil_or_concat game.Pile with hpile | ⟨rest, b, hpile⟩
        · rw [popFromPile_nil (game.commitMove m) hpile] at h
          simp only [Option.some.injEq, Prod.mk.injEq] at h
          rw [← h.1]
          obtain ⟨_, c2, _, c4⟩ := cycleTurn_fields (game.commitMove m)
          refine ⟨c4.trans (tableTiles_commitMove _ _), Or.inr ⟨htab, Or.inl ⟨hpile, ?_, ?_⟩⟩⟩
          · rw [c2]
            exact hpile
          · rw [Players_cycleTurn]
            rfl
        · rw [List.concat_eq_append] at hpile
          rw [popFromPile_append (game.commitMove m) rest b hpile] at h
          simp only [Option.some.injEq, Prod.mk.injEq] at h
          rw [← h.1]
          obtain ⟨_, c2, _, c4⟩ := cycleTurn_fields (GameState.setCurrentHand
            { game.commitMove m with Pile := rest } (player.Hand ++ [b]))
          refine ⟨c4.trans (tableTiles_commitMove game m),
            Or.inr ⟨htab, Or.inr ⟨rest, b, hpile, c2.trans rfl⟩⟩⟩
      · simp only [hr2, if_false, Option.some.injEq, Prod.mk.injEq] at h
        exact absurd h.2.1 (by decide)

/-- An accepted move in a game that has not been won removes a brick from the
hands and leaves the pile alone, or takes a brick from the pile into a hand,
or, on an empty pile, leaves pile and players alone. -/
theorem ProcessMove_progress (game game1 : GameState) (m : Move) (reason : String)
    (hwon : game.HasBeenWon = false)
    (h : game.ProcessMove m = some (game1, true, reason)) :
    (game1.Pile = game.Pile ∧ game1.handCount < game.handCount) ∨
      (game1.Pile.length + 1 = game.Pile.length ∧ game1.handCount = game.handCount + 1) ∨
      (game.Pile = [] ∧ game1.Pile = [] ∧ game1.Players = game.Players) := by
  obtain ⟨htab, hcase⟩ := ProcessMove_accepted_cases game game1 m reason hwon h
  have hcons := congrArg Multiset.card (ProcessMove_conserves game game1 m true reason h).2
  simp only [Multiset.card_add, Multiset.coe_card, ← handCount_eq, htab] at hcons
  rcases hcase with ⟨hpile, hrem, hadd⟩ | ⟨hsame, hp⟩
  · left
    refine ⟨hpile, ?_⟩
    have hlt : Multiset.card game.tableTiles < Multiset.card m.tiles :=
      Multiset.card_lt_card (lt_of_le_not_le hrem hadd)
    rw [hpile] at hcons
    omega
  · rcases hp with ⟨h1, h2, h3⟩ | ⟨rest, b, h1, h2⟩
    · exact Or.inr (Or.inr ⟨h1, h2, h3⟩)
    · right
      left
      rw [h1, h2, hsame] at hcons
      rw [h1, h2]
      simp only [List.length_append, List.length_singleton] at hcons ⊢
      exact ⟨trivial, by omega⟩

/-- The recursion of `RunAITurns` after an accepted move. -/
theorem RunAITurns_of_accepted (solvers : Nat → Solver) (fuel : Nat) (game game1 : GameState)
    (player : Player) (move : Move) (reason : String)
    (hp : game.CurrentPlayer = some player) (hh : player.Human = false)
    (hm : player.MakeMove (solvers game.CurrentTurn.toNat) game.Table
      (game.valueConstraint player) = some move)
    (hpm : game.ProcessMove move = some (game1, true, reason)) :
    game.RunAITurns solvers (fuel + 1) = game1.RunAITurns solvers fuel := by
  rw [GameState.RunAITurns, hp]
  dsimp only
  unfold GameState.valueConstraint at hm
  rw [hh, hm]
  dsimp only
  have hn := MakeMove_name _ _ _ _ _ hm
  rw [hpm]
  simp [hn]

/-- C23 (amended): every turn of an AI player that `ProcessMove` accepts makes
progress except a forfeit on an empty pile. In a game that has not been won
and whose current player is an AI, when the move of `MakeMove` is accepted,
`RunAITurns` goes on with the state `ProcessMove` returns, and in that state
either the pile is the same and the hands hold fewer bricks, or the pile has
lost one brick to a hand, or the pile was empty and pile and players are
unchanged: the pair (bricks in the pile, bricks in the hands) decreases in the
lexicographic order unless the player forfeits on an empty pile. -/
theorem RunAITurns_progress (solvers : Nat → Solver) (fuel : Nat) (game game1 : GameState)
    (player : Player) (move : Move) (reason : String)
    (hp : game.CurrentPlayer = some player) (hh : player.Human = false)
    (hwon : game.HasBeenWon = false)
    (hm : player.MakeMove (solvers game.CurrentTurn.toNat) game.Table
      (game.valueConstraint player) = some move)
    (hpm : game.ProcessMove move = some (game1, true, reason)) :
    game.RunAITurns solvers (fuel + 1) = game1.RunAITurns solvers fuel ∧
      ((game1.Pile = game.Pile ∧ game1.handCount < game.handCount) ∨
        (game1.Pile.length + 1 = game.Pile.length ∧ game1.handCount = game.handCount + 1) ∨
        (game.Pile = [] ∧ game1.Pile = [] ∧ game1.Players = game.Players)) :=
  ⟨RunAITurns_of_accepted solvers fuel game game1 player move reason hp hh hm hpm,
    ProcessMove_progress game game1 move reason hwon hpm⟩
/-- The scenario of C23: in `aiGame` the AI player forfeits with the
`DummySolver` and draws the last brick of the pile. -/
theorem RunAITurns_progress_witness :
    aiGame.CurrentPlayer = some firstAI ∧ firstAI.Human = false ∧ aiGame.HasBeenWon = false ∧
      firstAI.MakeMove DummySolver aiGame.Table (aiGame.valueConstraint firstAI) =
        some (NewMove "A" []) ∧
      aiGame.ProcessMove (NewMove "A" []) = some (aiGameForfeited, true, FORFEITED) ∧
      aiGameForfeited.Pile.length + 1 = aiGame.Pile.length ∧
      aiGameForfeited.handCount = aiGame.handCount + 1 ∧
      aiGame.RunAITurns (fun _ => DummySolver) 2 =
        aiGameForfeited.RunAITurns (fun _ => DummySolver) 1 :=
  ⟨by decide, by decide, by decide, by decide, by decide, by decide, by decide,
    (RunAITurns_progress (fun _ => DummySolver) 1 aiGame aiGameForfeited firstAI
      (NewMove "A" []) FORFEITED (by decide) (by decide) (by decide) (by decide)
      (by decide)).1⟩

/-! ### A game that never ends -/

/-- The table is empty when every committed arrangement is empty. -/
theorem Table_of_empty_arrangements (game : GameState)
    (h : ∀ m ∈ game.MoveHistory, m.Arrangement = []) : game.Table = [] := by
  have hget : ∀ i, (game.MoveHistory.getD i ⟨[], ""⟩).Arrangement = [] := by
    intro i
    rw [List.getD_eq_getElem?_getD]
    cases hi : game.MoveHistory[i]? with
    | none => rfl
    | some m => exact h m (List.getElem?_mem hi)
  unfold GameState.Table
  dsimp only
  split_ifs
  · rfl
  · exact hget _
  · exact hget _

/-- With the hand of `stuckA` or of `stuckB` and an empty table, an assignment
that satisfies the problem chooses no combination. -/
theorem tinySolver_puts_nothing (player : Player) (hpl : player = stuckA ∨ player = stuckB)
    (maxValue : Bool) (soln : Nat → Int)
    (hf : (tinySolver.SolveProblem player.Hand [] maxValue).Feasible soln) :
    tinySolver.combinationsToPut soln = [] := by
  have hnd : (tinySolver.combinations.map BrickCombination.Hash).Nodup := by decide
  have x0 : 0 ≤ soln 0 :=
    (Feasible_combo_bounds tinySolver player.Hand [] maxValue soln hf 0 (by decide)).1
  have x1 : 0 ≤ soln 1 :=
    (Feasible_combo_bounds tinySolver player.Hand [] maxValue soln hf 1 (by decide)).1
  have x2 : 0 ≤ soln 2 :=
    (Feasible_combo_bounds tinySolver player.Hand [] maxValue soln hf 2 (by decide)).1
  have x3 : 0 ≤ soln 3 :=
    (Feasible_combo_bounds tinySolver player.Hand [] maxValue soln hf 3 (by decide)).1
  have hcon : ∀ con ∈ ([⟨[(-1, 4), (1, 0), (0, 1), (1, 2), (1, 3)], 0⟩,
      ⟨[(-1, 5), (1, 0), (1, 1), (0, 2), (1, 3)], 0⟩,
      ⟨[(-1, 6), (1, 0), (1, 1), (1, 2), (0, 3)], 0⟩,
      ⟨[(-1, 7), (0, 0), (1, 1), (1, 2), (1, 3)], 0⟩] : List ILPConstraint),
      (con.Terms.map fun t => t.1 * soln t.2).sum = con.EqualTo := hf.2
  have c1 := hcon _ (List.mem_cons_self _ _)
  have c2 := hcon _ (List.mem_cons_of_mem _ (List.mem_cons_self _ _))
  have c3 := hcon _ (List.mem_cons_of_mem _ (List.mem_cons_of_mem _ (List.mem_cons_self _ _)))
  have c4 := hcon _ (List.mem_cons_of_mem _ (List.mem_cons_of_mem _
    (List.mem_cons_of_mem _ (List.mem_cons_self _ _))))
  simp only [List.map_cons, List.map_nil, List.sum_cons, List.sum_nil] at c1 c2 c3 c4
  have hzero : soln 0 = 0 ∧ soln 1 = 0 ∧ soln 2 = 0 ∧ soln 3 = 0 := by
    rcases hpl with rfl | rfl
    · have y5 : soln 5 ≤ 0 := (Feasible_brick tinySolver stuckA.Hand [] maxValue soln hf hnd 1
        (by decide)).2.1
      have y7 : soln 7 ≤ 0 := (Feasible_brick tinySolver stuckA.Hand [] maxValue soln hf hnd 3
        (by decide)).2.1
      omega
    · have y4 : soln 4 ≤ 0 := (Feasible_brick tinySolver stuckB.Hand [] maxValue soln hf hnd 0
        (by decide)).2.1
      have y6 : soln 6 ≤ 0 := (Feasible_brick tinySolver stuckB.Hand [] maxValue soln hf hnd 2
        (by decide)).2.1
      omega
  obtain ⟨h0, h1, h2, h3⟩ := hzero
  have e : tinySolver.combinationsToPut soln =
      List.replicate (soln 0).toNat tinyCombinations[0] ++
        (List.replicate (soln 1).toNat tinyCombinations[1] ++
          (List.replicate (soln 2).toNat tinyCombinations[2] ++
            (List.replicate (soln 3).toNat tinyCombinations[3] ++ []))) := rfl
  rw [e, h0, h1, h2, h3]
  rfl

/-- One turn of the stuck game: the player forfeits, nothing but the move
history and the turn changes, and the recursion goes on. -/
theorem stuckState_turn (probSolve : ILPProblem → Option (Nat → Int))
    (hsound : ∀ p soln, probSolve p = some soln → p.Feasible soln)
    (hcomplete : ∀ p, (∃ soln, p.Feasible soln) → (probSolve p).isSome = true)
    (history : List Move) (turn next : Int) (player : Player)
    (hpl : player = stuckA ∨ player = stuckB)
    (hp : (stuckState history turn).CurrentPlayer = some player)
    (hcyc : ((stuckState history turn).commitMove (NewMove player.getName [])).cycleTurn =
      stuckState (history ++ [NewMove player.getName []]) next)
    (hempty : ∀ m ∈ history, m.Arrangement = []) (fuel : Nat) :
    (stuckState history turn).ProcessMove (NewMove player.getName []) =
        some (stuckState (history ++ [NewMove player.getName []]) next, true, FORFEITED) ∧
      (stuckState history turn).RunAITurns (fun _ => tinySolver.asSolver probSolve) (fuel + 1) =
        (stuckState (history ++ [NewMove player.getName []]) next).RunAITurns
          (fun _ => tinySolver.asSolver probSolve) fuel := by
  have ht : (stuckState history turn).Table = [] :=
    Table_of_empty_arrangements (stuckState history turn) hempty
  have hh : player.Human = false := by
    rcases hpl with rfl | rfl <;> rfl
  have hwon : (stuckState history turn).HasBeenWon = false := rfl
  have hl : (stuckState history turn).IsLegalMove (NewMove player.getName []) =
      some (true, FORFEITED) := by
    have h := IsLegalMove_current_table (stuckState history turn) player hp
    rw [ht] at h
    exact h
  have hpm : (stuckState history turn).ProcessMove (NewMove player.getName []) =
      some (stuckState (history ++ [NewMove player.getName []]) next, true, FORFEITED) := by
    rw [(ProcessMove_of_forfeited _ _ player hp hwon hl).1 rfl, hcyc]
  refine ⟨hpm, ?_⟩
  apply RunAITurns_of_accepted _ fuel _ _ player (NewMove player.getName []) FORFEITED hp hh _ hpm
  rw [ht]
  unfold Player.MakeMove
  dsimp only
  have hfeas : ∀ maxValue : Bool,
      (tinySolver.SolveProblem player.Hand [] maxValue).Feasible chooseNothing := by
    intro maxValue
    rcases hpl with rfl | rfl <;> cases maxValue <;> decide
  have hsolve : ∀ maxValue : Bool, ∃ bricks,
      tinySolver.asSolver probSolve player.Hand [] maxValue = some ([], bricks) := by
    intro maxValue
    obtain ⟨soln, hs⟩ := Option.isSome_iff_exists.mp
      (hcomplete _ ⟨chooseNothing, hfeas maxValue⟩)
    refine ⟨tinySolver.bricksToPut soln, ?_⟩
    unfold ILPSolver.asSolver ILPSolver.Solve
    rw [hs]
    dsimp only
    rw [tinySolver_puts_nothing player hpl maxValue soln (hsound _ _ hs)]
  obtain ⟨bricks, hb⟩ := hsolve
    (if (stuckState history turn).valueConstraint player > 0 then true else false)
  rw [hb]
  dsimp only
  split_ifs <;> rfl

/-- With an empty pile and no brick that can be put, `RunAITurns` does not
return from any state of the stuck game, however deep the recursion may go. -/
theorem stuckState_never_returns (probSolve : ILPProblem → Option (Nat → Int))
    (hsound : ∀ p soln, probSolve p = some soln → p.Feasible soln)
    (hcomplete : ∀ p, (∃ soln, p.Feasible soln) → (probSolve p).isSome = true) :
    ∀ (fuel : Nat) (history : List Move) (turn : Int), (turn = 0 ∨ turn = 1) →
      (∀ m ∈ history, m.Arrangement = []) →
      (stuckState history turn).RunAITurns (fun _ => tinySolver.asSolver probSolve) fuel =
        RunResult.outOfFuel := by
  intro fuel
  induction fuel with
  | zero =>
    intro history turn _ _
    rfl
  | succ fuel ih =>
    intro history turn hturn hempty
    have hnext : ∀ name : String, ∀ m ∈ history ++ [NewMove name []], m.Arrangement = [] := by
      intro name m hm
      rcases List.mem_append.mp hm with h | h
      · exact hempty m h
      · rw [List.mem_singleton] at h
        rw [h]
        rfl
    rcases hturn with rfl | rfl
    · rw [(stuckState_turn probSolve hsound hcomplete history 0 1 stuckA (Or.inl rfl) rfl rfl
        hempty fuel).2]
      exact ih _ 1 (Or.inr rfl) (hnext _)
    · rw [(stuckState_turn probSolve hsound hcomplete history 1 0 stuckB (Or.inr rfl) rfl rfl
        hempty fuel).2]
      exact ih _ 0 (Or.inl rfl) (hnext _)

/-- C23 (as stated) fails: in the game `stuckGame` of two AI players under
`tinyRules` the pile is empty and the bricks in the hands allow no
combination. With any external solver that returns an assignment satisfying
the problem whenever there is one, the player to move forfeits, `ProcessMove`
accepts the forfeit and changes neither the pile nor a hand, and `RunAITurns`
does not return within any depth of recursion. -/
theorem RunAITurns_never_returns :
    stuckGame.HasBeenWon = false ∧ (∀ p ∈ stuckGame.Players, p.Human = false) ∧
      stuckGame.Pile = [] ∧ NewILPSolver stuckGame.Rules = some tinySolver ∧
      ∀ probSolve : ILPProblem → Option (Nat → Int),
        (∀ p soln, probSolve p = some soln → p.Feasible soln) →
        (∀ p, (∃ soln, p.Feasible soln) → (probSolve p).isSome = true) →
        (∃ game1, stuckGame.ProcessMove (NewMove "A" []) = some (game1, true, FORFEITED) ∧
          game1.Pile = stuckGame.Pile ∧ game1.Players = stuckGame.Players ∧
          game1.handCount = stuckGame.handCount) ∧
        ∀ fuel : Nat,
          stuckGame.RunAITurns (fun _ => tinySolver.asSolver probSolve) fuel =
            RunResult.outOfFuel := by
  refine ⟨by decide, by decide, by decide, by decide, ?_⟩
  intro probSolve hsound hcomplete
  refine ⟨⟨_, (stuckState_turn probSolve hsound hcomplete [] 0 1 stuckA (Or.inl rfl) rfl rfl
    (by simp) 0).1, rfl, rfl, rfl⟩, ?_⟩
  intro fuel
  exact stuckState_never_returns probSolve hsound hcomplete fuel [] 0 (Or.inl rfl) (by simp)
/-! ### The search space of the default rules -/

theorem reversed_reversed (s : ILPSolver) : s.reversed.reversed = s := by
  unfold ILPSolver.reversed
  simp

theorem length_bucketInsert (buckets : List (List Nat)) :
    ∀ (i h : Nat), (bucketInsert buckets i h).length = buckets.length := by
  induction buckets with
  | nil => intro i h; rfl
  | cons b bs ih =>
    intro i h
    cases i with
    | zero => rfl
    | succ i => simp [bucketInsert, ih]

theorem getD_bucketInsert (buckets : List (List Nat)) :
    ∀ (i j h : Nat), i < buckets.length →
      (bucketInsert buckets i h).getD j [] =
        if j = i then h :: buckets.getD i [] else buckets.getD j [] := by
  induction buckets with
  | nil => intro i j h hi; simp at hi
  | cons b bs ih =>
    intro i j h hi
    cases i with
    | zero =>
      cases j with
      | zero => simp [bucketInsert]
      | succ j => simp [bucketInsert]
    | succ i =>
      cases j with
      | zero => simp [bucketInsert]
      | succ j =>
        have := ih i j h (by simpa using hi)
        simp only [bucketInsert, List.getD_cons_succ, this, Nat.succ_eq_add_one,
          Nat.add_right_cancel_iff]

/-- The fast loop computes what `addCombinations` computes, when the buckets
hold the hashes of the search space. -/
theorem addCombinationsFast_eq (n : Nat) (hn : 0 < n) (l : List BrickCombination) :
    ∀ (buckets : List (List Nat)) (s : ILPSolver), buckets.length = n →
      (∀ h, (buckets.getD (h % n) []).contains h = s.combinationHashes.contains h) →
      (addCombinationsFast n buckets s.reversed l).map ILPSolver.reversed =
        s.addCombinations l := by
  induction l with
  | nil =>
    intro buckets s _ _
    rw [addCombinationsFast, ILPSolver.addCombinations, Option.map_some', reversed_reversed]
  | cons combo rest ih =>
    intro buckets s hlen hinv
    rw [addCombinationsFast, ILPSolver.addCombinations]
    dsimp only
    rw [hinv combo.Hash]
    by_cases hk : s.combinationHashes.contains combo.Hash = true
    · rw [if_pos hk, if_pos hk]
      exact ih buckets s hlen hinv
    · rw [if_neg hk, if_neg hk]
      have hlen1 : (bucketInsert buckets (combo.Hash % n) combo.Hash).length = n := by
        rw [length_bucketInsert, hlen]
      have hinv1 : ∀ h, ((bucketInsert buckets (combo.Hash % n) combo.Hash).getD (h % n)
          []).contains h = (s.combinationHashes ++ [combo.Hash]).contains h := by
        intro h
        rw [getD_bucketInsert buckets _ _ _ (by rw [hlen]; exact Nat.mod_lt _ hn)]
        by_cases hm : h % n = combo.Hash % n
        · rw [if_pos hm, ← hm, List.contains_cons, hinv h, Bool.eq_iff_iff]
          simp [or_comm]
        · rw [if_neg hm, hinv h]
          have hne : ¬ h = combo.Hash := fun e => hm (by rw [e])
          simp [hne]
      by_cases hr : combo.IsValidRun.1 = true
      · rw [if_pos hr, if_pos hr]
        have e := ih _ ({ s with
            combinations := s.combinations ++ [combo]
            combinationHashes := s.combinationHashes ++ [combo.Hash]
            totalRuns := s.totalRuns + 1
            runSizes := mapIncr s.runSizes combo.getBricks.length } : ILPSolver) hlen1 hinv1
        rw [← e]
        unfold ILPSolver.reversed
        simp
      · rw [if_neg hr, if_neg hr]
        by_cases hg : combo.IsValidGroup.1 = true
        · rw [if_pos hg, if_pos hg]
          have e := ih _ ({ s with
              combinations := s.combinations ++ [combo]
              combinationHashes := s.combinationHashes ++ [combo.Hash]
              totalGroups := s.totalGroups + 1
              groupSizes := mapIncr s.groupSizes combo.getBricks.length } : ILPSolver) hlen1 hinv1
          rw [← e]
          unfold ILPSolver.reversed
          simp
        · rw [if_neg hg, if_neg hg]
          rfl

/-- Two calls of `addCombinations` in a row are one call on the joined lists. -/
theorem addCombinations_append (l1 l2 : List BrickCombination) :
    ∀ s : ILPSolver,
      ((s.addCombinations l1).bind fun s1 => s1.addCombinations l2) =
        s.addCombinations (l1 ++ l2) := by
  induction l1 with
  | nil =>
    intro s
    rw [ILPSolver.addCombinations, Option.some_bind, List.nil_append]
  | cons combo rest ih =>
    intro s
    rw [List.cons_append, ILPSolver.addCombinations, ILPSolver.addCombinations]
    dsimp only
    split_ifs
    · exact ih _
    · exact ih _
    · exact ih _
    · rfl

/-- The search space of `NewILPSolver` through the fast loop. -/
theorem NewILPSolver_eq_fast (gameRules : Rules) (n : Nat) (hn : 0 < n) :
    NewILPSolver gameRules =
      (addCombinationsFast n (List.replicate n []) (emptySpace gameRules)
        (searchSpaceInput gameRules)).map ILPSolver.reversed := by
  have h := addCombinationsFast_eq n hn (searchSpaceInput gameRules) (List.replicate n [])
    (emptySpace gameRules) (List.length_replicate _ _) (by
      intro h
      rw [List.getD_eq_getElem?_getD, List.getElem?_replicate]
      split_ifs <;> rfl)
  have hrev : (emptySpace gameRules).reversed = emptySpace gameRules := rfl
  rw [hrev] at h
  rw [h]
  unfold NewILPSolver searchSpaceInput
  dsimp only
  rw [addCombinations_append, addCombinations_append, addCombinations_append]
  simp only [List.append_assoc]
  rfl

/-- `NewILPSolver` is one call of `addCombinations` on the joined lists. -/
theorem NewILPSolver_eq_addCombinations (gameRules : Rules) :
    NewILPSolver gameRules = (emptySpace gameRules).addCombinations (searchSpaceInput gameRules) := by
  unfold NewILPSolver searchSpaceInput
  dsimp only
  rw [addCombinations_append, addCombinations_append, addCombinations_append]
  simp only [List.append_assoc]
  rfl

/-- The hashes of the search space of `NewILPSolver` are the hashes of its
combinations. -/
theorem NewILPSolver_hashes (gameRules : Rules) (s : ILPSolver)
    (hs : NewILPSolver gameRules = some s) :
    s.combinationHashes = s.combinations.map BrickCombination.Hash := by
  rw [NewILPSolver_eq_addCombinations] at hs
  exact (addCombinations_spec _ _ _ hs rfl List.nodup_nil).1

/-- `Contains` asks for a combination of the search space with the same
hash. -/
theorem Contains_iff (gameRules : Rules) (s : ILPSolver) (hs : NewILPSolver gameRules = some s)
    (c : BrickCombination) :
    s.Contains c = true ↔ ∃ c1 ∈ s.combinations, c1.Hash = c.Hash := by
  unfold ILPSolver.Contains
  rw [NewILPSolver_hashes gameRules s hs]
  simp

set_option maxRecDepth 1000000 in
/-- The search space of the default rules, evaluated: its tallies, the
legality of its combinations, and four look-ups. -/
theorem defaultSpace_facts :
    ∃ s, NewILPSolver NewDefaultRules = some s ∧
      s.groupSizes = [(4, 65), (3, 130)] ∧ s.runSizes = [(3, 136), (4, 164), (5, 184)] ∧
      s.totalGroups = 195 ∧ s.totalRuns = 484 ∧ s.combinations.length = 679 ∧
      (∀ c ∈ s.combinations,
        NewDefaultRules.IsLegalCombination c = (true, LEGAL_COMBINATION)) ∧
      s.Contains yellowRun = true ∧ s.Contains mixedCombo = false ∧
      s.Contains sixRun = false ∧ s.Contains paddedRun = true := by
  have h : ((addCombinationsFast 128 (List.replicate 128 []) (emptySpace NewDefaultRules)
      (searchSpaceInput NewDefaultRules)).map ILPSolver.reversed).any (fun s =>
        decide (s.groupSizes = [(4, 65), (3, 130)]) &&
        (decide (s.runSizes = [(3, 136), (4, 164), (5, 184)]) &&
        (decide (s.totalGroups = 195) && (decide (s.totalRuns = 484) &&
        (decide (s.combinations.length = 679) &&
        ((s.combinations.all fun c =>
          decide (NewDefaultRules.IsLegalCombination c = (true, LEGAL_COMBINATION))) &&
        (s.Contains yellowRun && (!s.Contains mixedCombo &&
        (!s.Contains sixRun && s.Contains paddedRun))))))))) = true := by
    decide!
  rw [NewILPSolver_eq_fast NewDefaultRules 128 (by decide)]
  cases hfast : (addCombinationsFast 128 (List.replicate 128 []) (emptySpace NewDefaultRules)
      (searchSpaceInput NewDefaultRules)).map ILPSolver.reversed with
  | none =>
    rw [hfast] at h
    simp at h
  | some s =>
    rw [hfast] at h
    simp only [Option.any_some, Bool.and_eq_true, decide_eq_true_eq, List.all_eq_true,
      Bool.not_eq_true'] at h
    obtain ⟨h1, h2, h3, h4, h5, h6, h7, h8, h9, h10⟩ := h
    exact ⟨s, rfl, h1, h2, h3, h4, h5, h6, h7, h8, h9, h10⟩

/-- C26: for the default rules the search space of `NewILPSolver` tallies 65
groups of size 4 and 130 of size 3, 136 runs of size 3, 164 of size 4 and 184
of size 5, and nothing else: the two maps `groupSizes` and `runSizes`, as
lists of size and count in the order of first insertion, have exactly these
entries, and the totals are 195 groups and 484 runs. -/
theorem NewILPSolver_default_sizes :
    ∃ s, NewILPSolver NewDefaultRules = some s ∧
      s.groupSizes = [(4, 65), (3, 130)] ∧ s.runSizes = [(3, 136), (4, 164), (5, 184)] ∧
      s.totalGroups = 195 ∧ s.totalRuns = 484 := by
  obtain ⟨s, hs, h1, h2, h3, h4, _⟩ := defaultSpace_facts
  exact ⟨s, hs, h1, h2, h3, h4⟩

/-- C28 (amended): for the default rules, `Contains(c)` is true exactly when a
combination of the search space has the hash of `c`; every combination of the
search space is legal under the rules and contained; yellow 2, 3, 4 is
contained and green 2, yellow 3, yellow 4 is not. -/
theorem Contains_default :
    ∃ s, NewILPSolver NewDefaultRules = some s ∧
      (∀ c, s.Contains c = true ↔ ∃ c1 ∈ s.combinations, c1.Hash = c.Hash) ∧
      (∀ c ∈ s.combinations,
        NewDefaultRules.IsLegalCombination c = (true, LEGAL_COMBINATION) ∧
          s.Contains c = true) ∧
      s.Contains yellowRun = true ∧ s.Contains mixedCombo = false := by
  obtain ⟨s, hs, _, _, _, _, _, hlegal, h1, h2, _⟩ := defaultSpace_facts
  refine ⟨s, hs, Contains_iff NewDefaultRules s hs, ?_, h1, h2⟩
  intro c hc
  exact ⟨hlegal c hc, (Contains_iff NewDefaultRules s hs c).mpr ⟨c, hc, rfl⟩⟩

/-- C28 (as stated) fails in both directions: under the default rules the run
red 1 to red 6 is legal and not contained, for the runs of the search space
have 3, 4 or 5 bricks; and yellow 2, 3, 4 followed by red 1 twice is contained,
for the two hashes of red 1 cancel, although it is not legal. -/
theorem Contains_not_iff_legal :
    ∃ s, NewILPSolver NewDefaultRules = some s ∧
      NewDefaultRules.IsLegalCombination sixRun = (true, LEGAL_COMBINATION) ∧
      s.Contains sixRun = false ∧
      NewDefaultRules.IsLegalCombination paddedRun = (false, ILLEGAL_COMBINATION) ∧
      s.Contains paddedRun = true := by
  obtain ⟨s, hs, _, _, _, _, _, _, _, _, h3, h4⟩ := defaultSpace_facts
  exact ⟨s, hs, by decide, h3, by decide, h4⟩

/-- C27 at a failing input: the rules `noJokerRules` allow no joker in a
combination, yet `saltWithJokers` salts one level deep (the group red 1,
green 1, blue 1 comes back with its three copies that hold a joker), the
search space of `NewILPSolver` holds the group joker, green 1, blue 1, and
`IsLegalCombination` rejects that group for its joker. -/
theorem NewILPSolver_stores_illegal :
    noJokerRules.JokersPerCombination = 0 ∧
      NewILPSolver noJokerRules = some noJokerSolver ∧
      saltWithJokers tableOfThree noJokerRules.JokersPerCombination = tinyCombinations ∧
      (⟨[MakeJoker, ⟨1, "green"⟩, ⟨1, "blue"⟩]⟩ : BrickCombination) ∈
        noJokerSolver.combinations ∧
      noJokerRules.IsLegalCombination ⟨[MakeJoker, ⟨1, "green"⟩, ⟨1, "blue"⟩]⟩ =
        (false, TOO_MANY_JOKERS_IN_COMBINATION) := by
  refine ⟨by decide, by decide, by decide, by decide, by decide⟩
/-! ### `BrickSliceDiff` as a multiset difference -/

/-- C31: a brick occurs in `BrickSliceDiff(a, b)` as often as it occurs more
often in `b` than in `a`, that is `max(0, count(x, b) - count(x, a))` times;
the result is empty exactly when `b` is a sub-multiset of `a`; and its length
is `len(b) - len(a)` when `a` is a sub-multiset of `b`. -/
theorem BrickSliceDiff_spec (a b : List Brick) :
    (∀ x : Brick,
      ((BrickSliceDiff a b).count x : Int) = max 0 ((b.count x : Int) - (a.count x : Int))) ∧
    (BrickSliceDiff a b = [] ↔ (↑b : Multiset Brick) ≤ ↑a) ∧
    ((↑a : Multiset Brick) ≤ ↑b →
      ((BrickSliceDiff a b).length : Int) = (b.length : Int) - (a.length : Int)) := by
  refine ⟨?_, ?_, ?_⟩
  · intro x
    rw [count_BrickSliceDiff]
    omega
  · rw [← List.length_eq_zero, BrickSliceDiff_length_eq_zero]
  · intro hle
    have h1 : (BrickSliceDiff a b).length =
        Multiset.card ((↑b : Multiset Brick) - (↑a : Multiset Brick)) := by
      rw [← coe_BrickSliceDiff, Multiset.coe_card]
    have h2 := Multiset.card_le_card hle
    rw [h1, Multiset.card_sub hle, Multiset.coe_card, Multiset.coe_card]
    rw [Multiset.coe_card, Multiset.coe_card] at h2
    omega

/-- The scenario of C31 (`Test_BrickSliceUtils`): the nine bricks of `sliceB`
are a sub-multiset of the twelve of `sliceA`, and the difference has three
bricks. -/
theorem BrickSliceDiff_spec_witness :
    (↑sliceB : Multiset Brick) ≤ ↑sliceA ∧
      ((BrickSliceDiff sliceB sliceA).length : Int) = (sliceA.length : Int) - (sliceB.length : Int) ∧
      (BrickSliceDiff sliceB sliceA).length = 3 ∧ BrickSliceDiff sliceA sliceB = [] :=
  ⟨by decide, (BrickSliceDiff_spec sliceB sliceA).2.2 (by decide), by decide, by decide⟩

/-! ### The histories of moves and hands -/

theorem sum_map_updatePlayer_nat (g : Player → Nat) (f : Player → Player)
    (l : List Player) (i : Nat) (p : Player) (h : l[i]? = some p) :
    ((updatePlayer f l i).map g).sum + g p = (l.map g).sum + g (f p) := by
  induction l generalizing i with
  | nil => simp at h
  | cons q ps ih =>
    cases i with
    | zero =>
      simp only [List.getElem?_cons_zero, Option.some.injEq] at h
      subst h
      simp only [updatePlayer, List.map_cons, List.sum_cons]
      omega
    | succ i =>
      simp only [List.getElem?_cons_succ] at h
      have := ih i h
      simp only [updatePlayer, List.map_cons, List.sum_cons]
      omega

/-- A new hand for the current player is one more snapshot. -/
theorem snapshots_setCurrentHand (game : GameState) (player : Player) (hand : List Brick)
    (hp : game.CurrentPlayer = some player) :
    (game.setCurrentHand hand).snapshots = game.snapshots + 1 := by
  have hidx : game.Players[game.CurrentTurn.toNat]? = some player := by
    unfold GameState.CurrentPlayer at hp
    split_ifs at hp
    exact hp
  have h := sum_map_updatePlayer_nat (fun p => p.HandHistory.length) (fun p => p.SetHand hand)
    game.Players game.CurrentTurn.toNat player hidx
  simp only [Player.SetHand, List.length_append, List.length_singleton] at h
  unfold GameState.snapshots GameState.setCurrentHand
  dsimp only
  simp only [Player.SetHand]
  omega

theorem snapshots_cycleTurn (game : GameState) : game.cycleTurn.snapshots = game.snapshots := by
  unfold GameState.snapshots
  rw [Players_cycleTurn]

/-- What one call of `ProcessMove` does to the move history, the hand
snapshots and the pile: an accepted move is appended to the history and adds
one snapshot, except that a forfeit on an empty pile adds none; a move that is
not accepted changes neither; and an empty pile stays empty. -/
theorem ProcessMove_histories (game game1 : GameState) (m : Move) (accepted : Bool)
    (reason : String) (h : game.ProcessMove m = some (game1, accepted, reason)) :
    game1.Players.length = game.Players.length ∧ (game.Pile = [] → game1.Pile = []) ∧
      (accepted = true →
        game1.MoveHistory = game.MoveHistory ++ [m] ∧
          (game1.snapshots = game.snapshots + 1 ∨
            (game.Pile = [] ∧ reason = FORFEITED ∧ game1.snapshots = game.snapshots))) ∧
      (accepted = false →
        game1.MoveHistory = game.MoveHistory ∧ game1.snapshots = game.snapshots) := by
  unfold GameState.ProcessMove at h
  cases hl : game.IsLegalMove m with
  | none => rw [hl] at h; simp at h
  | some r =>
    obtain ⟨player, hp⟩ := CurrentPlayer_of_IsLegalMove game m _ hl
    rw [hl, hp] at h
    dsimp only at h
    by_cases hwon : game.HasBeenWon = true
    · simp only [hwon, if_true, Option.some.injEq, Prod.mk.injEq] at h
      obtain ⟨e1, e2, _⟩ := h
      subst e1
      subst e2
      exact ⟨rfl, fun hpile => hpile, fun hacc => absurd hacc (by decide), fun _ => ⟨rfl, rfl⟩⟩
    · simp only [hwon, Bool.false_eq_true, if_false] at h
      by_cases hr1 : r.2 = LEGAL_MOVE
      · simp only [hr1, if_true] at h
        have hsnap := snapshots_setCurrentHand game player
          (BrickSliceDiff (BrickSliceDiff (DissolveCombinations game.Table) m.Bricks)
            player.Hand) hp
        have hlen : (game.setCurrentHand
            (BrickSliceDiff (BrickSliceDiff (DissolveCombinations game.Table) m.Bricks)
              player.Hand)).Players.length = game.Players.length := updatePlayer_length _ _ _
        split_ifs at h
        · simp only [Option.some.injEq, Prod.mk.injEq] at h
          obtain ⟨e1, e2, _⟩ := h
          subst e1
          subst e2
          exact ⟨hlen, fun hpile => hpile, fun _ => ⟨rfl, Or.inl hsnap⟩,
            fun hacc => absurd hacc (by decide)⟩
        · simp only [Option.some.injEq, Prod.mk.injEq] at h
          obtain ⟨e1, e2, _⟩ := h
          subst e1
          subst e2
          refine ⟨?_, ?_, fun _ => ⟨?_, Or.inl ?_⟩, fun hacc => absurd hacc (by decide)⟩
          · rw [Players_cycleTurn]
            exact hlen
          · intro hpile
            rw [Pile_cycleTurn]
            exact hpile
          · rw [MoveHistory_cycleTurn]
            rfl
          · rw [snapshots_cycleTurn]
            exact hsnap
      · simp only [hr1, if_false] at h
        by_cases hr2 : r.2 = FORFEITED
        · simp only [hr2, if_true] at h
          rcases List.eq_nil_or_concat game.Pile with hpile | ⟨rest, b, hpile⟩
          · rw [popFromPile_nil (game.commitMove m) hpile] at h
            simp only [Option.some.injEq, Prod.mk.injEq] at h
            obtain ⟨e1, e2, e3⟩ := h
            subst e1
            subst e2
            refine ⟨?_, ?_, fun _ => ⟨?_, Or.inr ⟨hpile, e3.symm, ?_⟩⟩,
              fun hacc => absurd hacc (by decide)⟩
            · rw [Players_cycleTurn]
              rfl
            · intro _
              rw [Pile_cycleTurn]
              exact hpile
            · rw [MoveHistory_cycleTurn]
              rfl
            · rw [snapshots_cycleTurn]
              rfl
          · rw [List.concat_eq_append] at hpile
            rw [popFromPile_append (game.commitMove m) rest b hpile] at h
            simp only [Option.some.injEq, Prod.mk.injEq] at h
            obtain ⟨e1, e2, _⟩ := h
            subst e1
            subst e2
            have hsnap := snapshots_setCurrentHand
              ({ game.commitMove m with Pile := rest } : GameState) player (player.Hand ++ [b]) hp
            refine ⟨?_, ?_, fun _ => ⟨?_, Or.inl ?_⟩, fun hacc => absurd hacc (by decide)⟩
            · rw [Players_cycleTurn]
              exact updatePlayer_length _ _ _
            · intro hnil
              rw [hpile] at hnil
              simp at hnil
            · rw [MoveHistory_cycleTurn]
              rfl
            · rw [snapshots_cycleTurn]
              exact hsnap
        · simp only [hr2, if_false, Option.some.injEq, Prod.mk.injEq] at h
          obtain ⟨e1, e2, _⟩ := h
          subst e1
          subst e2
          refine ⟨?_, ?_, fun hacc => absurd hacc (by decide), fun _ => ⟨?_, ?_⟩⟩
          · rw [Players_cycleTurn]
          · intro hpile
            rw [Pile_cycleTurn]
            exact hpile
          · rw [MoveHistory_cycleTurn]
          · rw [snapshots_cycleTurn]

/-! ### First moves -/

/-- Once a move of the history carries the name of the player, the tail of
`IsLegalMove` does not answer `VALUE_INSUFFICIENT`. -/
theorem combinationVerdict_not_insufficient (game : GameState) (move : Move) (player : Player)
    (hany : (game.MoveHistory.any fun m => m.PlayerName == player.getName) = true)
    (hbound : ((move.tiles - game.tableTiles).map Brick.Value).sum < 9223372036854775808)
    (r : Bool × String) (h : game.combinationVerdict move player = some r) :
    r.2 ≠ VALUE_INSUFFICIENT := by
  unfold GameState.combinationVerdict at h
  cases hf : firstIllegalCombination game.Rules move.Arrangement with
  | some why =>
    rw [hf] at h
    simp only [Option.some.injEq] at h
    rw [← h]
    rcases firstIllegalCombination_reason _ _ _ hf with e | e | e | e <;> (rw [e]; decide)
  | none =>
    rw [hf] at h
    have hall := (firstIllegalCombination_eq_none _ _).mp hf
    have hpos : 0 ≤ cumulativeBrickValue
        (BrickSliceDiff (DissolveCombinations game.Table) move.Bricks) := by
      obtain ⟨hsum, h0⟩ := cumulativeBrickValue_new game move hall hbound
      rw [hsum]
      exact h0
    simp only [hany, if_true] at h
    rw [if_neg (by omega)] at h
    simp only [Option.some.injEq] at h
    rw [← h]
    decide

/-- C39 (amended): in a game state whose move history holds a move with the
name of the current player, `IsLegalMove` never gives the reason
`VALUE_INSUFFICIENT` for a move whose new bricks have a summed value below
`2^63`; `IsFirstMove(name)` is true exactly when no move of the history
carries the name; and after any accepted move, a forfeit included,
`IsFirstMove` is false for the name of the move. -/
theorem IsLegalMove_after_first_move (game : GameState) (player : Player)
    (hp : game.CurrentPlayer = some player)
    (hhist : ∃ m ∈ game.MoveHistory, m.PlayerName = player.getName) :
    (∀ (move : Move) (r : Bool × String),
      ((move.tiles - game.tableTiles).map Brick.Value).sum < 9223372036854775808 →
      game.IsLegalMove move = some r → r.2 ≠ VALUE_INSUFFICIENT) ∧
    (∀ name : String,
      game.IsFirstMove name = true ↔ ∀ m ∈ game.MoveHistory, m.PlayerName ≠ name) ∧
    (∀ (move : Move) (game1 : GameState) (reason : String),
      game.ProcessMove move = some (game1, true, reason) →
      game1.IsFirstMove move.PlayerName = false) := by
  have hany : (game.MoveHistory.any fun m => m.PlayerName == player.getName) = true := by
    rw [List.any_eq_true]
    obtain ⟨m, hm, hmn⟩ := hhist
    exact ⟨m, hm, by simpa using hmn⟩
  refine ⟨?_, ?_, ?_⟩
  · intro move r hbound h
    rw [IsLegalMove_eq game move player hp] at h
    split_ifs at h
    all_goals first
      | (cases h; decide)
      | exact combinationVerdict_not_insufficient game move player hany hbound r h
  · intro name
    unfold GameState.IsFirstMove
    simp
  · intro move game1 reason h
    have hh := ((ProcessMove_histories game game1 move true reason h).2.2.1 rfl).1
    unfold GameState.IsFirstMove
    rw [hh]
    simp

/-- The scenario of C39: after a forfeit of each player, the first player of
the two-player game puts the three ones, worth 3 < 14, and the move is
`LEGAL_MOVE`. -/
theorem IsLegalMove_after_first_move_witness :
    secondRoundGame.CurrentPlayer = some testPlayerA ∧
      (∃ m ∈ secondRoundGame.MoveHistory, m.PlayerName = testPlayerA.getName) ∧
      secondRoundGame.IsFirstMove "testplayerA" = false ∧
      ((onesMove.tiles - secondRoundGame.tableTiles).map Brick.Value).sum = 3 ∧
      secondRoundGame.IsLegalMove onesMove = some (true, LEGAL_MOVE) ∧
      (true, LEGAL_MOVE).2 ≠ VALUE_INSUFFICIENT :=
  ⟨by decide, ⟨NewMove "testplayerA" [], by decide, by decide⟩, by decide, by decide,
    by decide,
    (IsLegalMove_after_first_move secondRoundGame testPlayerA (by decide)
      ⟨NewMove "testplayerA" [], by decide, by decide⟩).1 onesMove (true, LEGAL_MOVE)
      (by decide) (by decide)⟩

/-- C39, as the claim states it, fails when the sum overflows: under the
default rules with values up to `2^62` the player has forfeited before, so a
move of the history carries its name and `IsFirstMove` is false. It now puts
the legal group of the red, green and blue brick of value `2^62` from its
hand; the sum of Go's `int` wraps to `-2^62`, below the threshold 0, and
`IsLegalMove` answers `VALUE_INSUFFICIENT`. -/
theorem IsLegalMove_insufficient_after_forfeit :
    (hugeGame [NewMove "A" []]).CurrentPlayer = some hugePlayer ∧
      (∃ m ∈ (hugeGame [NewMove "A" []]).MoveHistory, m.PlayerName = hugePlayer.getName) ∧
      (hugeGame [NewMove "A" []]).IsFirstMove "A" = false ∧
      hugeMove.PlayerName = hugePlayer.getName ∧
      (∀ x ∈ hugeMove.Arrangement,
        (hugeGame [NewMove "A" []]).Rules.IsLegalCombination x = (true, LEGAL_COMBINATION)) ∧
      (↑hugeMove.Bricks : Multiset Brick) ≤ ↑hugePlayer.Hand ∧
      ((hugeMove.tiles - (hugeGame [NewMove "A" []]).tableTiles).map Brick.Value).sum =
        13835058055282163712 ∧
      cumulativeBrickValue
          (BrickSliceDiff (DissolveCombinations (hugeGame [NewMove "A" []]).Table)
            hugeMove.Bricks) = -4611686018427387904 ∧
      (hugeGame [NewMove "A" []]).IsLegalMove hugeMove = some (false, VALUE_INSUFFICIENT) := by
  refine ⟨by decide, ⟨NewMove "A" [], by decide, by decide⟩, by decide, by decide, by decide,
    by decide, by decide, by decide, by decide⟩

/-- Dealing gives every player of the index list one snapshot. -/
theorem dealHands_snapshots (handSize : Int) :
    ∀ (idxs : List Nat) (game game1 : GameState),
      dealHands handSize idxs game = some game1 → (∀ i ∈ idxs, i < game.Players.length) →
      game1.snapshots = game.snapshots + idxs.length ∧
        game1.Players.length = game.Players.length ∧ game1.MoveHistory = game.MoveHistory := by
  intro idxs
  induction idxs with
  | nil =>
    intro game game1 h _
    simp only [dealHands, Option.some.injEq] at h
    rw [← h]
    exact ⟨rfl, rfl, rfl⟩
  | cons i rest ih =>
    intro game game1 h hlt
    rw [dealHands] at h
    cases hd : drawHand handSize.toNat game [] with
    | none => rw [hd] at h; simp at h
    | some r =>
      obtain ⟨game2, tmp⟩ := r
      rw [hd] at h
      dsimp only at h
      obtain ⟨_, d2, d3, _⟩ := drawHand_spec _ _ _ _ _ hd
      have hi : i < game2.Players.length := by
        rw [d2]; exact hlt i (List.mem_cons_self _ _)
      have hlt2 : ∀ j ∈ rest,
          j < (updatePlayer (fun p => p.SetHand tmp) game2.Players i).length := by
        intro j hj
        rw [updatePlayer_length, d2]
        exact hlt j (List.mem_cons_of_mem _ hj)
      obtain ⟨e1, e2, e3⟩ := ih _ _ h hlt2
      have hs := sum_map_updatePlayer_nat (fun p => p.HandHistory.length)
        (fun p => p.SetHand tmp) game2.Players i game2.Players[i]
        (List.getElem?_eq_getElem hi)
      simp only [Player.SetHand, List.length_append, List.length_singleton] at hs
      refine ⟨?_, ?_, e3.trans d3⟩
      · rw [e1, List.length_cons]
        unfold GameState.snapshots
        dsimp only
        simp only [Player.SetHand]
        rw [← d2]
        omega
      · rw [e2]
        dsimp only
        rw [updatePlayer_length, d2]

/-- The game `NewGame` deals to fresh players has one snapshot for each player
and an empty move history. -/
theorem NewGame_snapshots (rules : Rules) (seed : Int) (perm : List Nat) (ps : List Player)
    (start : GameState) (hfresh : ∀ p ∈ ps, p.HandHistory = [])
    (hnew : NewGame rules seed perm ps = some start) :
    start.snapshots = start.Players.length ∧ start.MoveHistory = [] := by
  unfold NewGame at hnew
  dsimp only at hnew
  obtain ⟨e1, e2, e3⟩ := dealHands_snapshots _ _ _ _ hnew
    (fun i hi => List.mem_range.mp hi)
  refine ⟨?_, e3⟩
  rw [e1, e2, List.length_range]
  have h0 : ∀ l : List Player, (∀ p ∈ l, p.HandHistory = []) →
      (l.map fun p => p.HandHistory.length).sum = 0 := by
    intro l
    induction l with
    | nil => intro _; rfl
    | cons p l ih =>
      intro h
      rw [List.map_cons, List.sum_cons, ih fun q hq => h q (List.mem_cons_of_mem _ hq),
        h p (List.mem_cons_self _ _)]
      rfl
  show (ps.map fun p => p.HandHistory.length).sum + ps.length = ps.length
  rw [h0 ps hfresh, zero_add]

/-- C33, as the claim states it, fails: `NewGame` under `smallRules` deals all
four bricks to two fresh players, the forfeit of the first player is accepted
on the empty pile, and the state after it has two hand snapshots for one move
and two players. -/
theorem snapshots_not_in_step :
    (∀ p ∈ [NewHumanPlayer "A", NewHumanPlayer "B"], p.HandHistory = []) ∧
      NewGame smallRules 7 smallPerm [NewHumanPlayer "A", NewHumanPlayer "B"] =
        some fullDealGame ∧
      fullDealGame.ProcessMove (NewMove "A" []) =
        some (fullDealGameAfterForfeit, true, FORFEITED) ∧
      Reachable fullDealGame fullDealGameAfterForfeit ∧
      fullDealGameAfterForfeit.snapshots = 2 ∧
      fullDealGameAfterForfeit.MoveHistory.length = 1 ∧
      fullDealGameAfterForfeit.Players.length = 2 ∧
      fullDealGameAfterForfeit.snapshots ≠
        fullDealGameAfterForfeit.MoveHistory.length + fullDealGameAfterForfeit.Players.length := by
  have hstep : fullDealGame.ProcessMove (NewMove "A" []) =
      some (fullDealGameAfterForfeit, true, FORFEITED) := by decide
  exact ⟨by decide, by decide, hstep, Reachable.step _ _ _ _ _ Reachable.start hstep,
    by decide, by decide, by decide, by decide⟩

/-- C33 (amended): in every state reachable from a `NewGame` of fresh players
by calls of `ProcessMove`, the number of hand snapshots over all players is at
most `len(MoveHistory) + len(Players)`, and equal to it while the pile is not
empty; and every accepted move appends exactly one hand snapshot, unless it is
a forfeit on an empty pile. -/
theorem snapshots_in_step (rules : Rules) (seed : Int) (perm : List Nat) (ps : List Player)
    (start game : GameState) (hfresh : ∀ p ∈ ps, p.HandHistory = [])
    (hnew : NewGame rules seed perm ps = some start) (hreach : Reachable start game) :
    game.snapshots ≤ game.MoveHistory.length + game.Players.length ∧
      (game.Pile ≠ [] → game.snapshots = game.MoveHistory.length + game.Players.length) ∧
      (∀ (m : Move) (game1 : GameState) (reason : String),
        game.ProcessMove m = some (game1, true, reason) →
        game.Pile ≠ [] ∨ reason ≠ FORFEITED →
        game1.MoveHistory.length = game.MoveHistory.length + 1 ∧
          game1.snapshots = game.snapshots + 1) := by
  have hinv : game.snapshots ≤ game.MoveHistory.length + game.Players.length ∧
      (game.Pile ≠ [] → game.snapshots = game.MoveHistory.length + game.Players.length) := by
    induction hreach with
    | start =>
      obtain ⟨h1, h2⟩ := NewGame_snapshots rules seed perm ps start hfresh hnew
      rw [h1, h2]
      exact ⟨by simp, fun _ => by simp⟩
    | step g g1 m accepted reason _ hstep ih =>
      obtain ⟨p1, p2, p3, p4⟩ := ProcessMove_histories g g1 m accepted reason hstep
      cases accepted with
      | true =>
        obtain ⟨q1, q2⟩ := p3 rfl
        rw [q1, List.length_append, List.length_singleton, p1]
        constructor
        · rcases q2 with q | ⟨_, _, q⟩ <;> omega
        · intro hne
          have hg : g.Pile ≠ [] := fun e => hne (p2 e)
          have := ih.2 hg
          rcases q2 with q | ⟨q0, _, _⟩
          · omega
          · exact absurd q0 hg
      | false =>
        obtain ⟨q1, q2⟩ := p4 rfl
        rw [q1, q2, p1]
        exact ⟨ih.1, fun hne => ih.2 fun e => hne (p2 e)⟩
  refine ⟨hinv.1, hinv.2, ?_⟩
  intro m game1 reason h hor
  obtain ⟨q1, q2⟩ := (ProcessMove_histories game game1 m true reason h).2.2.1 rfl
  refine ⟨by rw [q1, List.length_append, List.length_singleton], ?_⟩
  rcases q2 with q | ⟨q0, q3, _⟩
  · exact q
  · rcases hor with e | e
    · exact absurd q0 e
    · exact absurd q3 e

/-- The scenario of C33 (amended): the game of `smallRules` with one player,
whose pile holds two bricks after the deal; one snapshot, no move, one player;
the forfeit draws the joker and gives one move and two snapshots. -/
theorem snapshots_in_step_witness :
    (∀ p ∈ [NewHumanPlayer "A"], p.HandHistory = []) ∧
      NewGame smallRules 7 smallPerm [NewHumanPlayer "A"] = some smallGame ∧
      Reachable smallGame smallGame ∧ smallGame.Pile ≠ [] ∧
      smallGame.snapshots = smallGame.MoveHistory.length + smallGame.Players.length ∧
      smallGame.ProcessMove (NewMove "A" []) = some (smallGameAfterForfeit, true, FORFEITED) ∧
      smallGameAfterForfeit.snapshots = smallGame.snapshots + 1 :=
  ⟨by decide, by decide, Reachable.start, by decide,
    (snapshots_in_step smallRules 7 smallPerm [NewHumanPlayer "A"] smallGame smallGame
      (by decide) (by decide) Reachable.start).2.1 (by decide),
    by decide, by decide⟩

/-! ### The value constraint of `RunAITurns` and `MakeMove` -/

/-- C34 at a failing input: in `aiGame` the AI player `firstAI` makes its first
move, and `RunAITurns` passes the threshold 0, not `FirstMoveValue` = 14, to
`MakeMove`: the solver `countModeSolver`, which fails when it is asked to
maximise the value, is called in the other mode and the call returns after the
forfeit it leads to. In `aiGameSecondMove`, two forfeits later, the move is not
the first of the player, the threshold is 14 and the same solver is asked to
maximise the value: the call panics. -/
theorem RunAITurns_threshold_inverted :
    aiGame.CurrentPlayer = some firstAI ∧ firstAI.Human = false ∧
      aiGame.IsFirstMove firstAI.getName = true ∧ aiGame.getRules.FirstMoveValue = 14 ∧
      aiGame.valueConstraint firstAI = 0 ∧
      firstAI.MakeMove countModeSolver aiGame.Table 0 = some (NewMove "A" []) ∧
      firstAI.MakeMove countModeSolver aiGame.Table 14 = none ∧
      (∀ fuel, aiGame.RunAITurns (fun _ => countModeSolver) (fuel + 2) =
        RunResult.returned aiGameForfeited) ∧
      aiGame.ProcessMove (NewMove "A" []) = some (aiGameForfeited, true, FORFEITED) ∧
      aiGameForfeited.ProcessMove (NewMove "B" []) = some (aiGameSecondMove, true, FORFEITED) ∧
      (∃ player, aiGameSecondMove.CurrentPlayer = some player ∧ player.Human = false ∧
        player.getName = "A" ∧ aiGameSecondMove.IsFirstMove player.getName = false ∧
        aiGameSecondMove.valueConstraint player = 14) ∧
      ∀ fuel, aiGameSecondMove.RunAITurns (fun _ => countModeSolver) (fuel + 1) =
        RunResult.panicked := by
  refine ⟨by decide, by decide, by decide, by decide, by decide, by decide, by decide, ?_,
    by decide, by decide, ⟨_, rfl, by decide, by decide, by decide, by decide⟩, ?_⟩
  · intro fuel
    rfl
  · intro fuel
    rfl

/-- C35 at a failing input: the player `fifteenAI` holds red 4, red 5 and red
6, the table is empty and the solver proposes the run of the three, a legal
combination worth 15. With `minValue` = 14 the summed value reaches the
minimum, yet `MakeMove` returns the forfeiting move with the unchanged table,
for it compares the number of new bricks, 3, with `minValue`. With `minValue`
= 3 the run is refused as well (`3 > 3` fails), with `minValue` = 2 it is
returned. -/
theorem MakeMove_counts_bricks :
    NewDefaultRules.IsLegalCombination midRun = (true, LEGAL_COMBINATION) ∧
      (↑midRun.Bricks : Multiset Brick) ≤ ↑fifteenAI.Hand ∧
      midRunSolver fifteenAI.Hand [] true = some ([midRun], midRun.Bricks) ∧
      cumulativeBrickValue (BrickSliceDiff (DissolveCombinations []) (NewMove "A" [midRun]).Bricks)
        = 15 ∧
      (BrickSliceDiff (DissolveCombinations []) (NewMove "A" [midRun]).Bricks).length = 3 ∧
      fifteenAI.MakeMove midRunSolver [] 14 = some (NewMove "A" []) ∧
      fifteenAI.MakeMove midRunSolver [] 14 ≠ some (NewMove "A" [midRun]) ∧
      fifteenAI.MakeMove midRunSolver [] 3 = some (NewMove "A" []) ∧
      fifteenAI.MakeMove midRunSolver [] 2 = some (NewMove "A" [midRun]) := by
  refine ⟨by decide, by decide, by decide, by decide, by decide, by decide, by decide,
    by decide, by decide⟩

/-- C36 at a failing input: under `tripleRules`, with three replicates, the
variable of every combination still has the upper bound 2, and the variables
of the bricks have the number of copies in the hand as upper bound. The table
`tripleTable` of three copies of one group, each legal and together within
the bricks of the rules, makes the problem of an empty hand infeasible, so
that `Solve` answers with an error for every external solver whose solutions
satisfy the problem; the assignment that takes the group three times
satisfies every constraint and every bound but the 2. -/
theorem SolveProblem_combination_bound :
    NewILPSolver tripleRules = some tripleSolver ∧ tripleRules.Replicates = 3 ∧
      (tripleSolver.SolveProblem [⟨1, "red"⟩, ⟨1, "red"⟩, MakeJoker] tripleTable true).Variables =
        [⟨"combi_0", 0, 0, 2⟩, ⟨"combi_1", 0, 0, 2⟩, ⟨"combi_2", 0, 0, 2⟩, ⟨"combi_3", 0, 0, 2⟩,
          ⟨"red_1", 1, 0, 2⟩, ⟨"green_1", 1, 0, 0⟩, ⟨"blue_1", 1, 0, 0⟩, ⟨"joker_1", 1, 0, 1⟩] ∧
      (∀ c ∈ tripleTable, tripleRules.IsLegalCombination c = (true, LEGAL_COMBINATION)) ∧
      (↑(DissolveCombinations tripleTable) : Multiset Brick) ≤ ↑tripleRules.AllBricks ∧
      (∀ con ∈ (tripleSolver.SolveProblem [] tripleTable false).Constraints,
        (con.Terms.map fun t => t.1 * threeOfFirst t.2).sum = con.EqualTo) ∧
      (∀ iv ∈ (tripleSolver.SolveProblem [] tripleTable false).Variables.enum,
        iv.2.Lower ≤ threeOfFirst iv.1 ∧
          (threeOfFirst iv.1 ≤ iv.2.Upper ∨ (iv.1 = 0 ∧ threeOfFirst iv.1 = tripleRules.Replicates))) ∧
      (∀ soln : Nat → Int, ¬ (tripleSolver.SolveProblem [] tripleTable false).Feasible soln) ∧
      ∀ probSolve : ILPProblem → Option (Nat → Int),
        (∀ p soln, probSolve p = some soln → p.Feasible soln) →
        tripleSolver.Solve [] tripleTable false probSolve = none := by
  have hinf : ∀ soln : Nat → Int,
      ¬ (tripleSolver.SolveProblem [] tripleTable false).Feasible soln := by
    intro soln hf
    have b0 := hf.1 (0, ⟨"combi_0", 0, 0, 2⟩) (by decide)
    have b1 := hf.1 (1, ⟨"combi_1", 0, 0, 2⟩) (by decide)
    have b2 := hf.1 (2, ⟨"combi_2", 0, 0, 2⟩) (by decide)
    have b3 := hf.1 (3, ⟨"combi_3", 0, 0, 2⟩) (by decide)
    have b4 := hf.1 (4, ⟨"red_1", 1, 0, 0⟩) (by decide)
    have b7 := hf.1 (7, ⟨"joker_1", 1, 0, 0⟩) (by decide)
    have c1 := hf.2 ⟨[(-1, 4), (1, 0), (0, 1), (1, 2), (1, 3)], 3⟩ (by decide)
    have c4 := hf.2 ⟨[(-1, 7), (0, 0), (1, 1), (1, 2), (1, 3)], 0⟩ (by decide)
    simp only [List.map_cons, List.map_nil, List.sum_cons, List.sum_nil] at c1 c4
    dsimp only at b0 b1 b2 b3 b4 b7
    omega
  refine ⟨by decide, by decide, by decide, by decide, by decide, by decide, by decide, hinf, ?_⟩
  intro probSolve hsound
  unfold ILPSolver.Solve
  cases hp : probSolve (tripleSolver.SolveProblem [] tripleTable false) with
  | none => rfl
  | some soln => exact absurd (hsound _ _ hp) (hinf soln)

/-! ### Hashes of different combinations -/

/-- Two copies of a brick at the end of a combination cancel in its hash. -/
theorem Hash_append_twice (c : BrickCombination) (b : Brick) :
    BrickCombination.Hash ⟨c.Bricks ++ [b, b]⟩ = c.Hash := by
  unfold BrickCombination.Hash
  rw [List.foldl_append]
  simp only [List.foldl_cons, List.foldl_nil]
  rw [Nat.xor_assoc, Nat.xor_self, Nat.xor_zero]

/-- C37, as the claim states it, fails: the bricks of `paddedRun` are those of
`yellowRun` and red 1 twice, a different multiset, and the two combinations
have the same hash. -/
theorem Hash_collision :
    (↑paddedRun.Bricks : Multiset Brick) ≠ ↑yellowRun.Bricks ∧
      paddedRun.Bricks = yellowRun.Bricks ++ [⟨1, "red"⟩, ⟨1, "red"⟩] ∧
      paddedRun.Hash = yellowRun.Hash := by
  refine ⟨by decide, by decide, by decide⟩

/-- C37 (amended): `BrickCombination.Hash` returns different hashes for the
two combinations of the test, green 3, green 2, green 1 and green 1, red 2,
green 3, and for every two different combinations of a search space that
`NewILPSolver` builds; a brick appended twice to a combination does not change
its hash. -/
theorem Hash_distinct_in_search_space (rules : Rules) (s : ILPSolver)
    (hs : NewILPSolver rules = some s) :
    greenDown.Hash ≠ greenRedGreen.Hash ∧
      (∀ c1 ∈ s.combinations, ∀ c2 ∈ s.combinations, c1 ≠ c2 → c1.Hash ≠ c2.Hash) ∧
      ∀ (c : BrickCombination) (b : Brick),
        BrickCombination.Hash ⟨c.Bricks ++ [b, b]⟩ = c.Hash := by
  refine ⟨by decide, ?_, Hash_append_twice⟩
  intro c1 h1 c2 h2 hne he
  exact hne (List.inj_on_of_nodup_map (NewILPSolver_spec rules s hs).1 h1 h2 he)

/-- The scenario of C37 (amended): in the search space of `tinyRules` the
group of the three base bricks and its copy with a joker for the red brick
have different hashes. -/
theorem Hash_distinct_in_search_space_witness :
    NewILPSolver tinyRules = some tinySolver ∧
      BrickCombination.Hash ⟨[⟨1, "red"⟩, ⟨1, "green"⟩, ⟨1, "blue"⟩]⟩ ≠
        BrickCombination.Hash ⟨[MakeJoker, ⟨1, "green"⟩, ⟨1, "blue"⟩]⟩ :=
  ⟨by decide,
    (Hash_distinct_in_search_space tinyRules tinySolver (by decide)).2.1 _ (by decide) _
      (by decide) (by decide)⟩

/-! ### Illegal combinations on the table -/

/-- C38 at a failing input: `NewGame` under `sixRules` deals the eight bricks
to two fresh players. The first player puts the run red 1, red 2, red 3, a
legal move. The second player proposes the same three bricks as red 3, red 1
and red 2 alone: no brick is new, `IsLegalMove` answers `FORFEITED` before it
looks at the combinations, `ProcessMove` commits the move, and the table of
the state reached holds two combinations that `IsLegalCombination` rejects. -/
theorem Table_holds_illegal_combination :
    (∀ p ∈ [NewHumanPlayer "A", NewHumanPlayer "B"], p.HandHistory = []) ∧
      sixPerm.Perm (List.range sixRules.AllBricks.length) ∧
      NewGame sixRules 1 sixPerm [NewHumanPlayer "A", NewHumanPlayer "B"] = some sixGame ∧
      sixGame.ProcessMove sixMoveA = some (sixGameA, true, LEGAL_MOVE) ∧
      sixGameA.Table = [redRun] ∧
      sixGameA.IsLegalMove sixMoveB = some (true, FORFEITED) ∧
      sixGameA.ProcessMove sixMoveB = some (sixGameB, true, FORFEITED) ∧
      Reachable sixGame sixGameB ∧
      sixGameB.Table = [⟨[⟨3, "red"⟩, ⟨1, "red"⟩]⟩, ⟨[⟨2, "red"⟩]⟩] ∧
      ∀ c ∈ sixGameB.Table, sixGameB.Rules.IsLegalCombination c = (false, ILLEGAL_COMBINATION) := by
  have h1 : sixGame.ProcessMove sixMoveA = some (sixGameA, true, LEGAL_MOVE) := by decide
  have h2 : sixGameA.ProcessMove sixMoveB = some (sixGameB, true, FORFEITED) := by decide
  exact ⟨by decide, by decide, by decide, h1, by decide, by decide, h2,
    Reachable.step _ _ _ _ _ (Reachable.step _ _ _ _ _ Reachable.start h1) h2,
    by decide, by decide⟩
/-! ### The bricks of a rule set -/

theorem count_map_brick (colors : List String) (k : Nat) (b : Brick) :
    ((colors.map fun col => (⟨(k : Int) + 1, col⟩ : Brick)).count b) =
      if b.Value = (k : Int) + 1 then colors.count b.Color else 0 := by
  induction colors with
  | nil => simp
  | cons c cs ih =>
    rw [List.map_cons, List.count_cons, ih, List.count_cons]
    obtain ⟨v, col⟩ := b
    by_cases hv : v = (k : Int) + 1
    · by_cases hc : c = col
      · simp [hv, hc]
      · have : ¬ ((⟨(k : Int) + 1, c⟩ : Brick) = ⟨v, col⟩) := by
          intro e; cases e; exact hc rfl
        simp [hv, hc]
    · have : ¬ ((⟨(k : Int) + 1, c⟩ : Brick) = ⟨v, col⟩) := by
        intro e; cases e; exact hv rfl
      simp [hv, this]

theorem count_flatMap_range (f : Nat → List Brick) (b : Brick) (n : Nat) :
    ((List.range n).flatMap f).count b = ((List.range n).map fun k => (f k).count b).sum := by
  induction n with
  | zero => rfl
  | succ n ih =>
    rw [List.range_succ, List.flatMap_append, List.count_append, ih, List.map_append,
      List.sum_append]
    simp

theorem length_flatMap_range (f : Nat → List Brick) (n : Nat) :
    ((List.range n).flatMap f).length = ((List.range n).map fun k => (f k).length).sum := by
  induction n with
  | zero => rfl
  | succ n ih =>
    rw [List.range_succ, List.flatMap_append, List.length_append, ih, List.map_append,
      List.sum_append]
    simp

theorem sum_range_const (n c : Nat) : ((List.range n).map fun _ => c).sum = n * c := by
  induction n with
  | zero => simp
  | succ n ih =>
    rw [List.range_succ, List.map_append, List.sum_append, ih]
    simp [Nat.succ_mul]

theorem sum_range_ite (n c : Nat) (v : Int) :
    ((List.range n).map fun k : Nat => if v = (k : Int) + 1 then c else 0).sum =
      if 1 ≤ v ∧ v ≤ n then c else 0 := by
  induction n with
  | zero =>
    have : ¬ (1 ≤ v ∧ v ≤ ((0 : Nat) : Int)) := by omega
    rw [if_neg this]
    rfl
  | succ n ih =>
    rw [List.range_succ, List.map_append, List.sum_append, ih]
    simp only [List.map_cons, List.map_nil, List.sum_cons, List.sum_nil, add_zero]
    by_cases h1 : v = (n : Int) + 1
    · have a : ¬ (1 ≤ v ∧ v ≤ (n : Int)) := by omega
      have b : 1 ≤ v ∧ v ≤ ((n + 1 : Nat) : Int) := by omega
      rw [if_neg a, if_pos b, if_pos h1, zero_add]
    · by_cases h2 : 1 ≤ v ∧ v ≤ (n : Int)
      · have b : 1 ≤ v ∧ v ≤ ((n + 1 : Nat) : Int) := by omega
        rw [if_pos h2, if_pos b, if_neg h1, add_zero]
      · have b : ¬ (1 ≤ v ∧ v ≤ ((n + 1 : Nat) : Int)) := by omega
        rw [if_neg h2, if_neg b, if_neg h1]

/-- How often a brick occurs among the base bricks. -/
theorem count_BaseBricks (g : Rules) (b : Brick) :
    g.BaseBricks.count b =
      if 1 ≤ b.Value ∧ b.Value ≤ g.Values.toNat then g.Colors.count b.Color else 0 := by
  unfold Rules.BaseBricks
  rw [count_flatMap_range]
  simp only [count_map_brick]
  exact sum_range_ite _ _ _

theorem length_BaseBricks (g : Rules) :
    g.BaseBricks.length = g.Values.toNat * g.Colors.length := by
  unfold Rules.BaseBricks
  rw [length_flatMap_range]
  simp only [List.length_map]
  exact sum_range_const _ _

/-- How often a brick occurs among all bricks. -/
theorem count_AllBricks (g : Rules) (b : Brick) :
    g.AllBricks.count b =
      g.Replicates.toNat * g.BaseBricks.count b +
        if b = MakeJoker then g.JokersInPlay.toNat else 0 := by
  unfold Rules.AllBricks
  rw [List.count_append, count_flatMap_range, sum_range_const, List.count_replicate]
  by_cases h : b = MakeJoker
  · simp [h]
  · have h2 : ¬ (MakeJoker = b) := fun e => h e.symm
    simp [h, h2]

/-- C32: for every rule set with pairwise distinct colours none of which is
the joker colour and with non-negative `Values`, `Replicates` and
`JokersInPlay`, `BaseBricks` holds every brick with a value from 1 to `Values`
and a colour of `Colors` exactly once and nothing else; `AllBricks` holds every
such brick exactly `Replicates` times and the joker exactly `JokersInPlay`
times and nothing else; its length is
`Replicates * Values * len(Colors) + JokersInPlay`, which is 106 for the
default rules. -/
theorem AllBricks_spec (g : Rules) (hnd : g.Colors.Nodup) (hj : JokerColor ∉ g.Colors)
    (hv : 0 ≤ g.Values) (hr : 0 ≤ g.Replicates) (hk : 0 ≤ g.JokersInPlay) :
    (∀ b : Brick, g.BaseBricks.count b =
      if 1 ≤ b.Value ∧ b.Value ≤ g.Values ∧ b.Color ∈ g.Colors then 1 else 0) ∧
    (∀ b : Brick, 1 ≤ b.Value → b.Value ≤ g.Values → b.Color ∈ g.Colors →
      (g.AllBricks.count b : Int) = g.Replicates) ∧
    (g.AllBricks.count MakeJoker : Int) = g.JokersInPlay ∧
    (∀ b ∈ g.AllBricks,
      b = MakeJoker ∨ (1 ≤ b.Value ∧ b.Value ≤ g.Values ∧ b.Color ∈ g.Colors)) ∧
    (g.AllBricks.length : Int) = g.Replicates * g.Values * g.Colors.length + g.JokersInPlay ∧
    NewDefaultRules.AllBricks.length = 106 := by
  have hbase : ∀ b : Brick, g.BaseBricks.count b =
      if 1 ≤ b.Value ∧ b.Value ≤ g.Values ∧ b.Color ∈ g.Colors then 1 else 0 := by
    intro b
    rw [count_BaseBricks]
    by_cases h1 : 1 ≤ b.Value ∧ b.Value ≤ g.Values.toNat
    · have h2 : 1 ≤ b.Value ∧ b.Value ≤ g.Values := by omega
      by_cases hc : b.Color ∈ g.Colors
      · rw [if_pos h1, if_pos ⟨h2.1, h2.2, hc⟩, List.count_eq_one_of_mem hnd hc]
      · rw [if_pos h1, if_neg (fun h => hc h.2.2), List.count_eq_zero_of_not_mem hc]
    · have h2 : ¬ (1 ≤ b.Value ∧ b.Value ≤ g.Values ∧ b.Color ∈ g.Colors) := by
        intro h
        exact h1 ⟨h.1, by omega⟩
      rw [if_neg h1, if_neg h2]
  refine ⟨hbase, ?_, ?_, ?_, ?_, by decide⟩
  · intro b h1 h2 hc
    have hne : b ≠ MakeJoker := by
      intro e
      rw [e] at hc
      exact hj hc
    rw [count_AllBricks, hbase, if_pos ⟨h1, h2, hc⟩, if_neg hne]
    push_cast
    omega
  · have h0 : ¬ (1 ≤ MakeJoker.Value ∧ MakeJoker.Value ≤ g.Values ∧ MakeJoker.Color ∈ g.Colors) :=
      fun h => hj h.2.2
    rw [count_AllBricks, hbase, if_neg h0, if_pos rfl]
    push_cast
    omega
  · intro b hb
    by_cases hbj : b = MakeJoker
    · exact Or.inl hbj
    · right
      have hpos : 0 < g.AllBricks.count b := List.count_pos_iff.mpr hb
      rw [count_AllBricks, hbase, if_neg hbj] at hpos
      by_cases h : 1 ≤ b.Value ∧ b.Value ≤ g.Values ∧ b.Color ∈ g.Colors
      · exact h
      · rw [if_neg h] at hpos
        simp at hpos
  · unfold Rules.AllBricks
    rw [List.length_append, length_flatMap_range, sum_range_const, length_BaseBricks,
      List.length_replicate]
    push_cast
    rw [Int.toNat_of_nonneg hv, Int.toNat_of_nonneg hr, Int.toNat_of_nonneg hk]
    ring

/-- The default rules for C32: four distinct colours, none the joker colour;
the red 7 is in `AllBricks` twice, as are the jokers; 106 bricks in all. -/
theorem AllBricks_spec_witness :
    NewDefaultRules.Colors.Nodup ∧ JokerColor ∉ NewDefaultRules.Colors ∧
      (NewDefaultRules.AllBricks.count ⟨7, "red"⟩ : Int) = 2 ∧
      (NewDefaultRules.AllBricks.count MakeJoker : Int) = 2 ∧
      (NewDefaultRules.AllBricks.length : Int) = 2 * 13 * 4 + 2 :=
  have h := AllBricks_spec NewDefaultRules (by decide) (by decide) (by decide) (by decide)
    (by decide)
  ⟨by decide, by decide, h.2.1 ⟨7, "red"⟩ (by decide) (by decide) (by decide), h.2.2.1,
    h.2.2.2.2.1⟩

/-! ### The combinations of the search space are valid -/

/-- The loop for the highest brick either keeps its start or ends on a brick
of the slice that is not a joker and whose value no other such brick
exceeds. -/
theorem highest_fold_mem (l : List Brick) :
    ∀ acc : Brick × Int,
      (l.foldl (fun (acc : Brick × Int) b =>
          if b.Value > acc.2 && b.Color != JokerColor then (b, b.Value) else acc) acc = acc ∧
        ∀ b ∈ l, b.Color ≠ JokerColor → b.Value ≤ acc.2) ∨
      ((l.foldl (fun (acc : Brick × Int) b =>
          if b.Value > acc.2 && b.Color != JokerColor then (b, b.Value) else acc) acc).1 ∈ l ∧
        (l.foldl (fun (acc : Brick × Int) b =>
          if b.Value > acc.2 && b.Color != JokerColor then (b, b.Value) else acc) acc).1.Color ≠
            JokerColor ∧
        acc.2 < (l.foldl (fun (acc : Brick × Int) b =>
          if b.Value > acc.2 && b.Color != JokerColor then (b, b.Value) else acc) acc).1.Value ∧
        ∀ b ∈ l, b.Color ≠ JokerColor →
          b.Value ≤ (l.foldl (fun (acc : Brick × Int) b =>
            if b.Value > acc.2 && b.Color != JokerColor then (b, b.Value) else acc) acc).1.Value) := by
  induction l with
  | nil =>
    intro acc
    left
    exact ⟨rfl, fun b hb => by simp at hb⟩
  | cons x rest ih =>
    intro acc
    rw [List.foldl_cons]
    by_cases hc : (x.Value > acc.2 && x.Color != JokerColor) = true
    · rw [if_pos hc]
      simp only [Bool.and_eq_true, decide_eq_true_eq, bne_iff_ne, ne_eq] at hc
      rcases ih (x, x.Value) with ⟨e, hle⟩ | ⟨h1, h2, h3, h4⟩
      · right
        rw [e]
        refine ⟨List.mem_cons_self _ _, hc.2, hc.1, ?_⟩
        intro b hb hbj
        rcases List.mem_cons.mp hb with rfl | hb
        · exact le_refl _
        · exact hle b hb hbj
      · right
        dsimp only at h3
        refine ⟨List.mem_cons_of_mem _ h1, h2, by omega, ?_⟩
        intro b hb hbj
        rcases List.mem_cons.mp hb with rfl | hb
        · omega
        · exact h4 b hb hbj
    · rw [if_neg hc]
      simp only [Bool.and_eq_true, decide_eq_true_eq, bne_iff_ne, ne_eq, not_and, not_not] at hc
      have hx : x.Color ≠ JokerColor → x.Value ≤ acc.2 := by
        intro hxj
        by_contra hgt
        exact hxj (hc (by omega))
      rcases ih acc with ⟨e, hle⟩ | ⟨h1, h2, h3, h4⟩
      · left
        refine ⟨e, ?_⟩
        intro b hb hbj
        rcases List.mem_cons.mp hb with rfl | hb
        · exact hx hbj
        · exact hle b hb hbj
      · right
        refine ⟨List.mem_cons_of_mem _ h1, h2, h3, ?_⟩
        intro b hb hbj
        rcases List.mem_cons.mp hb with rfl | hb
        · have := hx hbj
          omega
        · exact h4 b hb hbj

/-- The loop for the lowest brick either keeps its start or ends on a brick of
the slice that is not a joker and whose value is below that of no other such
brick. -/
theorem lowest_fold_mem (l : List Brick) :
    ∀ acc : Brick × Int,
      (l.foldl (fun (acc : Brick × Int) b =>
          if b.Value < acc.2 && b.Color != JokerColor then (b, b.Value) else acc) acc = acc ∧
        ∀ b ∈ l, b.Color ≠ JokerColor → acc.2 ≤ b.Value) ∨
      ((l.foldl (fun (acc : Brick × Int) b =>
          if b.Value < acc.2 && b.Color != JokerColor then (b, b.Value) else acc) acc).1 ∈ l ∧
        (l.foldl (fun (acc : Brick × Int) b =>
          if b.Value < acc.2 && b.Color != JokerColor then (b, b.Value) else acc) acc).1.Color ≠
            JokerColor ∧
        (l.foldl (fun (acc : Brick × Int) b =>
          if b.Value < acc.2 && b.Color != JokerColor then (b, b.Value) else acc) acc).1.Value <
            acc.2 ∧
        ∀ b ∈ l, b.Color ≠ JokerColor →
          (l.foldl (fun (acc : Brick × Int) b =>
            if b.Value < acc.2 && b.Color != JokerColor then (b, b.Value) else acc) acc).1.Value ≤
              b.Value) := by
  induction l with
  | nil =>
    intro acc
    left
    exact ⟨rfl, fun b hb => by simp at hb⟩
  | cons x rest ih =>
    intro acc
    rw [List.foldl_cons]
    by_cases hc : (x.Value < acc.2 && x.Color != JokerColor) = true
    · rw [if_pos hc]
      simp only [Bool.and_eq_true, decide_eq_true_eq, bne_iff_ne, ne_eq] at hc
      rcases ih (x, x.Value) with ⟨e, hle⟩ | ⟨h1, h2, h3, h4⟩
      · right
        rw [e]
        refine ⟨List.mem_cons_self _ _, hc.2, hc.1, ?_⟩
        intro b hb hbj
        rcases List.mem_cons.mp hb with rfl | hb
        · exact le_refl _
        · exact hle b hb hbj
      · right
        dsimp only at h3
        refine ⟨List.mem_cons_of_mem _ h1, h2, by omega, ?_⟩
        intro b hb hbj
        rcases List.mem_cons.mp hb with rfl | hb
        · omega
        · exact h4 b hb hbj
    · rw [if_neg hc]
      simp only [Bool.and_eq_true, decide_eq_true_eq, bne_iff_ne, ne_eq, not_and, not_not] at hc
      have hx : x.Color ≠ JokerColor → acc.2 ≤ x.Value := by
        intro hxj
        by_contra hgt
        exact hxj (hc (by omega))
      rcases ih acc with ⟨e, hle⟩ | ⟨h1, h2, h3, h4⟩
      · left
        refine ⟨e, ?_⟩
        intro b hb hbj
        rcases List.mem_cons.mp hb with rfl | hb
        · exact hx hbj
        · exact hle b hb hbj
      · right
        refine ⟨List.mem_cons_of_mem _ h1, h2, h3, ?_⟩
        intro b hb hbj
        rcases List.mem_cons.mp hb with rfl | hb
        · have := hx hbj
          omega
        · exact h4 b hb hbj

/-- The bricks of a salted window: the joker, or a brick of the colour with a
value of the window. -/
theorem SaltedFrom_mem (color : String) (l : List Brick) :
    ∀ a : Int, SaltedFrom color a l →
      ∀ b ∈ l, b = MakeJoker ∨ (b.Color = color ∧ a ≤ b.Value ∧ b.Value < a + l.length) := by
  induction l with
  | nil => intro a _ b hb; simp at hb
  | cons x rest ih =>
    intro a h b hb
    obtain ⟨h1, h2⟩ := h
    rw [List.length_cons]
    push_cast
    rcases List.mem_cons.mp hb with rfl | hb
    · rcases h1 with e | e
      · exact Or.inl e
      · right
        rw [e]
        exact ⟨rfl, le_refl _, by dsimp only; omega⟩
    · rcases ih (a + 1) h2 b hb with e | ⟨e1, e2, e3⟩
      · exact Or.inl e
      · exact Or.inr ⟨e1, by omega, by omega⟩

theorem SaltedFrom_set (color : String) (l : List Brick) :
    ∀ (a : Int) (i : Nat), SaltedFrom color a l → SaltedFrom color a (l.set i MakeJoker) := by
  induction l with
  | nil => intro a i h; exact h
  | cons x rest ih =>
    intro a i h
    cases i with
    | zero => exact ⟨Or.inl rfl, h.2⟩
    | succ i => exact ⟨h.1, ih (a + 1) i h.2⟩

theorem SaltedFrom_take (color : String) (l : List Brick) :
    ∀ (a : Int) (k : Nat), SaltedFrom color a l → SaltedFrom color a (l.take k) := by
  induction l with
  | nil => intro a k h; simpa using h
  | cons x rest ih =>
    intro a k h
    cases k with
    | zero => exact trivial
    | succ k => exact ⟨h.1, ih (a + 1) k h.2⟩

theorem SaltedFrom_append_singleton (color : String) (l : List Brick) (b : Brick) :
    ∀ a : Int, SaltedFrom color a (l ++ [b]) →
      SaltedFrom color a l ∧ (b = MakeJoker ∨ b = ⟨a + l.length, color⟩) := by
  induction l with
  | nil =>
    intro a h
    refine ⟨trivial, ?_⟩
    simpa using h.1
  | cons x rest ih =>
    intro a h
    obtain ⟨h1, h2⟩ := h
    obtain ⟨i1, i2⟩ := ih (a + 1) h2
    refine ⟨⟨h1, i1⟩, ?_⟩
    rw [List.length_cons]
    push_cast
    rw [show a + ((rest.length : Int) + 1) = a + 1 + rest.length by ring]
    exact i2

/-- The value loop of `IsValidRun` does not return early on a salted window
whose values start at 1 or above. -/
theorem runValueRepeated_of_salted (color : String) (l : List Brick) :
    ∀ (a : Int) (valueMap : List Int), SaltedFrom color a l → 1 ≤ a →
      (∀ v ∈ valueMap, v < a) → runValueRepeated l valueMap = false := by
  induction l with
  | nil => intro a vm _ _ _; rfl
  | cons x rest ih =>
    intro a vm h ha hvm
    obtain ⟨h1, h2⟩ := h
    rw [runValueRepeated]
    have hcond : ¬ ((vm.contains x.Value && x.Color != JokerColor) = true) := by
      rcases h1 with e | e
      · rw [e]
        simp [MakeJoker]
      · rw [e]
        simp only [Bool.and_eq_true, not_and]
        intro hmem
        have hmem2 : a ∈ vm := by simpa using hmem
        exact absurd (hvm a hmem2) (by omega)
    rw [if_neg hcond]
    apply ih (a + 1) _ h2 (by omega)
    intro v hv
    rcases List.mem_cons.mp hv with rfl | hv
    · rcases h1 with e | e
      · rw [e]
        show (1 : Int) < a + 1
        omega
      · rw [e]
        show a < a + 1
        omega
    · have := hvm v hv
      omega

theorem jokersOf_append (l1 l2 : List Brick) : jokersOf (l1 ++ l2) = jokersOf l1 + jokersOf l2 := by
  unfold jokersOf
  rw [List.filter_append, List.length_append]

/-- The walk of `IsValidRun` succeeds from the top of a salted window of the
combination downwards, for as many steps as the window has bricks, when there
are at least as many jokers to spend as the window has. -/
theorem runWalk_of_salted (full : BrickCombination) (color : String) :
    ∀ (n : Nat) (pre : List Brick) (a j : Int), SaltedFrom color a pre → n ≤ pre.length →
      (jokersOf pre : Int) ≤ j → (∀ b ∈ pre, b ∈ full.Bricks) →
      runWalk full color n (a + pre.length - 1) j = true := by
  intro n
  induction n with
  | zero => intro pre a j _ _ _ _; rfl
  | succ n ih =>
    intro pre a j hs hn hj hmem
    rcases List.eq_nil_or_concat pre with e | ⟨init, b, e⟩
    · rw [e] at hn
      simp at hn
    · rw [List.concat_eq_append] at e
      subst e
      obtain ⟨hs1, hb⟩ := SaltedFrom_append_singleton color init b a hs
      rw [List.length_append, List.length_singleton] at hn
      rw [jokersOf_append] at hj
      have hv : a + ((init ++ [b]).length : Int) - 1 = a + init.length := by
        rw [List.length_append, List.length_singleton]
        push_cast
        ring
      have hv1 : a + (init.length : Int) - 1 = a + ((init ++ [b]).length : Int) - 1 - 1 := by
        rw [hv]
      have hmem1 : ∀ x ∈ init, x ∈ full.Bricks :=
        fun x hx => hmem x (List.mem_append_left _ hx)
      rw [runWalk]
      by_cases hcont : full.Contains (a + ((init ++ [b]).length : Int) - 1) color = true
      · rw [hcont]
        simp only [Bool.not_true, Bool.false_eq_true, if_false]
        rw [← hv1]
        exact ih init a j hs1 (by omega) (by push_cast at hj ⊢; omega) hmem1
      · have hcf : full.Contains (a + ((init ++ [b]).length : Int) - 1) color = false := by
          simpa using hcont
        have hbj : b = MakeJoker := by
          rcases hb with e | e
          · exact e
          · exfalso
            apply hcont
            unfold BrickCombination.Contains BrickCombination.getBricks
            rw [List.any_eq_true]
            refine ⟨b, hmem b (List.mem_append_right _ (List.mem_singleton_self _)), ?_⟩
            rw [hv, e]
            simp
        have hjb : jokersOf [b] = 1 := by rw [hbj]; rfl
        rw [hjb] at hj
        rw [hcf]
        simp only [Bool.not_false, if_true]
        have hpos : j > 0 := by push_cast at hj; omega
        rw [if_pos hpos, ← hv1]
        exact ih init a (j - 1) hs1 (by omega) (by push_cast at hj ⊢; omega) hmem1

/-- A salted window of at least three bricks that starts at 1 or above and has
a brick that is not a joker with a value below 100000 is a valid run. -/
theorem IsValidRun_of_salted (color : String) (l : List Brick)
    (a : Int) (hs : SaltedFrom color a l) (ha : 1 ≤ a) (hlen : 3 ≤ l.length)
    (hx : ∃ x ∈ l, x.Color ≠ JokerColor ∧ x.Value < 100000) :
    (BrickCombination.IsValidRun ⟨l⟩).1 = true := by
  obtain ⟨x, hxl, hxj, hxv⟩ := hx
  have hmem := SaltedFrom_mem color l a hs
  have hnj : ∀ b ∈ l, b.Color ≠ JokerColor → b.Color = color ∧ a ≤ b.Value ∧ b.Value < a + l.length := by
    intro b hb hbj
    rcases hmem b hb with e | e
    · rw [e] at hbj
      exact absurd rfl hbj
    · exact e
  unfold BrickCombination.IsValidRun
  dsimp only
  rw [if_neg (by omega)]
  have h2 : containsNonJoker l = true := by
    unfold containsNonJoker
    rw [List.any_eq_true]
    exact ⟨x, hxl, by simpa using hxj⟩
  rw [h2]
  simp only [Bool.not_true, Bool.false_eq_true, if_false]
  have h3 : ((l.filter fun b => b.Color != JokerColor).map Brick.Color).dedup.length ≤ 1 := by
    rw [dedup_length_le_one]
    intro c1 hc1 c2 hc2
    obtain ⟨b1, hb1, rfl⟩ := List.mem_map.mp hc1
    obtain ⟨b2, hb2, rfl⟩ := List.mem_map.mp hc2
    have f1 := List.mem_filter.mp hb1
    have f2 := List.mem_filter.mp hb2
    rw [(hnj b1 f1.1 (by simpa using f1.2)).1, (hnj b2 f2.1 (by simpa using f2.2)).1]
  rw [if_neg (by omega)]
  rw [runValueRepeated_of_salted color l a [] hs ha (fun v hv => by simp at hv)]
  simp only [Bool.false_eq_true, if_false]
  -- the highest brick
  have hhi : highestBrick l ∈ l ∧ (highestBrick l).Color ≠ JokerColor := by
    unfold highestBrick
    rcases highest_fold_mem l (Brick.zero, 0) with ⟨_, hle⟩ | ⟨h1, h2, _, _⟩
    · have := hle x hxl hxj
      have := (hnj x hxl hxj).2.1
      dsimp only at *
      omega
    · exact ⟨h1, h2⟩
  have hlo : lowestBrick l ∈ l ∧ (lowestBrick l).Color ≠ JokerColor := by
    unfold lowestBrick
    rcases lowest_fold_mem l (Brick.zero, 100000) with ⟨_, hle⟩ | ⟨h1, h2, _, _⟩
    · have := hle x hxl hxj
      dsimp only at *
      omega
    · exact ⟨h1, h2⟩
  obtain ⟨hc1, hv1, hv2⟩ := hnj _ hhi.1 hhi.2
  obtain ⟨_, lv1, _⟩ := hnj _ hlo.1 hlo.2
  -- the window up to the highest brick
  have hk : ((highestBrick l).Value - a + 1).toNat ≤ l.length := by omega
  have hwalk := runWalk_of_salted ⟨l⟩ color
    ((highestBrick l).Value - (lowestBrick l).Value + 1).toNat
    (l.take ((highestBrick l).Value - a + 1).toNat) a
    (l.filter fun b => b.Color == JokerColor).length
    (SaltedFrom_take color l a _ hs)
    (by rw [List.length_take]; omega)
    (by
      have hsub : (l.take ((highestBrick l).Value - a + 1).toNat).Sublist l := List.take_sublist _ _
      have := (hsub.filter fun b => b.Color == JokerColor).length_le
      unfold jokersOf
      exact_mod_cast this)
    (fun b hb => List.mem_of_mem_take hb)
  have e : a + ((l.take ((highestBrick l).Value - a + 1).toNat).length : Int) - 1 =
      (highestBrick l).Value := by
    rw [List.length_take]
    omega
  rw [e] at hwalk
  rw [hc1, hwalk]
  rfl

theorem IsValidGroup_of_GroupLike (l : List Brick) (hlen : 3 ≤ l.length)
    (hx : ∃ x ∈ l, x.Color ≠ JokerColor) (hg : GroupLike l) :
    (BrickCombination.IsValidGroup ⟨l⟩).1 = true := by
  rw [IsValidGroup_eq]
  dsimp only
  rw [if_neg (by omega), if_neg (not_not.mpr hx), if_neg (not_not.mpr hg.1),
    if_neg (not_not.mpr hg.2)]

theorem filter_set_sublist (l : List Brick) :
    ∀ i : Nat, ((l.set i MakeJoker).filter fun b => b.Color != JokerColor).Sublist
      (l.filter fun b => b.Color != JokerColor) := by
  induction l with
  | nil => intro i; exact List.Sublist.refl _
  | cons x rest ih =>
    intro i
    cases i with
    | zero =>
      have h1 : ((MakeJoker :: rest).filter fun b => b.Color != JokerColor) =
          rest.filter fun b => b.Color != JokerColor := List.filter_cons_of_neg (by decide)
      rw [List.set_cons_zero, h1]
      exact (List.sublist_cons_self x rest).filter _
    | succ i =>
      rw [List.set_cons_succ]
      by_cases hp : (x.Color != JokerColor) = true
      · simp only [List.filter_cons, hp, if_true]
        exact (ih i).cons₂ x
      · have hp1 : (x.Color != JokerColor) = false := by simpa using hp
        simp only [List.filter_cons, hp1, Bool.false_eq_true, if_false]
        exact ih i

theorem GroupLike_set (l : List Brick) (i : Nat) (h : GroupLike l) :
    GroupLike (l.set i MakeJoker) := by
  refine ⟨?_, ((filter_set_sublist l i).map Brick.Color).nodup h.2⟩
  intro x hx y hy hxj hyj
  rcases List.mem_or_eq_of_mem_set hx with hx | hx
  · rcases List.mem_or_eq_of_mem_set hy with hy | hy
    · exact h.1 x hx y hy hxj hyj
    · rw [hy] at hyj
      exact absurd rfl hyj
  · rw [hx] at hxj
    exact absurd rfl hxj

theorem GroupLike_sublist (l1 l2 : List Brick) (hs : l1.Sublist l2) (h : GroupLike l2) :
    GroupLike l1 :=
  ⟨fun x hx y hy => h.1 x (hs.subset hx) y (hs.subset hy),
    ((hs.filter _).map Brick.Color).nodup h.2⟩

theorem jokersOf_set (l : List Brick) : ∀ i : Nat, jokersOf (l.set i MakeJoker) ≤ jokersOf l + 1 := by
  induction l with
  | nil => intro i; simp [jokersOf]
  | cons x rest ih =>
    intro i
    cases i with
    | zero =>
      rw [List.set_cons_zero]
      have h1 : jokersOf (MakeJoker :: rest) = jokersOf rest + 1 := by
        unfold jokersOf
        have h0 : ((MakeJoker :: rest).filter fun b => b.Color == JokerColor) =
            MakeJoker :: rest.filter fun b => b.Color == JokerColor :=
          List.filter_cons_of_pos (by decide)
        rw [h0, List.length_cons]
      have h2 : jokersOf rest ≤ jokersOf (x :: rest) := by
        unfold jokersOf
        exact ((List.sublist_cons_self x rest).filter _).length_le
      omega
    | succ i =>
      rw [List.set_cons_succ]
      have := ih i
      unfold jokersOf at this ⊢
      by_cases hp : (x.Color == JokerColor) = true
      · simp only [List.filter_cons, hp, if_true, List.length_cons]
        omega
      · have hp1 : (x.Color == JokerColor) = false := by simpa using hp
        simp only [List.filter_cons, hp1, Bool.false_eq_true, if_false]
        exact this

/-- With fewer jokers than bricks there is a brick that is not a joker. -/
theorem exists_nonJoker (l : List Brick) (h : jokersOf l < l.length) :
    ∃ x ∈ l, x.Color ≠ JokerColor := by
  unfold jokersOf at h
  obtain ⟨x, hx, hp⟩ := List.length_filter_lt_length_iff_exists.mp h
  exact ⟨x, hx, by simpa using hp⟩

/-- In a salted window the bricks that are not jokers and share one value are
at most one brick. -/
theorem salted_const_nodup (color : String) (V : Int) (l : List Brick) :
    ∀ a : Int, SaltedFrom color a l → (∀ x ∈ l, x.Color ≠ JokerColor → x.Value = V) →
      ((l.filter fun b => b.Color != JokerColor).map Brick.Color).Nodup := by
  induction l with
  | nil => intro a _ _; exact List.nodup_nil
  | cons x rest ih =>
    intro a hs hV
    have hrest := ih (a + 1) hs.2 fun y hy => hV y (List.mem_cons_of_mem _ hy)
    by_cases hp : (x.Color != JokerColor) = true
    · have hf : ((x :: rest).filter fun b => b.Color != JokerColor) =
          x :: rest.filter fun b => b.Color != JokerColor := List.filter_cons_of_pos hp
      rw [hf]
      have hxj : x.Color ≠ JokerColor := by simpa using hp
      have hxa : x.Value = a := by
        rcases hs.1 with e | e
        · rw [e] at hxj
          exact absurd rfl hxj
        · rw [e]
      have hnone : (rest.filter fun b => b.Color != JokerColor) = [] := by
        rw [List.filter_eq_nil_iff]
        intro y hy hyp
        have hyj : y.Color ≠ JokerColor := by simpa using hyp
        rcases SaltedFrom_mem color rest (a + 1) hs.2 y hy with e | ⟨_, e2, _⟩
        · rw [e] at hyj
          exact absurd rfl hyj
        · have h1 := hV y (List.mem_cons_of_mem _ hy) hyj
          have h2 := hV x (List.mem_cons_self _ _) hxj
          omega
      rw [hnone]
      simp
    · have hf : ((x :: rest).filter fun b => b.Color != JokerColor) =
          rest.filter fun b => b.Color != JokerColor := List.filter_cons_of_neg hp
      rw [hf]
      exact hrest

/-- The combinations that come from a window of a colour by replacing bricks
with jokers are valid runs or valid groups, as long as a brick is left that is
not a joker and the values stay within 100000. -/
theorem valid_of_salted (color : String) (l : List Brick) (a : Int)
    (hs : SaltedFrom color a l) (ha : 1 ≤ a) (hlen : 3 ≤ l.length)
    (htop : a + l.length ≤ 100001) (hj : jokersOf l < l.length) :
    (BrickCombination.IsValidRun ⟨l⟩).1 = true ∨ (BrickCombination.IsValidGroup ⟨l⟩).1 = true := by
  have hx := exists_nonJoker l hj
  by_cases hlow : ∃ x ∈ l, x.Color ≠ JokerColor ∧ x.Value < 100000
  · exact Or.inl (IsValidRun_of_salted color l a hs ha hlen hlow)
  · right
    push_neg at hlow
    have hval : ∀ x ∈ l, x.Color ≠ JokerColor → x.Value = 100000 := by
      intro x hxl hxj
      have h1 := hlow x hxl hxj
      rcases SaltedFrom_mem color l a hs x hxl with e | ⟨_, _, e3⟩
      · rw [e] at hxj
        exact absurd rfl hxj
      · omega
    refine IsValidGroup_of_GroupLike l hlen hx ⟨?_, salted_const_nodup color 100000 l a hs hval⟩
    intro x hxl y hyl hxj hyj
    rw [hval x hxl hxj, hval y hyl hyj]

/-- What `saltWithJokers` keeps: a property of the bricks that survives a
joker at any position holds for every combination of the result when it holds
for the given ones, and the result has at most `m` jokers more than the given
combinations when `nJokersPerCombination` is at most `m`, `m` at least 1. -/
theorem saltWithJokersRec_inv (Q : List Brick → Prop)
    (hQ : ∀ (l : List Brick) (i : Nat), Q l → Q (l.set i MakeJoker)) :
    ∀ (depth : Nat) (combinations : List BrickCombination) (n k m : Int),
      1 ≤ m → n ≤ m →
      (∀ c ∈ combinations, Q c.Bricks ∧ (jokersOf c.Bricks : Int) ≤ k) →
      ∀ c ∈ saltWithJokersRec depth combinations n,
        Q c.Bricks ∧ (jokersOf c.Bricks : Int) ≤ k + m := by
  intro depth
  induction depth with
  | zero =>
    intro combinations n k m hm _ h c hc
    have := h c hc
    exact ⟨this.1, by omega⟩
  | succ depth ih =>
    intro combinations n k m hm hn h c hc
    rw [saltWithJokersRec] at hc
    have h1 : ∀ c ∈ combinations ++ combinations.flatMap saltCombination,
        Q c.Bricks ∧ (jokersOf c.Bricks : Int) ≤ k + 1 := by
      intro c hc
      rcases List.mem_append.mp hc with hc | hc
      · have := h c hc
        exact ⟨this.1, by omega⟩
      · obtain ⟨c0, hc0, hcs⟩ := List.mem_flatMap.mp hc
        unfold saltCombination at hcs
        obtain ⟨i, _, rfl⟩ := List.mem_map.mp hcs
        have := h c0 hc0
        have hjs := jokersOf_set c0.Bricks i
        exact ⟨hQ _ i this.1, by
          show (jokersOf (c0.Bricks.set i MakeJoker) : Int) ≤ k + 1
          omega⟩
    by_cases hpos : n - 1 > 0
    · rw [if_pos hpos] at hc
      have := ih _ (n - 1) (k + 1) (m - 1) (by omega) (by omega) h1 c hc
      exact ⟨this.1, by omega⟩
    · rw [if_neg hpos] at hc
      have := h1 c hc
      exact ⟨this.1, by omega⟩

theorem mem_BaseBricks (g : Rules) (b : Brick) :
    b ∈ g.BaseBricks ↔ 1 ≤ b.Value ∧ b.Value ≤ g.Values.toNat ∧ b.Color ∈ g.Colors := by
  rw [← List.count_pos_iff, count_BaseBricks]
  by_cases h : 1 ≤ b.Value ∧ b.Value ≤ g.Values.toNat
  · rw [if_pos h, List.count_pos_iff]
    exact ⟨fun hc => ⟨h.1, h.2, hc⟩, fun hc => hc.2.2⟩
  · rw [if_neg h]
    constructor
    · intro h0
      exact absurd h0 (by decide)
    · intro hc
      exact absurd ⟨hc.1, hc.2.1⟩ h

theorem nodup_BaseBricks (g : Rules) (hnd : g.Colors.Nodup) : g.BaseBricks.Nodup := by
  rw [List.nodup_iff_count_le_one]
  intro b
  rw [count_BaseBricks]
  split_ifs
  · exact List.nodup_iff_count_le_one.mp hnd _
  · exact Nat.zero_le _

theorem SaltedFrom_range' (color : String) :
    ∀ (n s : Nat),
      SaltedFrom color ((s : Int) + 1)
        ((List.range' s n).map fun k : Nat => (⟨(k : Int) + 1, color⟩ : Brick)) := by
  intro n
  induction n with
  | zero => intro s; exact trivial
  | succ n ih =>
    intro s
    rw [List.range'_succ, List.map_cons]
    refine ⟨Or.inr rfl, ?_⟩
    have := ih (s + 1)
    push_cast at this
    exact this

theorem SaltedFrom_drop (color : String) (l : List Brick) :
    ∀ (a : Int) (i : Nat), SaltedFrom color a l → SaltedFrom color (a + i) (l.drop i) := by
  induction l with
  | nil => intro a i _; simpa using trivial
  | cons x rest ih =>
    intro a i h
    cases i with
    | zero => simpa using h
    | succ i =>
      rw [List.drop_succ_cons]
      have := ih (a + 1) i h.2
      push_cast
      rw [show a + ((i : Int) + 1) = a + 1 + i by ring]
      exact this

/-- The bricks of one colour of the rules among the base bricks, in their
order: the values from 1 to `Values`. -/
theorem BaseBricks_filter_color (g : Rules) (hnd : g.Colors.Nodup) (color : String)
    (hc : color ∈ g.Colors) :
    (g.BaseBricks.filter fun x => x.Color == color) =
      (List.range g.Values.toNat).map fun k : Nat => (⟨(k : Int) + 1, color⟩ : Brick) := by
  unfold Rules.BaseBricks
  rw [List.filter_flatMap]
  have hrow : ∀ k : Nat,
      ((g.Colors.map fun col => (⟨(k : Int) + 1, col⟩ : Brick)).filter fun x => x.Color == color) =
        [(⟨(k : Int) + 1, color⟩ : Brick)] := by
    intro k
    rw [List.filter_map]
    have hf : (g.Colors.filter ((fun x : Brick => x.Color == color) ∘
        fun col => (⟨(k : Int) + 1, col⟩ : Brick))) = g.Colors.filter (· == color) := rfl
    rw [hf, List.filter_beq, List.count_eq_one_of_mem hnd hc]
    rfl
  simp only [hrow]
  induction g.Values.toNat with
  | zero => rfl
  | succ n ih =>
    rw [List.range_succ, List.flatMap_append, List.map_append, ih]
    rfl

/-- The runs of `ComputeAllRuns` on the base bricks are windows of three to
five bricks of one colour, without a joker, with values from 1 to `Values`. -/
theorem ComputeAllRuns_shape (g : Rules) (hnd : g.Colors.Nodup) (hj : JokerColor ∉ g.Colors)
    (c : BrickCombination) (hc : c ∈ ComputeAllRuns g.BaseBricks) :
    (∃ (color : String) (a : Int), SaltedFrom color a c.Bricks ∧ 1 ≤ a ∧
        a + c.Bricks.length ≤ g.Values.toNat + 1) ∧
      3 ≤ c.Bricks.length ∧ jokersOf c.Bricks = 0 := by
  have hbricks := ComputeAllRuns_bricks _ c hc
  unfold ComputeAllRuns at hc
  simp only [List.mem_flatMap, List.mem_map] at hc
  obtain ⟨color, hcolor, runsize, hsize, i, hi, rfl⟩ := hc
  have hcol : color ∈ g.Colors := by
    obtain ⟨b, hb, rfl⟩ := List.mem_map.mp (List.mem_dedup.mp hcolor)
    exact ((mem_BaseBricks g b).mp hb).2.2
  rw [BaseBricks_filter_color g hnd color hcol] at hi hbricks ⊢
  rw [List.length_map, List.length_range, List.mem_range] at hi
  have hrs : runsize = 3 ∨ runsize = 4 ∨ runsize = 5 := by simpa using hsize
  have hlen : (((List.range g.Values.toNat).map
      fun k : Nat => (⟨(k : Int) + 1, color⟩ : Brick)).drop i |>.take runsize).length = runsize := by
    rw [List.length_take, List.length_drop, List.length_map, List.length_range]
    omega
  dsimp only
  refine ⟨⟨color, (i : Int) + 1, ?_, by omega, ?_⟩, ?_, ?_⟩
  · apply SaltedFrom_take
    have h0 := SaltedFrom_range' color g.Values.toNat 0
    rw [← List.range_eq_range'] at h0
    have := SaltedFrom_drop color _ _ i h0
    rw [show ((0 : Nat) : Int) + 1 + (i : Int) = (i : Int) + 1 by push_cast; ring] at this
    exact this
  · rw [hlen]
    omega
  · rw [hlen]
    omega
  · unfold jokersOf
    rw [List.length_eq_zero, List.filter_eq_nil_iff]
    intro b hb hbj
    have hb2 := (mem_BaseBricks g b).mp (hbricks b hb)
    have : b.Color = JokerColor := by simpa using hbj
    rw [this] at hb2
    exact hj hb2.2.2

theorem combinationsWithoutReplacement_sublist (l : List Brick) :
    ∀ (k : Int) (c : List Brick), c ∈ combinationsWithoutReplacement l k →
      c.Sublist l ∧ (1 ≤ k → (c.length : Int) = k) := by
  induction l with
  | nil =>
    intro k c hc
    simp [combinationsWithoutReplacement] at hc
  | cons a rest ih =>
    intro k c hc
    rw [combinationsWithoutReplacement, List.mem_append] at hc
    rcases hc with hc | hc
    · by_cases hk : k = 1
      · rw [if_pos hk, List.mem_singleton] at hc
        rw [hc]
        refine ⟨?_, fun _ => by rw [hk]; rfl⟩
        exact (List.nil_sublist rest).cons₂ a
      · rw [if_neg hk] at hc
        obtain ⟨next, hnext, rfl⟩ := List.mem_map.mp hc
        obtain ⟨i1, i2⟩ := ih (k - 1) next hnext
        refine ⟨i1.cons₂ a, ?_⟩
        intro h1
        rw [List.length_cons]
        push_cast
        have := i2 (by omega)
        omega
    · obtain ⟨i1, i2⟩ := ih k c hc
      exact ⟨i1.cons a, i2⟩

/-- The groups of `ComputeAllGroups` on the base bricks: at least three bricks
of one value and pairwise different colours, without a joker. -/
theorem ComputeAllGroups_shape (g : Rules) (hlen : 3 ≤ g.Colors.length) (hnd : g.Colors.Nodup)
    (hj : JokerColor ∉ g.Colors) (c : BrickCombination)
    (hc : c ∈ ComputeAllGroups g.BaseBricks) :
    GroupLike c.Bricks ∧ 3 ≤ c.Bricks.length ∧ jokersOf c.Bricks = 0 := by
  have hbricks := ComputeAllGroups_bricks _ c hc
  have hjok : jokersOf c.Bricks = 0 := by
    unfold jokersOf
    rw [List.length_eq_zero, List.filter_eq_nil_iff]
    intro b hb hbj
    have hb2 := (mem_BaseBricks g b).mp (hbricks b hb)
    have : b.Color = JokerColor := by simpa using hbj
    rw [this] at hb2
    exact hj hb2.2.2
  have hgroup : ∀ value : Int, value ∈ (g.BaseBricks.map Brick.Value).dedup →
      GroupLike (g.BaseBricks.filter fun x => x.Value == value) ∧
        3 ≤ (g.BaseBricks.filter fun x => x.Value == value).length := by
    intro value hvalue
    obtain ⟨b0, hb0, hb0v⟩ := List.mem_map.mp (List.mem_dedup.mp hvalue)
    have hb0m := (mem_BaseBricks g b0).mp hb0
    have hval : ∀ x ∈ g.BaseBricks.filter (fun x => x.Value == value), x.Value = value := by
      intro x hx
      simpa using (List.mem_filter.mp hx).2
    refine ⟨⟨?_, ?_⟩, ?_⟩
    · intro x hx y hy _ _
      rw [hval x hx, hval y hy]
    · apply List.Nodup.map_on
      · intro x hx y hy hxy
        have hx1 := hval x (List.mem_filter.mp hx).1
        have hy1 := hval y (List.mem_filter.mp hy).1
        obtain ⟨xv, xc⟩ := x
        obtain ⟨yv, yc⟩ := y
        dsimp only at hx1 hy1 hxy
        rw [hx1, hy1, hxy]
      · exact ((nodup_BaseBricks g hnd).filter _).filter _
    · have hsub : (g.Colors.map fun col => (⟨value, col⟩ : Brick)) ⊆
          g.BaseBricks.filter fun x => x.Value == value := by
        intro b hb
        obtain ⟨col, hcol, rfl⟩ := List.mem_map.mp hb
        rw [List.mem_filter]
        refine ⟨(mem_BaseBricks g _).mpr ⟨?_, ?_, hcol⟩, by simp⟩
        · rw [← hb0v]; exact hb0m.1
        · rw [← hb0v]; exact hb0m.2.1
      have hnd2 : (g.Colors.map fun col => (⟨value, col⟩ : Brick)).Nodup := by
        apply List.Nodup.map_on _ hnd
        intro x _ y _ hxy
        exact (Brick.mk.injEq _ _ _ _ ▸ hxy).2
      have := (List.subperm_of_subset hnd2 hsub).length_le
      rw [List.length_map] at this
      omega
  unfold ComputeAllGroups at hc
  simp only [List.mem_append, List.mem_flatMap, List.mem_map] at hc
  rcases hc with ⟨value, hvalue, rfl⟩ | ⟨value, hvalue, l, hl, rfl⟩
  · exact ⟨(hgroup value hvalue).1, (hgroup value hvalue).2, hjok⟩
  · obtain ⟨s1, s2⟩ := combinationsWithoutReplacement_sublist _ _ _ hl
    refine ⟨GroupLike_sublist _ _ s1 (hgroup value hvalue).1, ?_, hjok⟩
    have := s2 (by decide)
    dsimp only
    omega

/-- When every combination given is a valid run or a valid group,
`addCombinations` does not panic. -/
theorem addCombinations_isSome (l : List BrickCombination) :
    ∀ s : ILPSolver, (∀ c ∈ l, c.IsValidRun.1 = true ∨ c.IsValidGroup.1 = true) →
      ∃ s1, s.addCombinations l = some s1 := by
  induction l with
  | nil => intro s _; exact ⟨s, rfl⟩
  | cons combo rest ih =>
    intro s h
    have hrest : ∀ c ∈ rest, c.IsValidRun.1 = true ∨ c.IsValidGroup.1 = true :=
      fun c hc => h c (List.mem_cons_of_mem _ hc)
    rw [ILPSolver.addCombinations]
    dsimp only
    by_cases hk : s.combinationHashes.contains combo.Hash = true
    · rw [if_pos hk]
      exact ih s hrest
    · rw [if_neg hk]
      by_cases hr : combo.IsValidRun.1 = true
      · rw [if_pos hr]
        exact ih _ hrest
      · rw [if_neg hr]
        have hg : combo.IsValidGroup.1 = true := by
          rcases h combo (List.mem_cons_self _ _) with e | e
          · exact absurd e hr
          · exact e
        rw [if_pos hg]
        exact ih _ hrest

/-- C40: for every rule set with at least 3 pairwise distinct colours none of
which is the joker colour, with `Values` at most 100000 (the lower bound 0 of
the claim is not needed: there is no brick below it) and with
`JokersPerCombination` at most 2, every combination that `ComputeAllRuns`,
`ComputeAllGroups` and `saltWithJokers` enumerate for the base bricks is a
valid run or a valid group, so `addCombinations` does not reach its panic and
`NewILPSolver` returns a search space. -/
theorem NewILPSolver_returns (rules : Rules) (hlen : 3 ≤ rules.Colors.length)
    (hnd : rules.Colors.Nodup) (hj : JokerColor ∉ rules.Colors) (hv : rules.Values ≤ 100000)
    (hjpc : rules.JokersPerCombination ≤ 2) :
    (∀ c : BrickCombination,
      c ∈ ComputeAllRuns rules.BaseBricks ∨ c ∈ ComputeAllGroups rules.BaseBricks ∨
        c ∈ saltWithJokers (ComputeAllRuns rules.BaseBricks) rules.JokersPerCombination ∨
        c ∈ saltWithJokers (ComputeAllGroups rules.BaseBricks) rules.JokersPerCombination →
      c.IsValidRun.1 = true ∨ c.IsValidGroup.1 = true) ∧
    ∃ s, NewILPSolver rules = some s := by
  -- windows with jokers
  have hQrun : ∀ (l : List Brick) (i : Nat),
      ((∃ (color : String) (a : Int), SaltedFrom color a l ∧ 1 ≤ a ∧
          a + l.length ≤ 100001) ∧ 3 ≤ l.length) →
      ((∃ (color : String) (a : Int), SaltedFrom color a (l.set i MakeJoker) ∧ 1 ≤ a ∧
          a + (l.set i MakeJoker).length ≤ 100001) ∧ 3 ≤ (l.set i MakeJoker).length) := by
    rintro l i ⟨⟨color, a, h1, h2, h3⟩, h4⟩
    rw [List.length_set]
    exact ⟨⟨color, a, SaltedFrom_set color l a i h1, h2, h3⟩, h4⟩
  have hQgroup : ∀ (l : List Brick) (i : Nat), (GroupLike l ∧ 3 ≤ l.length) →
      (GroupLike (l.set i MakeJoker) ∧ 3 ≤ (l.set i MakeJoker).length) := by
    rintro l i ⟨h1, h2⟩
    rw [List.length_set]
    exact ⟨GroupLike_set l i h1, h2⟩
  have hruns : ∀ c ∈ ComputeAllRuns rules.BaseBricks,
      ((∃ (color : String) (a : Int), SaltedFrom color a c.Bricks ∧ 1 ≤ a ∧
          a + c.Bricks.length ≤ 100001) ∧ 3 ≤ c.Bricks.length) ∧
        (jokersOf c.Bricks : Int) ≤ 0 := by
    intro c hc
    obtain ⟨⟨color, a, h1, h2, h3⟩, h4, h5⟩ := ComputeAllRuns_shape rules hnd hj c hc
    exact ⟨⟨⟨color, a, h1, h2, by omega⟩, h4⟩, by rw [h5]; rfl⟩
  have hgroups : ∀ c ∈ ComputeAllGroups rules.BaseBricks,
      (GroupLike c.Bricks ∧ 3 ≤ c.Bricks.length) ∧ (jokersOf c.Bricks : Int) ≤ 0 := by
    intro c hc
    obtain ⟨h1, h2, h3⟩ := ComputeAllGroups_shape rules hlen hnd hj c hc
    exact ⟨⟨h1, h2⟩, by rw [h3]; rfl⟩
  have vrun : ∀ c : BrickCombination,
      ((∃ (color : String) (a : Int), SaltedFrom color a c.Bricks ∧ 1 ≤ a ∧
          a + c.Bricks.length ≤ 100001) ∧ 3 ≤ c.Bricks.length) →
      (jokersOf c.Bricks : Int) ≤ 2 → c.IsValidRun.1 = true ∨ c.IsValidGroup.1 = true := by
    rintro ⟨l⟩ ⟨⟨color, a, h1, h2, h3⟩, h4⟩ h5
    exact valid_of_salted color l a h1 h2 h4 h3 (by dsimp only at h4 h5; omega)
  have vgroup : ∀ c : BrickCombination, (GroupLike c.Bricks ∧ 3 ≤ c.Bricks.length) →
      (jokersOf c.Bricks : Int) ≤ 2 → c.IsValidRun.1 = true ∨ c.IsValidGroup.1 = true := by
    rintro ⟨l⟩ ⟨h1, h2⟩ h5
    exact Or.inr (IsValidGroup_of_GroupLike l h2
      (exists_nonJoker l (by dsimp only at h2 h5; omega)) h1)
  have hsr : ∀ c ∈ saltWithJokers (ComputeAllRuns rules.BaseBricks) rules.JokersPerCombination,
      c.IsValidRun.1 = true ∨ c.IsValidGroup.1 = true := by
    intro c hc
    obtain ⟨q1, q2⟩ := saltWithJokersRec_inv _ hQrun _ _ _ 0 2 (by decide) hjpc hruns c hc
    exact vrun c q1 (by omega)
  have hsg : ∀ c ∈ saltWithJokers (ComputeAllGroups rules.BaseBricks)
      rules.JokersPerCombination, c.IsValidRun.1 = true ∨ c.IsValidGroup.1 = true := by
    intro c hc
    obtain ⟨q1, q2⟩ := saltWithJokersRec_inv _ hQgroup _ _ _ 0 2 (by decide) hjpc hgroups c hc
    exact vgroup c q1 (by omega)
  have hr : ∀ c ∈ ComputeAllRuns rules.BaseBricks,
      c.IsValidRun.1 = true ∨ c.IsValidGroup.1 = true :=
    fun c hc => vrun c (hruns c hc).1 (by have := (hruns c hc).2; omega)
  have hg : ∀ c ∈ ComputeAllGroups rules.BaseBricks,
      c.IsValidRun.1 = true ∨ c.IsValidGroup.1 = true :=
    fun c hc => vgroup c (hgroups c hc).1 (by have := (hgroups c hc).2; omega)
  refine ⟨?_, ?_⟩
  · rintro c (h | h | h | h)
    · exact hr c h
    · exact hg c h
    · exact hsr c h
    · exact hsg c h
  · unfold NewILPSolver
    dsimp only
    obtain ⟨s1, e1⟩ := addCombinations_isSome _
      { combinations := []
        uniqueBricks :=
          if rules.JokersInPlay > 0 then rules.BaseBricks ++ [MakeJoker] else rules.BaseBricks
        rules := rules
        combinationHashes := []
        totalRuns := 0
        totalGroups := 0
        groupSizes := []
        runSizes := [] } hsg
    obtain ⟨s2, e2⟩ := addCombinations_isSome _ s1 hsr
    obtain ⟨s3, e3⟩ := addCombinations_isSome _ s2 hg
    obtain ⟨s4, e4⟩ := addCombinations_isSome _ s3 hr
    refine ⟨s4, ?_⟩
    rw [e1, Option.some_bind, e2, Option.some_bind, e3, Option.some_bind, e4]

/-- The default rules for C40: four distinct colours, none the joker colour,
13 values and one joker in a combination; `NewILPSolver` returns. -/
theorem NewILPSolver_returns_witness :
    3 ≤ NewDefaultRules.Colors.length ∧ NewDefaultRules.Colors.Nodup ∧
      JokerColor ∉ NewDefaultRules.Colors ∧ NewDefaultRules.Values ≤ 100000 ∧
      NewDefaultRules.JokersPerCombination ≤ 2 ∧ ∃ s, NewILPSolver NewDefaultRules = some s :=
  ⟨by decide, by decide, by decide, by decide, by decide,
    (NewILPSolver_returns NewDefaultRules (by decide) (by decide) (by decide) (by decide)
      (by decide)).2⟩

end Rummikub
